import Mathlib

/-!
Verification of the mixbox data-modeling layer (CybOXProject/mixbox).

This file shallowly embeds the parts of `mixbox/namespaces.py`,
`mixbox/fields.py` and `mixbox/entities.py` that the claims concern, and
proves or refutes each claim.

Modelling conventions:
* Python dicts are insertion-ordered association lists (`alookup`, `aset`,
  `aremove` mirror `d[k]`, `d[k] = v`, `del d[k]`).
* Python object identity for `_NamespaceInfo` is modelled with an explicit
  heap: a `_NamespaceInfo` object is a slot in `NamespaceSet.heap`, and the
  uri and prefix maps store slot indices.  `a is b` becomes index equality.
* Python exceptions are modelled by returning `state × Option NsError`:
  the state component is the state at the moment the exception propagates
  (Python does not roll back mutations made before a raise).
* Python truthiness of optional strings: `None` and `""` are falsy.
-/

namespace Mixbox

/-- Association list lookup, mirroring Python `d[k]` / `d.get(k)`. -/
def alookup {α β : Type} [DecidableEq α] : List (α × β) → α → Option β
  | [], _ => none
  | (k, v) :: rest, key => if k = key then some v else alookup rest key

/-- Association list update, mirroring Python `d[k] = v`: replaces the value
in place if the key exists (keeping its position), else appends. -/
def aset {α β : Type} [DecidableEq α] : List (α × β) → α → β → List (α × β)
  | [], key, val => [(key, val)]
  | (k, v) :: rest, key, val =>
      if k = key then (k, val) :: rest else (k, v) :: aset rest key val

/-- Association list removal, mirroring Python `del d[k]` (first occurrence). -/
def aremove {α β : Type} [DecidableEq α] : List (α × β) → α → List (α × β)
  | [], _ => []
  | (k, v) :: rest, key => if k = key then rest else (k, v) :: aremove rest key

/-- Keys of an association list, in insertion order (Python dict iteration). -/
def akeys {α β : Type} (l : List (α × β)) : List α := l.map Prod.fst

theorem alookup_mem {α β : Type} [DecidableEq α] {l : List (α × β)} {k : α}
    {v : β} (h : alookup l k = some v) : (k, v) ∈ l := by
  induction l with
  | nil => simp [alookup] at h
  | cons kv rest ih =>
    obtain ⟨k0, v0⟩ := kv
    by_cases hk : k0 = k
    · subst hk
      simp [alookup] at h
      simp [h]
    · simp [alookup, hk] at h
      exact List.mem_cons_of_mem _ (ih h)

theorem mem_alookup {α β : Type} [DecidableEq α] {l : List (α × β)} {k : α}
    {v : β} (hnd : (akeys l).Nodup) (h : (k, v) ∈ l) : alookup l k = some v := by
  induction l with
  | nil => simp at h
  | cons kv rest ih =>
    obtain ⟨k0, v0⟩ := kv
    simp [akeys] at hnd
    rcases List.mem_cons.mp h with h0 | h0
    · rw [Prod.mk.injEq] at h0
      obtain ⟨h1, h2⟩ := h0
      subst h1; subst h2
      simp [alookup]
    · have hk : k0 ≠ k := by
        intro he
        exact hnd.1 v (he ▸ h0)
      simp [alookup, hk]
      exact ih hnd.2 h0

theorem alookup_isSome_of_mem_keys {α β : Type} [DecidableEq α]
    {l : List (α × β)} {k : α} (h : k ∈ akeys l) :
    (alookup l k).isSome := by
  induction l with
  | nil => simp [akeys] at h
  | cons kv rest ih =>
    obtain ⟨k0, v0⟩ := kv
    by_cases hk : k0 = k
    · simp [alookup, hk]
    · simp [akeys, hk, Ne.symm hk] at h
      simpa [alookup, hk] using ih (by simpa [akeys] using h)

theorem mem_keys_of_alookup {α β : Type} [DecidableEq α]
    {l : List (α × β)} {k : α} {v : β} (h : alookup l k = some v) :
    k ∈ akeys l :=
  List.mem_map_of_mem Prod.fst (alookup_mem h)

theorem alookup_none_of_not_mem_keys {α β : Type} [DecidableEq α]
    {l : List (α × β)} {k : α} (h : k ∉ akeys l) :
    alookup l k = none := by
  cases ha : alookup l k with
  | none => rfl
  | some v => exact absurd (mem_keys_of_alookup ha) h

theorem alookup_aset_self {α β : Type} [DecidableEq α] (l : List (α × β))
    (k : α) (v : β) : alookup (aset l k v) k = some v := by
  induction l with
  | nil => simp [aset, alookup]
  | cons kv rest ih =>
    obtain ⟨k0, v0⟩ := kv
    by_cases hk : k0 = k
    · simp [aset, hk, alookup]
    · simp [aset, hk, alookup, ih]

theorem alookup_aset_ne {α β : Type} [DecidableEq α] (l : List (α × β))
    {k k' : α} (v : β) (h : k' ≠ k) :
    alookup (aset l k v) k' = alookup l k' := by
  induction l with
  | nil => simp [aset, alookup, Ne.symm h]
  | cons kv rest ih =>
    obtain ⟨k0, v0⟩ := kv
    by_cases hk : k0 = k
    · subst hk
      simp [aset, alookup, Ne.symm h]
    · by_cases hk' : k0 = k'
      · simp [aset, hk, alookup, hk', h]
      · simp [aset, hk, alookup, hk', ih]

theorem akeys_aset {α β : Type} [DecidableEq α] (l : List (α × β)) (k : α)
    (v : β) :
    akeys (aset l k v) = if k ∈ akeys l then akeys l else akeys l ++ [k] := by
  induction l with
  | nil => simp [aset, akeys]
  | cons kv rest ih =>
    obtain ⟨k0, v0⟩ := kv
    by_cases hk : k0 = k
    · simp [aset, hk, akeys]
    · simp only [aset, if_neg hk, akeys, List.map_cons] at ih ⊢
      by_cases hmem : k ∈ List.map Prod.fst rest
      · rw [if_pos hmem] at ih
        rw [if_pos (List.mem_cons_of_mem _ hmem), ih]
      · rw [if_neg hmem] at ih
        have hnc : k ∉ k0 :: List.map Prod.fst rest := by
          simp [hmem, Ne.symm hk]
        rw [if_neg hnc, ih]
        rfl

theorem akeys_aset_nodup {α β : Type} [DecidableEq α] {l : List (α × β)}
    (k : α) (v : β) (h : (akeys l).Nodup) : (akeys (aset l k v)).Nodup := by
  rw [akeys_aset]
  by_cases hmem : k ∈ akeys l
  · simpa [hmem] using h
  · simp only [if_neg hmem]
    simpa [List.nodup_append, hmem] using h

theorem mem_aset {α β : Type} [DecidableEq α] {l : List (α × β)}
    {k : α} {v : β} {kv : α × β} (hnd : (akeys l).Nodup)
    (h : kv ∈ aset l k v) :
    kv = (k, v) ∨ (kv ∈ l ∧ kv.1 ≠ k) := by
  induction l with
  | nil => simp [aset] at h; simp [h]
  | cons kv0 rest ih =>
    obtain ⟨k0, v0⟩ := kv0
    simp [akeys] at hnd
    by_cases hk : k0 = k
    · subst hk
      simp only [aset, if_pos rfl] at h
      rcases List.mem_cons.mp h with h0 | h0
      · exact Or.inl h0
      · right
        refine ⟨List.mem_cons_of_mem _ h0, ?_⟩
        intro he
        have h3 : (kv.1, kv.2) ∈ rest := by simpa using h0
        rw [he] at h3
        exact hnd.1 kv.2 h3
    · simp only [aset, if_neg hk] at h
      rcases List.mem_cons.mp h with h0 | h0
      · subst h0
        exact Or.inr ⟨List.mem_cons_self _ _, hk⟩
      · rcases ih hnd.2 h0 with h1 | ⟨h1, h2⟩
        · exact Or.inl h1
        · exact Or.inr ⟨List.mem_cons_of_mem _ h1, h2⟩

theorem mem_aremove {α β : Type} [DecidableEq α] {l : List (α × β)} {k : α}
    {kv : α × β} (h : kv ∈ aremove l k) : kv ∈ l := by
  induction l with
  | nil => simpa [aremove] using h
  | cons kv0 rest ih =>
    obtain ⟨k0, v0⟩ := kv0
    by_cases hk : k0 = k
    · simp only [aremove, if_pos hk] at h
      exact List.mem_cons_of_mem _ h
    · simp only [aremove, if_neg hk] at h
      rcases List.mem_cons.mp h with h0 | h0
      · exact h0 ▸ List.mem_cons_self _ _
      · exact List.mem_cons_of_mem _ (ih h0)

theorem akeys_aremove_sublist {α β : Type} [DecidableEq α]
    (l : List (α × β)) (k : α) : (akeys (aremove l k)).Sublist (akeys l) := by
  induction l with
  | nil => simp [aremove, akeys]
  | cons kv0 rest ih =>
    obtain ⟨k0, v0⟩ := kv0
    by_cases hk : k0 = k
    · simp only [aremove, if_pos hk, akeys, List.map_cons]
      exact List.Sublist.cons _ (List.Sublist.refl _)
    · simp only [aremove, if_neg hk, akeys, List.map_cons]
      exact List.Sublist.cons₂ _ ih

theorem akeys_aremove_nodup {α β : Type} [DecidableEq α]
    {l : List (α × β)} (k : α) (h : (akeys l).Nodup) :
    (akeys (aremove l k)).Nodup :=
  (akeys_aremove_sublist l k).nodup h

theorem alookup_aremove_self {α β : Type} [DecidableEq α]
    {l : List (α × β)} {k : α} (hnd : (akeys l).Nodup) :
    alookup (aremove l k) k = none := by
  induction l with
  | nil => simp [aremove, alookup]
  | cons kv0 rest ih =>
    obtain ⟨k0, v0⟩ := kv0
    simp [akeys] at hnd
    by_cases hk : k0 = k
    · subst hk
      have h5 : aremove ((k0, v0) :: rest) k0 = rest := by simp [aremove]
      rw [h5]
      apply alookup_none_of_not_mem_keys
      intro hmem
      rcases List.mem_map.mp hmem with ⟨kv1, h1, h2⟩
      have h4 : (k0, kv1.2) ∈ rest := by
        rw [← h2]
        simpa using h1
      exact hnd.1 kv1.2 h4
    · simp only [aremove, if_neg hk, alookup, if_neg hk]
      exact ih hnd.2

theorem alookup_aremove_ne {α β : Type} [DecidableEq α]
    (l : List (α × β)) {k k' : α} (h : k' ≠ k) :
    alookup (aremove l k) k' = alookup l k' := by
  induction l with
  | nil => simp [aremove]
  | cons kv0 rest ih =>
    obtain ⟨k0, v0⟩ := kv0
    by_cases hk : k0 = k
    · subst hk
      have h5 : aremove ((k0, v0) :: rest) k0 = rest := by simp [aremove]
      rw [h5]
      simp [alookup, Ne.symm h]
    · by_cases hk' : k0 = k'
      · subst hk'
        simp [aremove, hk, alookup]
      · simp [aremove, hk, alookup, hk', ih]

theorem getD_concat_lt {α : Type} (h : List α) (x d : α) {i : Nat}
    (hi : i < h.length) : (h ++ [x]).getD i d = h.getD i d := by
  induction h generalizing i with
  | nil => simp at hi
  | cons y rest ih =>
    cases i with
    | zero => simp [List.getD]
    | succ j =>
      simp only [List.length_cons, Nat.succ_lt_succ_iff] at hi
      simpa [List.getD] using ih hi

theorem getD_concat_len {α : Type} (h : List α) (x d : α) :
    (h ++ [x]).getD h.length d = x := by
  induction h with
  | nil => simp [List.getD]
  | cons y rest ih => simpa [List.getD] using ih

theorem getD_set_self {α : Type} (h : List α) (x d : α) {i : Nat}
    (hi : i < h.length) : (h.set i x).getD i d = x := by
  induction h generalizing i with
  | nil => simp at hi
  | cons y rest ih =>
    cases i with
    | zero => simp [List.getD]
    | succ j =>
      simp only [List.length_cons, Nat.succ_lt_succ_iff] at hi
      simpa [List.getD, List.set] using ih hi

theorem getD_set_ne {α : Type} (h : List α) (x d : α) {i j : Nat}
    (hij : j ≠ i) : (h.set i x).getD j d = h.getD j d := by
  induction h generalizing i j with
  | nil => simp
  | cons y rest ih =>
    cases i with
    | zero =>
      cases j with
      | zero => exact absurd rfl hij
      | succ j2 => simp [List.getD, List.set]
    | succ i2 =>
      cases j with
      | zero => simp [List.getD, List.set]
      | succ j2 =>
        have : j2 ≠ i2 := fun he => hij (by rw [he])
        simpa [List.getD, List.set] using ih this

/-! ## Model of `mixbox/namespaces.py` -/

/-- The exceptions raised by `mixbox/namespaces.py` (plus Python built-ins
`AssertionError` and `KeyError`, which some code paths can raise). -/
inductive NsError : Type where
  | duplicatePfx (p : String) (uri1 uri2 : String)
  | conflictingSchemaLoc (uri : String) (a b : Option String)
  | namespaceNotFound (uri : String)
  | pfxNotFound (p : String)
  | tooManyDefaults (uri : String)
  | noPfxes (uri : String)
  | keyError
  | assertionError
deriving DecidableEq, Repr

/-- `_NamespaceInfo`: uri, ordered set of prefixes, preferred prefix,
schema location.  `prefixes` is an `OrderedSet`; we model it as a list
without duplicates (insertion order, `add` appends if absent). -/
structure NamespaceInfo : Type where
  uri : String
  pfxes : List String
  preferredPfx : Option String
  schemaLoc : Option String
deriving DecidableEq, Repr

/-- A `NamespaceSet`.  `heap` models the store of `_NamespaceInfo` objects:
a slot index is a Python object identity.  `uriMap` models
`__ns_uri_map` (uri → info) and `pfxMap` models `__prefix_map`
(prefix → info); both store heap indices where Python stores references.
`pfxMap` keys are `Option String` because Python would accept `None` as a
dict key (the validity check looks for it). -/
structure NamespaceSet : Type where
  heap : List NamespaceInfo
  uriMap : List (String × Nat)
  pfxMap : List (Option String × Nat)
deriving DecidableEq, Repr

/-- `NamespaceSet()`: created empty. -/
def emptyNS : NamespaceSet := ⟨[], [], []⟩

/-- Dereference a heap slot (Python attribute access on an info object). -/
def heapGet (s : NamespaceSet) (i : Nat) : NamespaceInfo :=
  s.heap.getD i ⟨"", [], none, none⟩

/-- Python truthiness of an optional string: `None` and `""` are falsy. -/
def truthyOptStr : Option String → Bool
  | none => false
  | some s => !s.isEmpty

/-- Python `x or None` on an optional string. -/
def normOptStr (o : Option String) : Option String :=
  if truthyOptStr o then o else none

/-- `OrderedSet.add`: append if not already present. -/
def osAdd (l : List String) (p : String) : List String :=
  if p ∈ l then l else l ++ [p]

/-- `_NamespaceInfo.__construct_from_components(ns_uri, prefix, schema_location)`:
schema location is normalized with `or None`; the prefix, if truthy, is
added to the prefix set and becomes preferred (`prefix or None`). -/
def mkNamespaceInfo (uri : String) (pfx : Option String)
    (loc : Option String) : NamespaceInfo :=
  { uri := uri
    schemaLoc := normOptStr loc
    pfxes := match normOptStr pfx with
             | some p => [p]
             | none => []
    preferredPfx := normOptStr pfx }

/-- `NamespaceSet.__add_namespaceinfo(ni)` applied to a freshly created (or
deep-copied) info object: allocate a new heap slot and point the uri map
entry for `ni.uri` and the prefix map entries for all of `ni`'s prefixes
at it. -/
def addInfo (s : NamespaceSet) (ni : NamespaceInfo) : NamespaceSet :=
  let idx := s.heap.length
  { heap := s.heap ++ [ni]
    uriMap := aset s.uriMap ni.uri idx
    pfxMap := ni.pfxes.foldl (fun m p => aset m (some p) idx) s.pfxMap }

/-- `__check_prefix_conflict(existing_ni, incoming_prefix)` where the first
argument is a `_NamespaceInfo` in this set (identified by its heap slot):
error iff the prefix is mapped to a *different* info object. -/
def checkPfxConflictNi (s : NamespaceSet) (idx : Nat) (p : String) :
    Option NsError :=
  match alookup s.pfxMap (some p) with
  | none => none
  | some j =>
      if j = idx then none
      else some (.duplicatePfx p (heapGet s j).uri (heapGet s idx).uri)

/-- `__check_prefix_conflict(ns_uri, incoming_prefix)` where the first
argument is a uri string not expected to be in the set: any existing
mapping of the prefix is a conflict (and an `assert` fires if the uri is
unexpectedly present). -/
def checkPfxConflictUri (s : NamespaceSet) (uri : String) (p : String) :
    Option NsError :=
  match alookup s.pfxMap (some p) with
  | none => none
  | some j =>
      if (alookup s.uriMap uri).isSome then some .assertionError
      else some (.duplicatePfx p (heapGet s j).uri uri)

/-- `__merge_schema_locations(ni, incoming_schemaloc)`: keep equal values;
fill in a falsy existing location from the (normalized) incoming one; keep
the existing one when the incoming one is falsy; otherwise raise
`ConflictingSchemaLocationError`. -/
def mergeSchemaLocs (ni : NamespaceInfo) (incoming : Option String) :
    Except NsError NamespaceInfo :=
  if ni.schemaLoc = incoming then .ok ni
  else if ¬ truthyOptStr ni.schemaLoc then
    .ok { ni with schemaLoc := normOptStr incoming }
  else if ¬ truthyOptStr incoming then .ok ni
  else .error (.conflictingSchemaLoc ni.uri ni.schemaLoc incoming)

/-- `NamespaceSet.add_namespace_uri(ns_uri, prefix, schema_location)`.
Returns the set as left by the call together with the exception raised,
if any.  In the merge branch a deep copy of the existing info is mutated
and swapped in only on full success (fresh heap slot). -/
def addNamespaceUri (s : NamespaceSet) (uri : String) (pfx : Option String)
    (loc : Option String) : NamespaceSet × Option NsError :=
  if uri = "" then (s, some .assertionError)
  else
    match alookup s.uriMap uri with
    | some idx =>
        let ni := heapGet s idx
        let step1 : Except NsError NamespaceInfo :=
          match normOptStr pfx with
          | some p =>
              match checkPfxConflictNi s idx p with
              | some e => .error e
              | none => .ok { ni with pfxes := osAdd ni.pfxes p }
          | none => .ok ni
        match step1 with
        | .error e => (s, some e)
        | .ok ni1 =>
            match mergeSchemaLocs ni1 loc with
            | .error e => (s, some e)
            | .ok ni2 =>
                let idx2 := s.heap.length
                ({ heap := s.heap ++ [ni2]
                   uriMap := aset s.uriMap ni2.uri idx2
                   pfxMap := ni2.pfxes.foldl
                     (fun m p => aset m (some p) idx2) s.pfxMap }, none)
    | none =>
        let conflict : Option NsError :=
          match normOptStr pfx with
          | some p => checkPfxConflictUri s uri p
          | none => none
        match conflict with
        | some e => (s, some e)
        | none => (addInfo s (mkNamespaceInfo uri pfx loc), none)

/-- `NamespaceSet.add_prefix(ns_uri, prefix, set_as_preferred)`.  The info
object is mutated in place (its heap slot is overwritten). -/
def addPfx (s : NamespaceSet) (uri : String) (p : String)
    (setAsPreferred : Bool) : NamespaceSet × Option NsError :=
  if p = "" then (s, some .assertionError)
  else
    match alookup s.uriMap uri with
    | none => (s, some (.namespaceNotFound uri))
    | some idx =>
        match checkPfxConflictNi s idx p with
        | some e => (s, some e)
        | none =>
            let ni := heapGet s idx
            let ni1 := { ni with pfxes := osAdd ni.pfxes p }
            let ni2 := if setAsPreferred
                       then { ni1 with preferredPfx := some p } else ni1
            ({ s with heap := s.heap.set idx ni2
                      pfxMap := aset s.pfxMap (some p) idx }, none)

/-- `NamespaceSet.set_preferred_prefix_for_namespace(ns_uri, prefix,
add_if_not_exist)`. -/
def setPreferredPfx (s : NamespaceSet) (uri : String) (pfx : Option String)
    (addIfNotExist : Bool) : NamespaceSet × Option NsError :=
  match alookup s.uriMap uri with
  | none => (s, some (.namespaceNotFound uri))
  | some idx =>
      let ni := heapGet s idx
      match normOptStr pfx with
      | none =>
          ({ s with heap := s.heap.set idx { ni with preferredPfx := none } },
           none)
      | some p =>
          if p ∈ ni.pfxes then
            ({ s with
                 heap := s.heap.set idx { ni with preferredPfx := some p } },
             none)
          else if addIfNotExist then addPfx s uri p true
          else (s, some (.pfxNotFound p))

/-- The deletion loop of `remove_namespace`: `del self.__prefix_map[prefix]`
for each prefix; a missing key raises `KeyError` and leaves the mutations
already made in place. -/
def delPfxKeys : NamespaceSet → List String → NamespaceSet × Option NsError
  | s, [] => (s, none)
  | s, p :: rest =>
      if (alookup s.pfxMap (some p)).isSome then
        delPfxKeys { s with pfxMap := aremove s.pfxMap (some p) } rest
      else (s, some .keyError)

/-- `NamespaceSet.remove_namespace(ns_uri)`: no-op if absent; else pop the
uri entry and delete all its prefixes from the prefix map. -/
def removeNamespace (s : NamespaceSet) (uri : String) :
    NamespaceSet × Option NsError :=
  match alookup s.uriMap uri with
  | none => (s, none)
  | some idx =>
      let ni := heapGet s idx
      delPfxKeys { s with uriMap := aremove s.uriMap uri } ni.pfxes

/-- `NamespaceSet.remove_prefix(prefix)`: no-op if the prefix is unmapped;
else discard it from its info's prefix set, delete its map entry, and if
it was the preferred prefix re-elect the first remaining one (or none). -/
def removePfx (s : NamespaceSet) (p : String) :
    NamespaceSet × Option NsError :=
  match alookup s.pfxMap (some p) with
  | none => (s, none)
  | some idx =>
      let ni := heapGet s idx
      let pf2 := ni.pfxes.erase p
      let pref2 := if ni.preferredPfx = some p then pf2.head?
                   else ni.preferredPfx
      ({ s with heap := s.heap.set idx
                  { ni with pfxes := pf2, preferredPfx := pref2 }
                pfxMap := aremove s.pfxMap (some p) }, none)

/-- One iteration of the `import_from` loop, for the uri `u` drawn from
`other`'s uri map: if `u` is new here, check all of its prefixes for
conflicts and add a deep-copied info; if present and `replace`, check
conflicts against our own info, remove our namespace and add the clone;
else skip. -/
def importOne (s other : NamespaceSet) (repl : Bool) (u : String) :
    NamespaceSet × Option NsError :=
  let otherNi := heapGet other ((alookup other.uriMap u).getD other.heap.length)
  match alookup s.uriMap u with
  | none =>
      match otherNi.pfxes.findSome? (checkPfxConflictUri s u) with
      | some e => (s, some e)
      | none => (addInfo s otherNi, none)
  | some idx =>
      if repl then
        match otherNi.pfxes.findSome? (checkPfxConflictNi s idx) with
        | some e => (s, some e)
        | none =>
            match removeNamespace s u with
            | (s1, some e) => (s1, some e)
            | (s1, none) => (addInfo s1 otherNi, none)
      else (s, none)

/-- The `import_from` loop over `other`'s uris; an exception propagates
immediately, leaving earlier iterations' effects in place. -/
def importFromGo (other : NamespaceSet) (repl : Bool) :
    NamespaceSet → List String → NamespaceSet × Option NsError
  | s, [] => (s, none)
  | s, u :: rest =>
      match importOne s other repl u with
      | (s1, some e) => (s1, some e)
      | (s1, none) => importFromGo other repl s1 rest

/-- `NamespaceSet.import_from(other_ns, replace)`. -/
def importFrom (s other : NamespaceSet) (repl : Bool) :
    NamespaceSet × Option NsError :=
  importFromGo other repl s (akeys other.uriMap)

/-- `NamespaceSet.is_valid()` / `assert_valid()`: for every uri entry, the
info has a truthy uri equal to the key; the preferred prefix, if set, is a
member of the prefix set; every member prefix is truthy and its prefix-map
entry points back at this same info object (heap slot); and `None` is not
a prefix-map key. -/
def isValid (s : NamespaceSet) : Bool :=
  (s.uriMap.all fun kv =>
    let ni := heapGet s kv.2
    (!ni.uri.isEmpty) &&
    (kv.1 == ni.uri) &&
    (match ni.preferredPfx with
     | none => true
     | some q => ni.pfxes.contains q) &&
    (ni.pfxes.all fun q =>
      (!q.isEmpty) && (alookup s.pfxMap (some q) == some kv.2))) &&
  (alookup s.pfxMap none == none)

/-- An `xmlns:p="uri"` declaration, as formatted by `get_xmlns_string`. -/
def pfxDecl (p uri : String) : String :=
  "xmlns:" ++ p ++ "=\"" ++ uri ++ "\""

/-- An unprefixed `xmlns="uri"` default declaration. -/
def defaultDecl (uri : String) : String :=
  "xmlns=\"" ++ uri ++ "\""

/-- The loop of `NamespaceSet.get_xmlns_string`, building the
`xmlns_entries` list: the boolean argument is the `have_default` flag.
For each uri: emit the preferred-prefix entry (or, if not
`preferred_prefixes_only`, one entry per registered prefix); a namespace
preferring default becomes the document default if the flag is unset,
otherwise it falls back to its first registered prefix (under
`preferred_prefixes_only`) or raises `TooManyDefaultNamespacesError` if it
has none. -/
def xmlnsEntries (s : NamespaceSet) (preferredOnly : Bool) :
    List String → Bool → Except NsError (List String)
  | [], _ => .ok []
  | u :: rest, haveDefault =>
      match alookup s.uriMap u with
      | none => .error (.namespaceNotFound u)
      | some i =>
          let ni := heapGet s i
          let head : List String :=
            if preferredOnly then
              match ni.preferredPfx with
              | some pp => [pfxDecl pp ni.uri]
              | none => []
            else ni.pfxes.map (fun p => pfxDecl p ni.uri)
          match ni.preferredPfx with
          | some _ =>
              match xmlnsEntries s preferredOnly rest haveDefault with
              | .error e => .error e
              | .ok es => .ok (head ++ es)
          | none =>
              if haveDefault then
                match ni.pfxes with
                | [] => .error (.tooManyDefaults ni.uri)
                | p :: _ =>
                    let chosen : List String :=
                      if preferredOnly then [pfxDecl p ni.uri] else []
                    match xmlnsEntries s preferredOnly rest true with
                    | .error e => .error e
                    | .ok es => .ok (head ++ chosen ++ es)
              else
                match xmlnsEntries s preferredOnly rest true with
                | .error e => .error e
                | .ok es => .ok (head ++ [defaultDecl ni.uri] ++ es)

/-- `NamespaceSet.get_xmlns_string(ns_uris, sort, preferred_prefixes_only,
delim)`: defaults to all uris in the set; optionally sorts; joins the
entries with the delimiter and appends one trailing delimiter. -/
def getXmlnsString (s : NamespaceSet) (uris : Option (List String))
    (sortFlag : Bool) (preferredOnly : Bool) (delim : String) :
    Except NsError String :=
  let us := match uris with
            | some us => us
            | none => akeys s.uriMap
  let us := if sortFlag then us.mergeSort (· ≤ ·) else us
  match xmlnsEntries s preferredOnly us false with
  | .error e => .error e
  | .ok es => .ok (String.intercalate delim es ++ delim)

/-- The info currently registered for a uri (meaningful when the uri is in
the set). -/
def infoOf (s : NamespaceSet) (u : String) : NamespaceInfo :=
  match alookup s.uriMap u with
  | some i => heapGet s i
  | none => ⟨"", [], none, none⟩

/-- C6.  After binding prefix "a" to "urn:a", `add_namespace_uri("urn:b",
"a")` raises `DuplicatePrefixError` carrying the prefix and both uris,
existing first, and leaves the set unchanged (the result state equals the
state before the call). -/
theorem claim6_duplicate_pfx_scenario :
    addNamespaceUri (addNamespaceUri emptyNS "urn:a" (some "a") none).1
        "urn:b" (some "a") none =
      ((addNamespaceUri emptyNS "urn:a" (some "a") none).1,
       some (.duplicatePfx "a" "urn:a" "urn:b")) := by
  decide

theorem isValid_uri_eq {s : NamespaceSet} {u : String} {i : Nat}
    (hv : isValid s = true) (h : alookup s.uriMap u = some i) :
    (heapGet s i).uri = u := by
  have hm := alookup_mem h
  simp only [isValid, Bool.and_eq_true, List.all_eq_true] at hv
  have h2 := hv.1 (u, i) hm
  simp only [Bool.and_eq_true, beq_iff_eq] at h2
  exact h2.1.1.2.symm

/-- A namespace that prefers default rendering but has no registered
prefixes: under an already-taken default slot, `get_xmlns_string` raises
for the first such namespace it meets. -/
def badDefault (s : NamespaceSet) (v : String) : Bool :=
  ((infoOf s v).preferredPfx == none) && (infoOf s v).pfxes.isEmpty

theorem xmlnsEntries_nonDefault_segment {s : NamespaceSet}
    (hv : isValid s = true) (as rest : List String) (b : Bool)
    (hall : ∀ a ∈ as, (alookup s.uriMap a).isSome = true)
    (hpre : ∀ a ∈ as, (infoOf s a).preferredPfx ≠ none) :
    xmlnsEntries s true (as ++ rest) b =
      match xmlnsEntries s true rest b with
      | .error e => .error e
      | .ok es =>
          .ok ((as.map fun a => pfxDecl ((infoOf s a).preferredPfx.getD "") a)
               ++ es) := by
  induction as with
  | nil =>
    simp only [List.nil_append, List.map_nil]
    cases xmlnsEntries s true rest b <;> simp
  | cons a as2 ih =>
    have hs := hall a (List.mem_cons_self _ _)
    obtain ⟨i, hi⟩ := Option.isSome_iff_exists.mp hs
    have hinfo : infoOf s a = heapGet s i := by simp [infoOf, hi]
    have hpa := hpre a (List.mem_cons_self _ _)
    rw [hinfo] at hpa
    obtain ⟨pp, hpp⟩ := Option.ne_none_iff_exists.mp hpa
    have huri : (heapGet s i).uri = a := isValid_uri_eq hv hi
    have ih2 := ih (fun x hx => hall x (List.mem_cons_of_mem _ hx))
      (fun x hx => hpre x (List.mem_cons_of_mem _ hx))
    simp only [List.cons_append, xmlnsEntries, hi, ← hpp, List.append_eq,
      if_true]
    rw [ih2]
    cases hres : xmlnsEntries s true rest b with
    | error e => simp [hres]
    | ok es => simp [hres, hinfo, ← hpp, huri]

theorem xmlnsEntries_haveDefault {s : NamespaceSet} (hv : isValid s = true)
    (us : List String) (hall : ∀ v ∈ us, (alookup s.uriMap v).isSome = true) :
    (match (us.filter (badDefault s)).head? with
     | some v0 => xmlnsEntries s true us true = .error (.tooManyDefaults v0)
     | none => ∃ es, xmlnsEntries s true us true = .ok es ∧
         (∀ e ∈ es, ∃ p u2, e = pfxDecl p u2) ∧
         (∀ v ∈ us, (infoOf s v).preferredPfx = none →
           ∃ p ps, (infoOf s v).pfxes = p :: ps ∧ pfxDecl p v ∈ es)) := by
  induction us with
  | nil => exact ⟨[], rfl, by simp, by simp⟩
  | cons u rest ih =>
    have hs := hall u (List.mem_cons_self _ _)
    obtain ⟨i, hi⟩ := Option.isSome_iff_exists.mp hs
    have hinfo : infoOf s u = heapGet s i := by simp [infoOf, hi]
    have huri : (heapGet s i).uri = u := isValid_uri_eq hv hi
    have ih2 := ih (fun x hx => hall x (List.mem_cons_of_mem _ hx))
    cases hpref : (heapGet s i).preferredPfx with
    | some pp =>
      have hbad : badDefault s u = false := by
        simp [badDefault, hinfo, hpref]
      rw [List.filter_cons_of_neg (by simp [hbad])]
      cases hh : (rest.filter (badDefault s)).head? with
      | some v0 =>
        rw [hh] at ih2
        simp [xmlnsEntries, hi, hpref, ih2]
      | none =>
        rw [hh] at ih2
        obtain ⟨es, hes, hshape, hmem⟩ := ih2
        refine ⟨pfxDecl pp (heapGet s i).uri :: es, ?_, ?_, ?_⟩
        · simp only [xmlnsEntries, hi, hpref, hes]
          rfl
        · intro e he
          rcases List.mem_cons.mp he with h0 | h0
          · exact ⟨pp, (heapGet s i).uri, h0⟩
          · exact hshape e h0
        · intro v hvmem hvpref
          rcases List.mem_cons.mp hvmem with h0 | h0
          · rw [h0, hinfo, hpref] at hvpref
            exact absurd hvpref (by simp)
          · obtain ⟨p, ps, hps, hpm⟩ := hmem v h0 hvpref
            exact ⟨p, ps, hps, List.mem_cons_of_mem _ hpm⟩
    | none =>
      cases hpf : (heapGet s i).pfxes with
      | nil =>
        have hbad : badDefault s u = true := by
          simp [badDefault, hinfo, hpref, hpf]
        rw [List.filter_cons_of_pos (by simp [hbad])]
        simp only [List.head?_cons]
        simp [xmlnsEntries, hi, hpref, hpf, huri]
      | cons p ps =>
        have hbad : badDefault s u = false := by
          simp [badDefault, hinfo, hpref, hpf]
        rw [List.filter_cons_of_neg (by simp [hbad])]
        cases hh : (rest.filter (badDefault s)).head? with
        | some v0 =>
          rw [hh] at ih2
          simp [xmlnsEntries, hi, hpref, hpf, ih2]
        | none =>
          rw [hh] at ih2
          obtain ⟨es, hes, hshape, hmem⟩ := ih2
          refine ⟨pfxDecl p (heapGet s i).uri :: es, ?_, ?_, ?_⟩
          · simp only [xmlnsEntries, hi, hpref, hpf, hes]
            rfl
          · intro e he
            rcases List.mem_cons.mp he with h0 | h0
            · exact ⟨p, (heapGet s i).uri, h0⟩
            · exact hshape e h0
          · intro v hvmem hvpref
            rcases List.mem_cons.mp hvmem with h0 | h0
            · subst h0
              rw [hinfo, hpf]
              exact ⟨p, ps, rfl, by rw [huri]; exact List.mem_cons_self _ _⟩
            · obtain ⟨p2, ps2, hps2, hpm2⟩ := hmem v h0 hvpref
              exact ⟨p2, ps2, hps2, List.mem_cons_of_mem _ hpm2⟩

/-- C4.  In `get_xmlns_string` (with `preferred_prefixes_only`), iterating
the target uris in order: with `uris = as ++ u0 :: bs` where `u0` is the
first namespace preferring default rendering, `u0` is rendered as the
unprefixed default declaration after the preferred-prefix declarations of
`as`; every later namespace preferring default is instead rendered with
the first of its registered prefixes (all remaining entries are prefixed
declarations); and the call raises `TooManyDefaultNamespacesError`
exactly when some later namespace preferring default has no registered
prefixes (for the first such namespace). -/
theorem claim4_xmlns_default_handling {s : NamespaceSet}
    {uris as bs : List String} {u0 : String}
    (hv : isValid s = true)
    (hall : ∀ u ∈ uris, (alookup s.uriMap u).isSome = true)
    (hsplit : uris = as ++ u0 :: bs)
    (hpre : ∀ a ∈ as, (infoOf s a).preferredPfx ≠ none)
    (hu0 : (infoOf s u0).preferredPfx = none) :
    match (bs.filter (badDefault s)).head? with
    | some v0 => xmlnsEntries s true uris false = .error (.tooManyDefaults v0)
    | none => ∃ esB, xmlnsEntries s true uris false =
        .ok ((as.map fun a => pfxDecl ((infoOf s a).preferredPfx.getD "") a)
             ++ defaultDecl u0 :: esB) ∧
        (∀ e ∈ esB, ∃ p u2, e = pfxDecl p u2) ∧
        (∀ v ∈ bs, (infoOf s v).preferredPfx = none →
          ∃ p ps, (infoOf s v).pfxes = p :: ps ∧ pfxDecl p v ∈ esB) := by
  subst hsplit
  have hallas : ∀ a ∈ as, (alookup s.uriMap a).isSome = true :=
    fun a ha => hall a (by simp [ha])
  have hs0 : (alookup s.uriMap u0).isSome = true := hall u0 (by simp)
  obtain ⟨i, hi⟩ := Option.isSome_iff_exists.mp hs0
  have hinfo : infoOf s u0 = heapGet s i := by simp [infoOf, hi]
  have huri := isValid_uri_eq hv hi
  have hpref : (heapGet s i).preferredPfx = none := by
    rw [← hinfo]; exact hu0
  have hsegs := xmlnsEntries_nonDefault_segment hv as (u0 :: bs) false
    hallas hpre
  have hallbs : ∀ v ∈ bs, (alookup s.uriMap v).isSome = true :=
    fun v hvv => hall v (by simp [hvv])
  have hX2 := xmlnsEntries_haveDefault hv bs hallbs
  have hstep : xmlnsEntries s true (u0 :: bs) false =
      match xmlnsEntries s true bs true with
      | .error e => .error e
      | .ok es => .ok (defaultDecl u0 :: es) := by
    cases hres : xmlnsEntries s true bs true with
    | error e => simp [xmlnsEntries, hi, hpref, huri, hres]
    | ok es => simp [xmlnsEntries, hi, hpref, huri, hres]
  cases hh : (bs.filter (badDefault s)).head? with
  | some v0 =>
    rw [hh] at hX2
    rw [hsegs, hstep, hX2]
  | none =>
    rw [hh] at hX2
    obtain ⟨es, hes, hshape, hmem⟩ := hX2
    refine ⟨es, ?_, hshape, hmem⟩
    rw [hsegs, hstep, hes]

/-- A concrete valid set for the C4 witness: "u:one" prefers prefix "p1";
"u:two" prefers default and has no prefixes; "u:three" prefers default
but has registered prefix "q". -/
def claim4W : NamespaceSet :=
  { heap := [⟨"u:one", ["p1"], some "p1", none⟩,
             ⟨"u:two", [], none, none⟩,
             ⟨"u:three", ["q"], none, none⟩]
    uriMap := [("u:one", 0), ("u:two", 1), ("u:three", 2)]
    pfxMap := [(some "p1", 0), (some "q", 2)] }

theorem claim4_xmlns_default_handling_witness :
    ∃ esB, xmlnsEntries claim4W true ["u:one", "u:two", "u:three"] false =
        .ok ((["u:one"].map fun a =>
               pfxDecl ((infoOf claim4W a).preferredPfx.getD "") a)
             ++ defaultDecl "u:two" :: esB) ∧
      (∀ e ∈ esB, ∃ p u2, e = pfxDecl p u2) ∧
      (∀ v ∈ ["u:three"], (infoOf claim4W v).preferredPfx = none →
        ∃ p ps, (infoOf claim4W v).pfxes = p :: ps ∧ pfxDecl p v ∈ esB) := by
  have h := @claim4_xmlns_default_handling claim4W
    ["u:one", "u:two", "u:three"] ["u:one"] ["u:three"] "u:two"
    (by decide) (by decide) rfl (by decide) (by decide)
  simpa using h

/-! ### The `NamespaceSet` invariant and its preservation -/

/-- The coherence invariant maintained by the public `NamespaceSet`
operations.  It strengthens `is_valid` with the bookkeeping facts needed
to push it through every operation: key uniqueness of both maps, heap
indices in range, and the converse direction of the prefix/uri coherence
(every prefix-map entry belongs to a live info). -/
structure Inv (s : NamespaceSet) : Prop where
  uriNodup : (akeys s.uriMap).Nodup
  pfxNodup : (akeys s.pfxMap).Nodup
  uriIdx : ∀ kv ∈ s.uriMap, kv.2 < s.heap.length
  uriMatch : ∀ kv ∈ s.uriMap, (heapGet s kv.2).uri = kv.1 ∧ kv.1 ≠ ""
  pfxSound : ∀ pv ∈ s.pfxMap,
    (∃ q, pv.1 = some q ∧ q ≠ "" ∧ q ∈ (heapGet s pv.2).pfxes) ∧
    ∃ u, (u, pv.2) ∈ s.uriMap
  pfxComplete : ∀ kv ∈ s.uriMap, ∀ q ∈ (heapGet s kv.2).pfxes,
    alookup s.pfxMap (some q) = some kv.2
  pfxesNodup : ∀ kv ∈ s.uriMap, ((heapGet s kv.2).pfxes).Nodup
  prefOk : ∀ kv ∈ s.uriMap, (heapGet s kv.2).preferredPfx = none ∨
    ∃ q, (heapGet s kv.2).preferredPfx = some q ∧
      q ∈ (heapGet s kv.2).pfxes

theorem inv_empty : Inv emptyNS := by
  constructor <;> simp [emptyNS, akeys]

theorem isValid_of_inv {s : NamespaceSet} (h : Inv s) : isValid s = true := by
  simp only [isValid, Bool.and_eq_true, List.all_eq_true]
  refine ⟨fun kv hkv => ?_, ?_⟩
  · obtain ⟨hm1, hm2⟩ := h.uriMatch kv hkv
    refine ⟨⟨⟨?_, ?_⟩, ?_⟩, ?_⟩
    · rw [← hm1] at hm2
      cases hcase : (heapGet s kv.2).uri.isEmpty with
      | false => rfl
      | true => exact absurd ((String.isEmpty_iff _).mp hcase) hm2
    · simp [hm1]
    · rcases h.prefOk kv hkv with hp | ⟨q, hq1, hq2⟩
      · simp [hp]
      · simp [hq1, hq2]
    · intro q hq
      have hc := h.pfxComplete kv hkv q hq
      have hmem := alookup_mem hc
      obtain ⟨⟨q2, he1, he2, _⟩, _⟩ := h.pfxSound _ hmem
      simp only at he1
      refine ⟨?_, by simp [hc]⟩
      have : q = q2 := by injection he1
      rw [this]
      cases hcase : q2.isEmpty with
      | false => rfl
      | true => exact absurd ((String.isEmpty_iff _).mp hcase) he2
  · cases hn : alookup s.pfxMap none with
    | none => simp
    | some j =>
      obtain ⟨⟨q, hq, _, _⟩, _⟩ := h.pfxSound _ (alookup_mem hn)
      simp at hq

theorem normOptStr_eq_some {o : Option String} {p : String}
    (h : normOptStr o = some p) : o = some p ∧ p ≠ "" := by
  cases o with
  | none => simp [normOptStr, truthyOptStr] at h
  | some q =>
    by_cases hq : q.isEmpty
    · simp [normOptStr, truthyOptStr, hq] at h
    · simp only [normOptStr, truthyOptStr, hq] at h
      simp only [Bool.not_false, if_pos] at h
      obtain rfl : q = p := by injection h
      refine ⟨rfl, ?_⟩
      simpa [String.isEmpty_iff] using hq

theorem osAdd_subset (l : List String) (p : String) : l ⊆ osAdd l p := by
  intro x hx
  by_cases hp : p ∈ l <;> simp [osAdd, hp, hx]

theorem mem_osAdd_self (l : List String) (p : String) : p ∈ osAdd l p := by
  by_cases hp : p ∈ l <;> simp [osAdd, hp]

theorem mem_osAdd {l : List String} {p x : String} (h : x ∈ osAdd l p) :
    x ∈ l ∨ x = p := by
  by_cases hp : p ∈ l
  · simp [osAdd, hp] at h
    exact Or.inl h
  · simp [osAdd, hp] at h
    exact h

theorem osAdd_nodup {l : List String} (p : String) (h : l.Nodup) :
    (osAdd l p).Nodup := by
  by_cases hp : p ∈ l
  · simpa [osAdd, hp] using h
  · simpa [osAdd, hp, List.nodup_append] using h

theorem mem_aset_of_mem_ne {α β : Type} [DecidableEq α] {l : List (α × β)}
    {k : α} {v : β} {kv : α × β} (h : kv ∈ l) (hne : kv.1 ≠ k) :
    kv ∈ aset l k v := by
  induction l with
  | nil => simp at h
  | cons kv0 rest ih =>
    obtain ⟨k0, v0⟩ := kv0
    by_cases hk : k0 = k
    · subst hk
      simp only [aset, if_pos rfl]
      rcases List.mem_cons.mp h with h0 | h0
      · exact absurd (by rw [h0]) hne
      · exact List.mem_cons_of_mem _ h0
    · simp only [aset, if_neg hk]
      rcases List.mem_cons.mp h with h0 | h0
      · exact h0 ▸ List.mem_cons_self _ _
      · exact List.mem_cons_of_mem _ (ih h0)

theorem mem_aremove_ne {α β : Type} [DecidableEq α] {l : List (α × β)}
    {k : α} {kv : α × β} (hnd : (akeys l).Nodup) (h : kv ∈ aremove l k) :
    kv ∈ l ∧ kv.1 ≠ k := by
  induction l with
  | nil => simp [aremove] at h
  | cons kv0 rest ih =>
    obtain ⟨k0, v0⟩ := kv0
    simp [akeys] at hnd
    by_cases hk : k0 = k
    · subst hk
      simp only [aremove, if_pos rfl] at h
      refine ⟨List.mem_cons_of_mem _ h, ?_⟩
      intro he
      have h3 : (kv.1, kv.2) ∈ rest := by simpa using h
      rw [he] at h3
      exact hnd.1 kv.2 h3
    · simp only [aremove, if_neg hk] at h
      rcases List.mem_cons.mp h with h0 | h0
      · refine ⟨h0 ▸ List.mem_cons_self _ _, ?_⟩
        rw [h0]
        exact hk
      · obtain ⟨h1, h2⟩ := ih hnd.2 h0
        exact ⟨List.mem_cons_of_mem _ h1, h2⟩

theorem alookup_foldl_aset {idx : Nat} (qs : List String)
    (m : List (Option String × Nat)) (key : Option String) :
    alookup (qs.foldl (fun m2 p => aset m2 (some p) idx) m) key =
      if key ∈ qs.map some then some idx else alookup m key := by
  induction qs generalizing m with
  | nil => simp
  | cons q rest ih =>
    simp only [List.foldl_cons, ih, List.map_cons, List.mem_cons]
    by_cases hk : key ∈ rest.map some
    · simp [hk]
    · by_cases hq : key = some q
      · simp [hk, hq, alookup_aset_self]
      · simp [hk, hq, alookup_aset_ne _ _ hq]

theorem akeys_foldl_aset_nodup {idx : Nat} (qs : List String)
    {m : List (Option String × Nat)} (h : (akeys m).Nodup) :
    (akeys (qs.foldl (fun m2 p => aset m2 (some p) idx) m)).Nodup := by
  induction qs generalizing m with
  | nil => exact h
  | cons q rest ih => exact ih (akeys_aset_nodup _ _ h)

theorem mem_foldl_aset {idx : Nat} {qs : List String}
    {m : List (Option String × Nat)} {pv : Option String × Nat}
    (hnd : (akeys m).Nodup)
    (h : pv ∈ qs.foldl (fun m2 p => aset m2 (some p) idx) m) :
    (pv.1 ∈ qs.map some ∧ pv.2 = idx) ∨ (pv ∈ m ∧ pv.1 ∉ qs.map some) := by
  induction qs generalizing m with
  | nil =>
    right
    exact ⟨by simpa using h, by simp⟩
  | cons q rest ih =>
    simp only [List.foldl_cons] at h
    rcases ih (akeys_aset_nodup _ _ hnd) h with ⟨h1, h2⟩ | ⟨h1, h2⟩
    · exact Or.inl ⟨by simp [h1], h2⟩
    · rcases mem_aset hnd h1 with h3 | ⟨h3, h4⟩
      · left
        rw [h3]
        simp
      · right
        refine ⟨h3, ?_⟩
        simp only [List.map_cons, List.mem_cons]
        rintro (h5 | h5)
        · exact h4 h5
        · exact h2 h5

theorem alookup_foldl_aremove (qs : List String)
    {m : List (Option String × Nat)} (key : Option String)
    (hnd : (akeys m).Nodup) :
    alookup (qs.foldl (fun m2 q => aremove m2 (some q)) m) key =
      if key ∈ qs.map some then none else alookup m key := by
  induction qs generalizing m with
  | nil => simp
  | cons q rest ih =>
    simp only [List.foldl_cons, ih (akeys_aremove_nodup _ hnd), List.map_cons,
      List.mem_cons]
    by_cases hk : key ∈ rest.map some
    · simp [hk]
    · by_cases hq : key = some q
      · subst hq
        simp [hk, alookup_aremove_self hnd]
      · simp [hk, hq, alookup_aremove_ne _ hq]

theorem mem_foldl_aremove {qs : List String}
    {m : List (Option String × Nat)} {pv : Option String × Nat}
    (hnd : (akeys m).Nodup)
    (h : pv ∈ qs.foldl (fun m2 q => aremove m2 (some q)) m) :
    pv ∈ m ∧ pv.1 ∉ qs.map some := by
  induction qs generalizing m with
  | nil => simpa using h
  | cons q rest ih =>
    simp only [List.foldl_cons] at h
    obtain ⟨h1, h2⟩ := ih (akeys_aremove_nodup _ hnd) h
    obtain ⟨h3, h4⟩ := mem_aremove_ne hnd h1
    refine ⟨h3, ?_⟩
    simp only [List.map_cons, List.mem_cons]
    rintro (h5 | h5)
    · exact h4 h5
    · exact h2 h5

theorem heapGet_addInfo_old {s : NamespaceSet} {ni : NamespaceInfo} {i : Nat}
    (hi : i < s.heap.length) : heapGet (addInfo s ni) i = heapGet s i := by
  show (s.heap ++ [ni]).getD i _ = s.heap.getD i _
  exact getD_concat_lt _ _ _ hi

theorem heapGet_addInfo_new {s : NamespaceSet} {ni : NamespaceInfo} :
    heapGet (addInfo s ni) s.heap.length = ni := by
  show (s.heap ++ [ni]).getD s.heap.length _ = ni
  exact getD_concat_len _ _ _

/-- Adding a fresh info object (new uri, all prefixes unmapped, well-formed
fields) preserves the invariant.  This covers the new-namespace branch of
`add_namespace_uri` and the clone insertion of `import_from`. -/
theorem inv_addInfo {s : NamespaceSet} {ni : NamespaceInfo} (h : Inv s)
    (hu : alookup s.uriMap ni.uri = none)
    (hune : ni.uri ≠ "")
    (hp : ∀ q ∈ ni.pfxes, alookup s.pfxMap (some q) = none)
    (hq : ∀ q ∈ ni.pfxes, q ≠ "")
    (hnd : ni.pfxes.Nodup)
    (hpref : ni.preferredPfx = none ∨
      ∃ q, ni.preferredPfx = some q ∧ q ∈ ni.pfxes) :
    Inv (addInfo s ni) := by
  have hlen : (addInfo s ni).heap.length = s.heap.length + 1 := by
    simp [addInfo]
  have hum : (addInfo s ni).uriMap = aset s.uriMap ni.uri s.heap.length := rfl
  have hpm : (addInfo s ni).pfxMap =
      ni.pfxes.foldl (fun m2 p => aset m2 (some p) s.heap.length) s.pfxMap :=
    rfl
  refine ⟨?_, ?_, ?_, ?_, ?_, ?_, ?_, ?_⟩
  · rw [hum]
    exact akeys_aset_nodup _ _ h.uriNodup
  · rw [hpm]
    exact akeys_foldl_aset_nodup _ h.pfxNodup
  · intro kv hkv
    rw [hum] at hkv
    rcases mem_aset h.uriNodup hkv with h0 | ⟨h0, _⟩
    · rw [h0, hlen]
      exact Nat.lt_succ_self _
    · rw [hlen]
      exact Nat.lt_succ_of_lt (h.uriIdx kv h0)
  · intro kv hkv
    rw [hum] at hkv
    rcases mem_aset h.uriNodup hkv with h0 | ⟨h0, _⟩
    · rw [h0]
      simpa [heapGet_addInfo_new] using hune
    · have hlt := h.uriIdx kv h0
      rw [heapGet_addInfo_old hlt]
      exact h.uriMatch kv h0
  · intro pv hpv
    rw [hpm] at hpv
    rcases mem_foldl_aset h.pfxNodup hpv with ⟨h1, h2⟩ | ⟨h1, h2⟩
    · obtain ⟨q, hq1, hq2⟩ := List.mem_map.mp h1
      refine ⟨⟨q, hq2.symm, hq q hq1, ?_⟩, ⟨ni.uri, ?_⟩⟩
      · rw [h2, heapGet_addInfo_new]
        exact hq1
      · rw [h2, hum]
        exact alookup_mem (alookup_aset_self _ _ _)
    · obtain ⟨⟨q, hq1, hq2, hq3⟩, ⟨u, hu1⟩⟩ := h.pfxSound pv h1
      have hlt := h.uriIdx (u, pv.2) hu1
      refine ⟨⟨q, hq1, hq2, ?_⟩, ⟨u, ?_⟩⟩
      · rw [heapGet_addInfo_old hlt]
        exact hq3
      · rw [hum]
        refine mem_aset_of_mem_ne hu1 ?_
        intro he
        simp only at he
        rw [he] at hu1
        rw [mem_alookup h.uriNodup hu1] at hu
        exact Option.noConfusion hu
  · intro kv hkv q hqmem
    rw [hum] at hkv
    rw [hpm]
    rcases mem_aset h.uriNodup hkv with h0 | ⟨h0, _⟩
    · rw [h0] at hqmem ⊢
      simp only [heapGet_addInfo_new] at hqmem
      rw [alookup_foldl_aset]
      simp [List.mem_map_of_mem some hqmem]
    · have hlt := h.uriIdx kv h0
      rw [heapGet_addInfo_old hlt] at hqmem
      have hcomp := h.pfxComplete kv h0 q hqmem
      rw [alookup_foldl_aset]
      have hnotin : some q ∉ ni.pfxes.map some := by
        intro hin
        obtain ⟨q2, hq2a, hq2b⟩ := List.mem_map.mp hin
        have : q2 = q := by injection hq2b
        rw [this] at hq2a
        rw [hp q hq2a] at hcomp
        exact Option.noConfusion hcomp
      simp [hnotin, hcomp]
  · intro kv hkv
    rw [hum] at hkv
    rcases mem_aset h.uriNodup hkv with h0 | ⟨h0, _⟩
    · rw [h0]
      simpa [heapGet_addInfo_new] using hnd
    · have hlt := h.uriIdx kv h0
      rw [heapGet_addInfo_old hlt]
      exact h.pfxesNodup kv h0
  · intro kv hkv
    rw [hum] at hkv
    rcases mem_aset h.uriNodup hkv with h0 | ⟨h0, _⟩
    · rw [h0]
      simpa [heapGet_addInfo_new] using hpref
    · have hlt := h.uriIdx kv h0
      rw [heapGet_addInfo_old hlt]
      exact h.prefOk kv h0

theorem checkPfxConflictUri_none {s : NamespaceSet} {u p : String}
    (h : checkPfxConflictUri s u p = none) :
    alookup s.pfxMap (some p) = none := by
  unfold checkPfxConflictUri at h
  cases hl : alookup s.pfxMap (some p) with
  | none => rfl
  | some j =>
    rw [hl] at h
    by_cases hc : (alookup s.uriMap u).isSome <;> simp [hc] at h

theorem checkPfxConflictNi_none {s : NamespaceSet} {idx : Nat} {p : String}
    (h : checkPfxConflictNi s idx p = none) :
    alookup s.pfxMap (some p) = none ∨
    alookup s.pfxMap (some p) = some idx := by
  unfold checkPfxConflictNi at h
  cases hl : alookup s.pfxMap (some p) with
  | none => exact Or.inl rfl
  | some j =>
    rw [hl] at h
    by_cases hj : j = idx
    · exact Or.inr (by rw [hj])
    · simp [hj] at h

theorem mergeSchemaLocs_shape {ni ni2 : NamespaceInfo} {loc : Option String}
    (h : mergeSchemaLocs ni loc = .ok ni2) :
    ni2.uri = ni.uri ∧ ni2.pfxes = ni.pfxes ∧
    ni2.preferredPfx = ni.preferredPfx := by
  unfold mergeSchemaLocs at h
  by_cases h1 : ni.schemaLoc = loc
  · simp [h1] at h
    rw [← h]
    exact ⟨rfl, rfl, rfl⟩
  · by_cases h2 : truthyOptStr ni.schemaLoc
    · by_cases h3 : truthyOptStr loc
      · simp [h1, h2, h3] at h
      · simp [h1, h2, h3] at h
        rw [← h]
        exact ⟨rfl, rfl, rfl⟩
    · simp [h1, h2] at h
      rw [← h]
      exact ⟨rfl, rfl, rfl⟩

/-- The merge branch of `add_namespace_uri`: the deep-copied and mutated
info `ni2` (same uri, superset of the old prefixes, conflict-checked new
prefixes) is allocated fresh and both maps are repointed at it.  The
resulting state is exactly `addInfo s ni2`. -/
theorem inv_addInfo_merge {s : NamespaceSet} {u : String} {idx : Nat}
    {ni2 : NamespaceInfo} (h : Inv s)
    (hl : alookup s.uriMap u = some idx)
    (huri2 : ni2.uri = u)
    (hsup : ∀ q ∈ (heapGet s idx).pfxes, q ∈ ni2.pfxes)
    (hnew : ∀ q ∈ ni2.pfxes, q ∉ (heapGet s idx).pfxes →
      alookup s.pfxMap (some q) = none ∨
      alookup s.pfxMap (some q) = some idx)
    (hq2 : ∀ q ∈ ni2.pfxes, q ≠ "")
    (hnd2 : ni2.pfxes.Nodup)
    (hpref2 : ni2.preferredPfx = none ∨
      ∃ q, ni2.preferredPfx = some q ∧ q ∈ ni2.pfxes) :
    Inv (addInfo s ni2) := by
  have hmemu : (u, idx) ∈ s.uriMap := alookup_mem hl
  have hidxlt : idx < s.heap.length := h.uriIdx (u, idx) hmemu
  have huMatch := h.uriMatch (u, idx) hmemu
  have hlen : (addInfo s ni2).heap.length = s.heap.length + 1 := by
    simp [addInfo]
  have hum : (addInfo s ni2).uriMap = aset s.uriMap ni2.uri s.heap.length :=
    rfl
  have hpm : (addInfo s ni2).pfxMap =
      ni2.pfxes.foldl (fun m2 p => aset m2 (some p) s.heap.length) s.pfxMap :=
    rfl
  have hkvIdxEq : ∀ kv ∈ s.uriMap, kv.2 = idx → kv.1 = u := by
    intro kv hkv he
    obtain ⟨hm1, _⟩ := h.uriMatch kv hkv
    rw [he] at hm1
    rw [← hm1, huMatch.1]
  refine ⟨?_, ?_, ?_, ?_, ?_, ?_, ?_, ?_⟩
  · rw [hum]
    exact akeys_aset_nodup _ _ h.uriNodup
  · rw [hpm]
    exact akeys_foldl_aset_nodup _ h.pfxNodup
  · intro kv hkv
    rw [hum] at hkv
    rcases mem_aset h.uriNodup hkv with h0 | ⟨h0, _⟩
    · rw [h0, hlen]
      exact Nat.lt_succ_self _
    · rw [hlen]
      exact Nat.lt_succ_of_lt (h.uriIdx kv h0)
  · intro kv hkv
    rw [hum] at hkv
    rcases mem_aset h.uriNodup hkv with h0 | ⟨h0, _⟩
    · rw [h0]
      simpa [heapGet_addInfo_new, huri2] using huMatch.2
    · have hlt := h.uriIdx kv h0
      rw [heapGet_addInfo_old hlt]
      exact h.uriMatch kv h0
  · intro pv hpv
    rw [hpm] at hpv
    rcases mem_foldl_aset h.pfxNodup hpv with ⟨h1, h2⟩ | ⟨h1, h2⟩
    · obtain ⟨q, hq1, hq2x⟩ := List.mem_map.mp h1
      refine ⟨⟨q, hq2x.symm, hq2 q hq1, ?_⟩, ⟨ni2.uri, ?_⟩⟩
      · rw [h2, heapGet_addInfo_new]
        exact hq1
      · rw [h2, hum]
        exact alookup_mem (alookup_aset_self _ _ _)
    · obtain ⟨⟨q, hq1, hq2x, hq3⟩, ⟨u2, hu2⟩⟩ := h.pfxSound pv h1
      have hlt := h.uriIdx (u2, pv.2) hu2
      refine ⟨⟨q, hq1, hq2x, ?_⟩, ⟨u2, ?_⟩⟩
      · rw [heapGet_addInfo_old hlt]
        exact hq3
      · rw [hum]
        refine mem_aset_of_mem_ne hu2 ?_
        intro he
        simp only at he
        rw [huri2] at he
        have hpe : pv.2 = idx := by
          have h6 := mem_alookup h.uriNodup (he ▸ hu2)
          rw [hl] at h6
          injection h6 with h7
          exact h7.symm
        rw [hpe] at hq3
        have : q ∈ ni2.pfxes := hsup q hq3
        exact h2 (hq1 ▸ List.mem_map_of_mem some this)
  · intro kv hkv q hqmem
    rw [hum] at hkv
    rw [hpm]
    rcases mem_aset h.uriNodup hkv with h0 | ⟨h0, hne⟩
    · rw [h0] at hqmem ⊢
      simp only [heapGet_addInfo_new] at hqmem
      rw [alookup_foldl_aset]
      simp [List.mem_map_of_mem some hqmem]
    · have hlt := h.uriIdx kv h0
      rw [heapGet_addInfo_old hlt] at hqmem
      have hcomp := h.pfxComplete kv h0 q hqmem
      rw [alookup_foldl_aset]
      have hnotin : some q ∉ ni2.pfxes.map some := by
        intro hin
        obtain ⟨q2, hq2a, hq2b⟩ := List.mem_map.mp hin
        have hq2q : q2 = q := by injection hq2b
        rw [hq2q] at hq2a
        by_cases hcase : q ∈ (heapGet s idx).pfxes
        · have := h.pfxComplete (u, idx) hmemu q hcase
          rw [this] at hcomp
          have : kv.2 = idx := by injection hcomp; omega
          rw [huri2] at hne
          exact hne (hkvIdxEq kv h0 this)
        · rcases hnew q hq2a hcase with hn | hn
          · rw [hn] at hcomp
            exact Option.noConfusion hcomp
          · rw [hn] at hcomp
            have : kv.2 = idx := by injection hcomp; omega
            rw [huri2] at hne
            exact hne (hkvIdxEq kv h0 this)
      simp [hnotin, hcomp]
  · intro kv hkv
    rw [hum] at hkv
    rcases mem_aset h.uriNodup hkv with h0 | ⟨h0, _⟩
    · rw [h0]
      simpa [heapGet_addInfo_new] using hnd2
    · have hlt := h.uriIdx kv h0
      rw [heapGet_addInfo_old hlt]
      exact h.pfxesNodup kv h0
  · intro kv hkv
    rw [hum] at hkv
    rcases mem_aset h.uriNodup hkv with h0 | ⟨h0, _⟩
    · rw [h0]
      simpa [heapGet_addInfo_new] using hpref2
    · have hlt := h.uriIdx kv h0
      rw [heapGet_addInfo_old hlt]
      exact h.prefOk kv h0

/-- Prefixes registered for a live namespace are truthy strings. -/
theorem inv_pfx_truthy {s : NamespaceSet} (h : Inv s) {u : String}
    {idx : Nat} (hl : alookup s.uriMap u = some idx) :
    ∀ q ∈ (heapGet s idx).pfxes, q ≠ "" := by
  intro q hq
  have hc := h.pfxComplete (u, idx) (alookup_mem hl) q hq
  obtain ⟨⟨q2, he1, he2, _⟩, _⟩ := h.pfxSound _ (alookup_mem hc)
  simp only at he1
  have hqq : q = q2 := by injection he1
  rw [hqq]
  exact he2

/-- `add_namespace_uri` preserves the invariant when it completes without
raising. -/
theorem inv_addNamespaceUri {s s2 : NamespaceSet} {u : String}
    {pfx loc : Option String} (h : Inv s)
    (hok : addNamespaceUri s u pfx loc = (s2, none)) : Inv s2 := by
  by_cases hu0 : u = ""
  · simp [addNamespaceUri, hu0] at hok
  · cases hl : alookup s.uriMap u with
    | none =>
      cases hn : normOptStr pfx with
      | none =>
        simp only [addNamespaceUri, if_neg hu0, hl, hn] at hok
        have hs2 : s2 = addInfo s (mkNamespaceInfo u pfx loc) :=
          (congrArg Prod.fst hok).symm
        rw [hs2]
        refine inv_addInfo h ?_ ?_ ?_ ?_ ?_ ?_
        · simpa [mkNamespaceInfo] using hl
        · simpa [mkNamespaceInfo] using hu0
        · simp [mkNamespaceInfo, hn]
        · simp [mkNamespaceInfo, hn]
        · simp [mkNamespaceInfo, hn]
        · simp [mkNamespaceInfo, hn]
      | some p =>
        cases hc : checkPfxConflictUri s u p with
        | some e =>
          simp only [addNamespaceUri, if_neg hu0, hl, hn, hc] at hok
          exact absurd (congrArg Prod.snd hok) (by simp)
        | none =>
          simp only [addNamespaceUri, if_neg hu0, hl, hn, hc] at hok
          have hs2 : s2 = addInfo s (mkNamespaceInfo u pfx loc) :=
            (congrArg Prod.fst hok).symm
          obtain ⟨hpe, hpne⟩ := normOptStr_eq_some hn
          rw [hs2]
          refine inv_addInfo h ?_ ?_ ?_ ?_ ?_ ?_
          · simpa [mkNamespaceInfo] using hl
          · simpa [mkNamespaceInfo] using hu0
          · intro q hq
            simp only [mkNamespaceInfo, hn, List.mem_singleton] at hq
            rw [hq]
            exact checkPfxConflictUri_none hc
          · intro q hq
            simp only [mkNamespaceInfo, hn, List.mem_singleton] at hq
            rw [hq]
            exact hpne
          · simp [mkNamespaceInfo, hn]
          · right
            exact ⟨p, by simp [mkNamespaceInfo, hn]⟩
    | some idx =>
      cases hn : normOptStr pfx with
      | none =>
        cases hm : mergeSchemaLocs (heapGet s idx) loc with
        | error e =>
          simp only [addNamespaceUri, if_neg hu0, hl, hn, hm] at hok
          exact absurd (congrArg Prod.snd hok) (by simp)
        | ok ni2 =>
          simp only [addNamespaceUri, if_neg hu0, hl, hn, hm] at hok
          have hs2 : s2 = addInfo s ni2 := (congrArg Prod.fst hok).symm
          obtain ⟨hsh1, hsh2, hsh3⟩ := mergeSchemaLocs_shape hm
          have huMatch := h.uriMatch (u, idx) (alookup_mem hl)
          rw [hs2]
          refine inv_addInfo_merge h hl ?_ ?_ ?_ ?_ ?_ ?_
          · rw [hsh1]
            exact huMatch.1
          · intro q hq
            rw [hsh2]
            exact hq
          · intro q hq1 hq2
            rw [hsh2] at hq1
            exact absurd hq1 hq2
          · intro q hq1
            rw [hsh2] at hq1
            exact inv_pfx_truthy h hl q hq1
          · rw [hsh2]
            exact h.pfxesNodup (u, idx) (alookup_mem hl)
          · rw [hsh3, hsh2]
            exact h.prefOk (u, idx) (alookup_mem hl)
      | some p =>
        cases hc : checkPfxConflictNi s idx p with
        | some e =>
          simp only [addNamespaceUri, if_neg hu0, hl, hn, hc] at hok
          exact absurd (congrArg Prod.snd hok) (by simp)
        | none =>
          cases hm : mergeSchemaLocs
              { heapGet s idx with
                  pfxes := osAdd (heapGet s idx).pfxes p } loc with
          | error e =>
            simp only [addNamespaceUri, if_neg hu0, hl, hn, hc, hm] at hok
            exact absurd (congrArg Prod.snd hok) (by simp)
          | ok ni2 =>
            simp only [addNamespaceUri, if_neg hu0, hl, hn, hc, hm] at hok
            have hs2 : s2 = addInfo s ni2 := (congrArg Prod.fst hok).symm
            obtain ⟨hsh1, hsh2, hsh3⟩ := mergeSchemaLocs_shape hm
            simp only at hsh1 hsh2 hsh3
            obtain ⟨hpe, hpne⟩ := normOptStr_eq_some hn
            have huMatch := h.uriMatch (u, idx) (alookup_mem hl)
            rw [hs2]
            refine inv_addInfo_merge h hl ?_ ?_ ?_ ?_ ?_ ?_
            · rw [hsh1]
              exact huMatch.1
            · intro q hq
              rw [hsh2]
              exact osAdd_subset _ _ hq
            · intro q hq1 hq2
              rw [hsh2] at hq1
              rcases mem_osAdd hq1 with h3 | h3
              · exact absurd h3 hq2
              · rw [h3]
                exact checkPfxConflictNi_none hc
            · intro q hq1
              rw [hsh2] at hq1
              rcases mem_osAdd hq1 with h3 | h3
              · exact inv_pfx_truthy h hl q h3
              · rw [h3]
                exact hpne
            · rw [hsh2]
              exact osAdd_nodup _ (h.pfxesNodup (u, idx) (alookup_mem hl))
            · rw [hsh3, hsh2]
              rcases h.prefOk (u, idx) (alookup_mem hl) with h3 | ⟨q, h3, h4⟩
              · exact Or.inl h3
              · exact Or.inr ⟨q, h3, osAdd_subset _ _ h4⟩

theorem heapGet_set_self {h : List NamespaceInfo} {idx : Nat}
    {ni d : NamespaceInfo} (hlt : idx < h.length) :
    (h.set idx ni).getD idx d = ni :=
  getD_set_self h ni d hlt

/-- `add_prefix` preserves the invariant when it completes without
raising. -/
theorem inv_addPfx {s s2 : NamespaceSet} {u p : String} {sp : Bool}
    (h : Inv s) (hok : addPfx s u p sp = (s2, none)) : Inv s2 := by
  by_cases hp0 : p = ""
  · simp [addPfx, hp0] at hok
  · cases hl : alookup s.uriMap u with
    | none => simp [addPfx, hp0, hl] at hok
    | some idx =>
      cases hc : checkPfxConflictNi s idx p with
      | some e => simp [addPfx, hp0, hl, hc] at hok
      | none =>
        simp only [addPfx, if_neg hp0, hl, hc] at hok
        rw [Prod.mk.injEq] at hok
        obtain ⟨hs2, -⟩ := hok
        subst hs2
        have hidxlt : idx < s.heap.length :=
          h.uriIdx (u, idx) (alookup_mem hl)
        set ni := heapGet s idx with hni
        set ni1 : NamespaceInfo := { ni with pfxes := osAdd ni.pfxes p }
          with hni1
        set ni2 : NamespaceInfo :=
          if sp then { ni1 with preferredPfx := some p } else ni1 with hni2
        have hni2pf : ni2.pfxes = osAdd ni.pfxes p := by
          cases sp <;> simp [hni2, hni1]
        have hni2uri : ni2.uri = ni.uri := by
          cases sp <;> simp [hni2, hni1]
        have hGenGet : ∀ j, j ≠ idx →
            heapGet { s with heap := s.heap.set idx ni2,
                             pfxMap := aset s.pfxMap (some p) idx } j =
            heapGet s j := by
          intro j hj
          exact getD_set_ne _ _ _ hj
        have hGetIdx :
            heapGet { s with heap := s.heap.set idx ni2,
                             pfxMap := aset s.pfxMap (some p) idx } idx =
            ni2 := heapGet_set_self hidxlt
        refine ⟨?_, ?_, ?_, ?_, ?_, ?_, ?_, ?_⟩
        · exact h.uriNodup
        · exact akeys_aset_nodup _ _ h.pfxNodup
        · intro kv hkv
          simpa [List.length_set] using h.uriIdx kv hkv
        · intro kv hkv
          by_cases hj : kv.2 = idx
          · rw [hj, hGetIdx, hni2uri]
            have := h.uriMatch kv hkv
            rw [hj] at this
            exact this
          · rw [hGenGet kv.2 hj]
            exact h.uriMatch kv hkv
        · intro pv hpv
          rcases mem_aset h.pfxNodup hpv with h0 | ⟨h0, h1⟩
          · refine ⟨⟨p, by rw [h0], hp0, ?_⟩, ⟨u, ?_⟩⟩
            · rw [h0]
              simp only [hGetIdx, hni2pf]
              exact mem_osAdd_self _ _
            · rw [h0]
              exact alookup_mem hl
          · obtain ⟨⟨q, hq1, hq2, hq3⟩, ⟨u2, hu2⟩⟩ := h.pfxSound pv h0
            refine ⟨⟨q, hq1, hq2, ?_⟩, ⟨u2, hu2⟩⟩
            by_cases hj : pv.2 = idx
            · rw [hj, hGetIdx, hni2pf]
              rw [hj] at hq3
              exact osAdd_subset _ _ hq3
            · rw [hGenGet pv.2 hj]
              exact hq3
        · intro kv hkv q hqmem
          by_cases hj : kv.2 = idx
          · rw [hj, hGetIdx, hni2pf] at hqmem
            by_cases hqp : q = p
            · rw [hqp, hj]
              exact alookup_aset_self _ _ _
            · have hq3 : q ∈ ni.pfxes := by
                rcases mem_osAdd hqmem with h3 | h3
                · exact h3
                · exact absurd h3 hqp
              rw [alookup_aset_ne _ _ (by simpa using hqp)]
              have := h.pfxComplete kv hkv q (by rw [hj]; exact hq3)
              exact this
          · rw [hGenGet kv.2 hj] at hqmem
            by_cases hqp : q = p
            · exfalso
              have := h.pfxComplete kv hkv q hqmem
              rw [hqp] at this
              rcases checkPfxConflictNi_none hc with h3 | h3
              · rw [h3] at this
                exact Option.noConfusion this
              · rw [h3] at this
                have : idx = kv.2 := by injection this
                exact hj this.symm
            · rw [alookup_aset_ne _ _ (by simpa using hqp)]
              exact h.pfxComplete kv hkv q hqmem
        · intro kv hkv
          by_cases hj : kv.2 = idx
          · rw [hj, hGetIdx, hni2pf]
            have := h.pfxesNodup kv hkv
            rw [hj] at this
            exact osAdd_nodup _ this
          · rw [hGenGet kv.2 hj]
            exact h.pfxesNodup kv hkv
        · intro kv hkv
          by_cases hj : kv.2 = idx
          · rw [hj, hGetIdx, hni2pf]
            cases hsp : sp with
            | true =>
              right
              refine ⟨p, ?_, mem_osAdd_self _ _⟩
              simp [hni2, hni1, hsp]
            | false =>
              have hpr : ni2.preferredPfx = ni.preferredPfx := by
                simp [hni2, hni1, hsp]
              rw [hpr]
              have := h.prefOk kv hkv
              rw [hj] at this
              rcases this with h3 | ⟨q, h3, h4⟩
              · exact Or.inl h3
              · exact Or.inr ⟨q, h3, osAdd_subset _ _ h4⟩
          · rw [hGenGet kv.2 hj]
            exact h.prefOk kv hkv

/-- Mutating only the preferred prefix of a live info, to `None` or to a
registered member, preserves the invariant. -/
theorem inv_setPrefState {s : NamespaceSet} {idx : Nat}
    {o : Option String} (h : Inv s) (hidxlt : idx < s.heap.length)
    (ho : o = none ∨ ∃ p, o = some p ∧ p ∈ (heapGet s idx).pfxes) :
    Inv { s with heap :=
            s.heap.set idx { heapGet s idx with preferredPfx := o } } := by
  set ni2 : NamespaceInfo := { heapGet s idx with preferredPfx := o }
    with hni2
  have hGenGet : ∀ j, j ≠ idx →
      heapGet { s with heap := s.heap.set idx ni2 } j = heapGet s j := by
    intro j hj
    exact getD_set_ne _ _ _ hj
  have hGetIdx : heapGet { s with heap := s.heap.set idx ni2 } idx = ni2 :=
    heapGet_set_self hidxlt
  refine ⟨h.uriNodup, h.pfxNodup, ?_, ?_, ?_, ?_, ?_, ?_⟩
  · intro kv hkv
    simpa [List.length_set] using h.uriIdx kv hkv
  · intro kv hkv
    by_cases hj : kv.2 = idx
    · rw [hj, hGetIdx]
      have := h.uriMatch kv hkv
      rw [hj] at this
      exact this
    · rw [hGenGet kv.2 hj]
      exact h.uriMatch kv hkv
  · intro pv hpv
    obtain ⟨⟨q, hq1, hq2, hq3⟩, hrest⟩ := h.pfxSound pv hpv
    refine ⟨⟨q, hq1, hq2, ?_⟩, hrest⟩
    by_cases hj : pv.2 = idx
    · rw [hj, hGetIdx]
      rw [hj] at hq3
      exact hq3
    · rw [hGenGet pv.2 hj]
      exact hq3
  · intro kv hkv q hqmem
    by_cases hj : kv.2 = idx
    · rw [hj, hGetIdx] at hqmem
      exact h.pfxComplete kv hkv q (by rw [hj]; exact hqmem)
    · rw [hGenGet kv.2 hj] at hqmem
      exact h.pfxComplete kv hkv q hqmem
  · intro kv hkv
    by_cases hj : kv.2 = idx
    · rw [hj, hGetIdx]
      have := h.pfxesNodup kv hkv
      rw [hj] at this
      exact this
    · rw [hGenGet kv.2 hj]
      exact h.pfxesNodup kv hkv
  · intro kv hkv
    by_cases hj : kv.2 = idx
    · rw [hj, hGetIdx]
      rcases ho with h0 | ⟨p, h0, h1⟩
      · exact Or.inl (by simp [hni2, h0])
      · exact Or.inr ⟨p, by simp [hni2, h0], h1⟩
    · rw [hGenGet kv.2 hj]
      exact h.prefOk kv hkv

/-- `set_preferred_prefix_for_namespace` preserves the invariant when it
completes without raising. -/
theorem inv_setPreferredPfx {s s2 : NamespaceSet} {u : String}
    {pfx : Option String} {aie : Bool} (h : Inv s)
    (hok : setPreferredPfx s u pfx aie = (s2, none)) : Inv s2 := by
  cases hl : alookup s.uriMap u with
  | none => simp [setPreferredPfx, hl] at hok
  | some idx =>
    have hidxlt : idx < s.heap.length := h.uriIdx (u, idx) (alookup_mem hl)
    cases hn : normOptStr pfx with
    | none =>
      simp only [setPreferredPfx, hl, hn] at hok
      rw [Prod.mk.injEq] at hok
      obtain ⟨hs2, -⟩ := hok
      subst hs2
      exact inv_setPrefState h hidxlt (Or.inl rfl)
    | some p =>
      by_cases hmem : p ∈ (heapGet s idx).pfxes
      · simp only [setPreferredPfx, hl, hn, if_pos hmem] at hok
        rw [Prod.mk.injEq] at hok
        obtain ⟨hs2, -⟩ := hok
        subst hs2
        exact inv_setPrefState h hidxlt (Or.inr ⟨p, rfl, hmem⟩)
      · cases haie : aie with
        | true =>
          simp only [setPreferredPfx, hl, hn, if_neg hmem, haie,
            if_true] at hok
          exact inv_addPfx h hok
        | false =>
          simp [setPreferredPfx, hl, hn, if_neg hmem, haie] at hok

theorem mem_aremove_of_mem_ne {α β : Type} [DecidableEq α]
    {l : List (α × β)} {k : α} {kv : α × β} (h : kv ∈ l) (hne : kv.1 ≠ k) :
    kv ∈ aremove l k := by
  induction l with
  | nil => simp at h
  | cons kv0 rest ih =>
    obtain ⟨k0, v0⟩ := kv0
    by_cases hk : k0 = k
    · subst hk
      simp only [aremove, if_pos rfl]
      rcases List.mem_cons.mp h with h0 | h0
      · exact absurd (by rw [h0]) hne
      · exact h0
    · simp only [aremove, if_neg hk]
      rcases List.mem_cons.mp h with h0 | h0
      · exact h0 ▸ List.mem_cons_self _ _
      · exact List.mem_cons_of_mem _ (ih h0)

theorem akeys_foldl_aremove_nodup {qs : List String}
    {m : List (Option String × Nat)} (h : (akeys m).Nodup) :
    (akeys (qs.foldl (fun m2 q => aremove m2 (some q)) m)).Nodup := by
  induction qs generalizing m with
  | nil => exact h
  | cons q rest ih => exact ih (akeys_aremove_nodup _ h)

/-- `remove_prefix` preserves the invariant (it cannot raise). -/
theorem inv_removePfx {s s2 : NamespaceSet} {p : String} (h : Inv s)
    (hok : removePfx s p = (s2, none)) : Inv s2 := by
  cases hl : alookup s.pfxMap (some p) with
  | none =>
    simp only [removePfx, hl] at hok
    rw [Prod.mk.injEq] at hok
    obtain ⟨hs2, -⟩ := hok
    subst hs2
    exact h
  | some idx =>
    simp only [removePfx, hl] at hok
    rw [Prod.mk.injEq] at hok
    obtain ⟨hs2, -⟩ := hok
    subst hs2
    obtain ⟨⟨pq, hpq1, hpq2, hpq3⟩, ⟨u, hu⟩⟩ :=
      h.pfxSound (some p, idx) (alookup_mem hl)
    simp only at hpq1
    have hpp : pq = p := by injection hpq1.symm
    rw [hpp] at hpq2 hpq3
    have hidxlt : idx < s.heap.length := h.uriIdx (u, idx) hu
    set ni := heapGet s idx with hni
    set pf2 := ni.pfxes.erase p with hpf2
    set pref2 := if ni.preferredPfx = some p then pf2.head?
                 else ni.preferredPfx with hpref2
    set ni2 : NamespaceInfo := { ni with pfxes := pf2, preferredPfx := pref2 }
      with hni2
    have hGenGet : ∀ j, j ≠ idx →
        heapGet { s with heap := s.heap.set idx ni2,
                         pfxMap := aremove s.pfxMap (some p) } j =
        heapGet s j := by
      intro j hj
      exact getD_set_ne _ _ _ hj
    have hGetIdx :
        heapGet { s with heap := s.heap.set idx ni2,
                         pfxMap := aremove s.pfxMap (some p) } idx = ni2 :=
      heapGet_set_self hidxlt
    have hndIdx : ni.pfxes.Nodup := by
      have := h.pfxesNodup (u, idx) hu
      rwa [← hni] at this
    refine ⟨h.uriNodup, akeys_aremove_nodup _ h.pfxNodup, ?_, ?_, ?_, ?_,
      ?_, ?_⟩
    · intro kv hkv
      simpa [List.length_set] using h.uriIdx kv hkv
    · intro kv hkv
      by_cases hj : kv.2 = idx
      · rw [hj, hGetIdx]
        have := h.uriMatch kv hkv
        rw [hj] at this
        exact this
      · rw [hGenGet kv.2 hj]
        exact h.uriMatch kv hkv
    · intro pv hpv
      obtain ⟨hpv1, hpv2⟩ := mem_aremove_ne h.pfxNodup hpv
      obtain ⟨⟨q, hq1, hq2, hq3⟩, ⟨u2, hu2⟩⟩ := h.pfxSound pv hpv1
      refine ⟨⟨q, hq1, hq2, ?_⟩, ⟨u2, hu2⟩⟩
      by_cases hj : pv.2 = idx
      · rw [hj, hGetIdx]
        rw [hj] at hq3
        have hqp : q ≠ p := by
          intro he
          rw [he] at hq1
          exact hpv2 hq1
        simp only [hni2]
        exact (List.mem_erase_of_ne hqp).mpr hq3
      · rw [hGenGet pv.2 hj]
        exact hq3
    · intro kv hkv q hqmem
      by_cases hj : kv.2 = idx
      · rw [hj, hGetIdx] at hqmem
        simp only [hni2] at hqmem
        have hqin : q ≠ p ∧ q ∈ ni.pfxes := by
          rw [hpf2] at hqmem
          exact (List.Nodup.mem_erase_iff hndIdx).mp hqmem
        rw [alookup_aremove_ne _ (by simpa using hqin.1)]
        refine h.pfxComplete kv hkv q ?_
        rw [hj]
        exact hqin.2
      · rw [hGenGet kv.2 hj] at hqmem
        have hcomp := h.pfxComplete kv hkv q hqmem
        have hqp : q ≠ p := by
          intro he
          rw [he, hl] at hcomp
          have : idx = kv.2 := by injection hcomp
          exact hj this.symm
        rw [alookup_aremove_ne _ (by simpa using hqp)]
        exact hcomp
    · intro kv hkv
      by_cases hj : kv.2 = idx
      · rw [hj, hGetIdx]
        simp only [hni2, hpf2]
        exact hndIdx.erase _
      · rw [hGenGet kv.2 hj]
        exact h.pfxesNodup kv hkv
    · intro kv hkv
      by_cases hj : kv.2 = idx
      · rw [hj, hGetIdx]
        simp only [hni2]
        rw [hpref2]
        by_cases hpe : ni.preferredPfx = some p
        · rw [if_pos hpe]
          cases hhd : pf2.head? with
          | none => exact Or.inl rfl
          | some q =>
            right
            refine ⟨q, rfl, ?_⟩
            cases hpf : pf2 with
            | nil => rw [hpf] at hhd; simp at hhd
            | cons x xs =>
              rw [hpf] at hhd
              simp only [List.head?_cons] at hhd
              have hxq : x = q := by injection hhd
              rw [← hxq]
              exact List.mem_cons_self _ _
        · rw [if_neg hpe]
          have hprefOld := h.prefOk kv hkv
          rw [hj, ← hni] at hprefOld
          rcases hprefOld with h3 | ⟨q, h3, h4⟩
          · exact Or.inl h3
          · right
            refine ⟨q, h3, ?_⟩
            rw [hpf2]
            refine (List.mem_erase_of_ne ?_).mpr h4
            intro he
            rw [he] at h3
            exact hpe h3
      · rw [hGenGet kv.2 hj]
        exact h.prefOk kv hkv

/-- Under the invariant the `del` loop of `remove_namespace` never hits a
missing key: it deletes exactly the given prefixes. -/
theorem delPfxKeys_ok {qs : List String} {s : NamespaceSet}
    (hpres : ∀ q ∈ qs, (alookup s.pfxMap (some q)).isSome = true)
    (hnd : qs.Nodup) :
    delPfxKeys s qs =
      ({ s with pfxMap := qs.foldl (fun m2 q => aremove m2 (some q))
                    s.pfxMap }, none) := by
  induction qs generalizing s with
  | nil => simp [delPfxKeys]
  | cons q rest ih =>
    have h1 := hpres q (List.mem_cons_self _ _)
    simp only [delPfxKeys, h1, if_pos, List.foldl_cons]
    apply ih
    · intro q2 hq2
      have hne : (some q2 : Option String) ≠ some q := by
        simp only [List.nodup_cons] at hnd
        intro he
        have : q2 = q := by injection he
        rw [this] at hq2
        exact hnd.1 hq2
      show (alookup (aremove s.pfxMap (some q)) (some q2)).isSome = true
      rw [alookup_aremove_ne _ hne]
      exact hpres q2 (List.mem_cons_of_mem _ hq2)
    · exact (List.nodup_cons.mp hnd).2

theorem removeNamespace_ok {s : NamespaceSet} {u : String} {idx : Nat}
    (h : Inv s) (hl : alookup s.uriMap u = some idx) :
    removeNamespace s u =
      ({ s with uriMap := aremove s.uriMap u,
                pfxMap := (heapGet s idx).pfxes.foldl
                  (fun m2 q => aremove m2 (some q)) s.pfxMap }, none) := by
  simp only [removeNamespace, hl]
  exact delPfxKeys_ok
    (fun q hq => by
      show (alookup s.pfxMap (some q)).isSome = true
      rw [h.pfxComplete (u, idx) (alookup_mem hl) q hq]
      rfl)
    (h.pfxesNodup (u, idx) (alookup_mem hl))

/-- `remove_namespace` preserves the invariant (under the invariant it
cannot raise). -/
theorem inv_removeNamespace {s s2 : NamespaceSet} {u : String} (h : Inv s)
    (hok : removeNamespace s u = (s2, none)) : Inv s2 := by
  cases hl : alookup s.uriMap u with
  | none =>
    simp only [removeNamespace, hl] at hok
    rw [Prod.mk.injEq] at hok
    obtain ⟨hs2, -⟩ := hok
    subst hs2
    exact h
  | some idx =>
    rw [removeNamespace_ok h hl] at hok
    rw [Prod.mk.injEq] at hok
    obtain ⟨hs2, -⟩ := hok
    subst hs2
    have hmemu := alookup_mem hl
    refine ⟨akeys_aremove_nodup _ h.uriNodup,
      akeys_foldl_aremove_nodup h.pfxNodup, ?_, ?_, ?_, ?_, ?_, ?_⟩
    · intro kv hkv
      exact h.uriIdx kv (mem_aremove hkv)
    · intro kv hkv
      exact h.uriMatch kv (mem_aremove hkv)
    · intro pv hpv
      obtain ⟨hpv1, hpv2⟩ := mem_foldl_aremove h.pfxNodup hpv
      obtain ⟨⟨q, hq1, hq2, hq3⟩, ⟨u2, hu2⟩⟩ := h.pfxSound pv hpv1
      refine ⟨⟨q, hq1, hq2, hq3⟩, ⟨u2, ?_⟩⟩
      refine mem_aremove_of_mem_ne hu2 ?_
      intro he
      simp only at he
      rw [he] at hu2
      have hpe : pv.2 = idx := by
        have h6 := mem_alookup h.uriNodup hu2
        rw [hl] at h6
        injection h6 with h7
        exact h7.symm
      rw [hpe] at hq3
      exact hpv2 (hq1 ▸ List.mem_map_of_mem some hq3)
    · intro kv hkv q hqmem
      obtain ⟨hkv1, hkv2⟩ := mem_aremove_ne h.uriNodup hkv
      have hcomp := h.pfxComplete kv hkv1 q hqmem
      rw [alookup_foldl_aremove _ _ h.pfxNodup]
      have hnotin : some q ∉ (heapGet s idx).pfxes.map some := by
        intro hin
        obtain ⟨q2, hq2a, hq2b⟩ := List.mem_map.mp hin
        have hqq : q2 = q := by injection hq2b
        rw [hqq] at hq2a
        have h4 := h.pfxComplete (u, idx) hmemu q hq2a
        rw [h4] at hcomp
        have hkvidx : idx = kv.2 := by injection hcomp
        have h5 := h.uriMatch kv hkv1
        rw [← hkvidx] at h5
        have h8 := h.uriMatch (u, idx) hmemu
        simp only at h8 h5
        exact hkv2 (h5.1.symm.trans h8.1)
      simp [hnotin, hcomp]
    · intro kv hkv
      exact h.pfxesNodup kv (mem_aremove hkv)
    · intro kv hkv
      exact h.prefOk kv (mem_aremove hkv)

theorem findSome?_none {α β : Type} {f : α → Option β} {l : List α}
    (h : l.findSome? f = none) : ∀ x ∈ l, f x = none := by
  induction l with
  | nil => simp
  | cons a rest ih =>
    intro x hx
    rw [List.findSome?_cons] at h
    cases hfa : f a with
    | some b => rw [hfa] at h; exact Option.noConfusion h
    | none =>
      rw [hfa] at h
      rcases List.mem_cons.mp hx with h0 | h0
      · rw [h0]; exact hfa
      · exact ih h x h0

/-- One `import_from` iteration preserves the invariant when it completes
without raising (the source set must satisfy the invariant too, since its
info is cloned wholesale). -/
theorem inv_importOne {s s2 other : NamespaceSet} {repl : Bool} {u : String}
    (h : Inv s) (ho : Inv other) (hmem : u ∈ akeys other.uriMap)
    (hok : importOne s other repl u = (s2, none)) : Inv s2 := by
  obtain ⟨idxO, hlO⟩ :=
    Option.isSome_iff_exists.mp (alookup_isSome_of_mem_keys hmem)
  have hmemO := alookup_mem hlO
  have hOuri := ho.uriMatch (u, idxO) hmemO
  simp only at hOuri
  have hOnodup := ho.pfxesNodup (u, idxO) hmemO
  simp only at hOnodup
  have hOpref := ho.prefOk (u, idxO) hmemO
  simp only at hOpref
  have hOtruthy := inv_pfx_truthy ho hlO
  cases hl : alookup s.uriMap u with
  | none =>
    cases hf : (heapGet other idxO).pfxes.findSome?
        (checkPfxConflictUri s u) with
    | some e =>
      simp only [importOne, hlO, Option.getD_some, hl, hf] at hok
      exact absurd (congrArg Prod.snd hok) (by simp)
    | none =>
      simp only [importOne, hlO, Option.getD_some, hl, hf] at hok
      rw [Prod.mk.injEq] at hok
      obtain ⟨hs2, -⟩ := hok
      subst hs2
      refine inv_addInfo h ?_ ?_ ?_ hOtruthy hOnodup hOpref
      · rw [hOuri.1]
        exact hl
      · rw [hOuri.1]
        exact hOuri.2
      · intro q hq
        exact checkPfxConflictUri_none (findSome?_none hf q hq)
  | some idx =>
    cases hr2 : repl with
    | false =>
      simp only [importOne, hlO, Option.getD_some, hl, hr2, if_false,
        Bool.false_eq_true] at hok
      rw [Prod.mk.injEq] at hok
      obtain ⟨hs2, -⟩ := hok
      subst hs2
      exact h
    | true =>
      cases hf : (heapGet other idxO).pfxes.findSome?
          (checkPfxConflictNi s idx) with
      | some e =>
        simp only [importOne, hlO, Option.getD_some, hl, hr2, hf,
          if_true] at hok
        exact absurd (congrArg Prod.snd hok) (by simp)
      | none =>
        simp only [importOne, hlO, Option.getD_some, hl, hr2, hf,
          removeNamespace_ok h hl, if_true] at hok
        rw [Prod.mk.injEq] at hok
        obtain ⟨hs2, -⟩ := hok
        subst hs2
        have hinv3 : Inv { heap := s.heap,
                           uriMap := aremove s.uriMap u,
                           pfxMap := (heapGet s idx).pfxes.foldl
                             (fun m2 q => aremove m2 (some q)) s.pfxMap } :=
          inv_removeNamespace h (removeNamespace_ok h hl)
        refine inv_addInfo hinv3 ?_ ?_ ?_ hOtruthy hOnodup hOpref
        · rw [hOuri.1]
          show alookup (aremove s.uriMap u) u = none
          exact alookup_aremove_self h.uriNodup
        · rw [hOuri.1]
          exact hOuri.2
        · intro q hq
          show alookup ((heapGet s idx).pfxes.foldl
            (fun m2 q2 => aremove m2 (some q2)) s.pfxMap) (some q) = none
          rw [alookup_foldl_aremove _ _ h.pfxNodup]
          by_cases hcase : some q ∈ (heapGet s idx).pfxes.map some
          · simp [hcase]
          · rw [if_neg hcase]
            rcases checkPfxConflictNi_none (findSome?_none hf q hq) with
              h3 | h3
            · exact h3
            · exfalso
              obtain ⟨⟨q2, hq1, _, hq3⟩, _⟩ := h.pfxSound _ (alookup_mem h3)
              simp only at hq1 hq3
              have hqq : q = q2 := by injection hq1
              rw [← hqq] at hq3
              exact hcase (List.mem_map_of_mem some hq3)

theorem inv_importFromGo {other : NamespaceSet} {repl : Bool}
    (ho : Inv other) :
    ∀ (us : List String) (s s2 : NamespaceSet), Inv s →
    (∀ u ∈ us, u ∈ akeys other.uriMap) →
    importFromGo other repl s us = (s2, none) → Inv s2 := by
  intro us
  induction us with
  | nil =>
    intro s s2 h _ hok
    simp only [importFromGo] at hok
    rw [Prod.mk.injEq] at hok
    obtain ⟨hs2, -⟩ := hok
    subst hs2
    exact h
  | cons u rest ih =>
    intro s s2 h hmem hok
    simp only [importFromGo] at hok
    cases hone : importOne s other repl u with
    | mk s1 e =>
      cases e with
      | some e2 =>
        rw [hone] at hok
        simp at hok
      | none =>
        rw [hone] at hok
        exact ih s1 s2
          (inv_importOne h ho (hmem u (List.mem_cons_self _ _)) hone)
          (fun x hx => hmem x (List.mem_cons_of_mem _ hx)) hok

theorem inv_importFrom {s s2 other : NamespaceSet} {repl : Bool}
    (h : Inv s) (ho : Inv other)
    (hok : importFrom s other repl = (s2, none)) : Inv s2 :=
  inv_importFromGo ho (akeys other.uriMap) s s2 h (fun _ hu => hu) hok

/-- The state a call leaves behind under the claim's "discarding calls
that raise" reading: the new state on success, the old state otherwise. -/
def discard (s : NamespaceSet) (r : NamespaceSet × Option NsError) :
    NamespaceSet :=
  match r with
  | (s2, none) => s2
  | (_, some _) => s

/-- The `NamespaceSet`s reachable from the empty set through the public
mutating operations, discarding calls that raise; `import_from` sources
are themselves reachable sets. -/
inductive Reachable : NamespaceSet → Prop where
  | empty : Reachable emptyNS
  | addNs {s : NamespaceSet} (u : String) (pfx loc : Option String) :
      Reachable s → Reachable (discard s (addNamespaceUri s u pfx loc))
  | addPfxStep {s : NamespaceSet} (u p : String) (sp : Bool) :
      Reachable s → Reachable (discard s (addPfx s u p sp))
  | removeNs {s : NamespaceSet} (u : String) :
      Reachable s → Reachable (discard s (removeNamespace s u))
  | removePfxStep {s : NamespaceSet} (p : String) :
      Reachable s → Reachable (discard s (removePfx s p))
  | setPreferredStep {s : NamespaceSet} (u : String) (pfx : Option String)
      (aie : Bool) :
      Reachable s → Reachable (discard s (setPreferredPfx s u pfx aie))
  | importStep {s other : NamespaceSet} (repl : Bool) :
      Reachable s → Reachable other →
      Reachable (discard s (importFrom s other repl))

theorem reachable_inv {s : NamespaceSet} (h : Reachable s) : Inv s := by
  induction h with
  | empty => exact inv_empty
  | @addNs s0 u pfx loc _ ih =>
    cases hr : addNamespaceUri s0 u pfx loc with
    | mk s2 e =>
      cases e with
      | none => exact inv_addNamespaceUri ih hr
      | some e2 => exact ih
  | @addPfxStep s0 u p sp _ ih =>
    cases hr : addPfx s0 u p sp with
    | mk s2 e =>
      cases e with
      | none => exact inv_addPfx ih hr
      | some e2 => exact ih
  | @removeNs s0 u _ ih =>
    cases hr : removeNamespace s0 u with
    | mk s2 e =>
      cases e with
      | none => exact inv_removeNamespace ih hr
      | some e2 => exact ih
  | @removePfxStep s0 p _ ih =>
    cases hr : removePfx s0 p with
    | mk s2 e =>
      cases e with
      | none => exact inv_removePfx ih hr
      | some e2 => exact ih
  | @setPreferredStep s0 u pfx aie _ ih =>
    cases hr : setPreferredPfx s0 u pfx aie with
    | mk s2 e =>
      cases e with
      | none => exact inv_setPreferredPfx ih hr
      | some e2 => exact ih
  | @importStep s0 other repl _ _ ih iho =>
    cases hr : importFrom s0 other repl with
    | mk s2 e =>
      cases e with
      | none => exact inv_importFrom ih iho hr
      | some e2 => exact ih

/-- C3.  Every `NamespaceSet` reachable from the empty set by any finite
sequence of `add_namespace_uri`, `add_prefix`, `remove_namespace`,
`remove_prefix`, `set_preferred_prefix_for_namespace` and `import_from`
calls (discarding calls that raise) satisfies `is_valid()`: every uri key
matches its info's uri, every prefix of an info points back to that same
info in the prefix map, no prefix maps to two infos, and `None` is not a
prefix-map key. -/
theorem claim3_reachable_valid {s : NamespaceSet} (h : Reachable s) :
    isValid s = true :=
  isValid_of_inv (reachable_inv h)

theorem claim3_reachable_valid_witness :
    isValid (discard
      (discard
        (discard emptyNS (addNamespaceUri emptyNS "urn:x" (some "x") none))
        (addPfx
          (discard emptyNS (addNamespaceUri emptyNS "urn:x" (some "x") none))
          "urn:x" "x2" true))
      (removePfx
        (discard
          (discard emptyNS (addNamespaceUri emptyNS "urn:x" (some "x") none))
          (addPfx
            (discard emptyNS
              (addNamespaceUri emptyNS "urn:x" (some "x") none))
            "urn:x" "x2" true))
        "x")) = true :=
  claim3_reachable_valid
    (Reachable.removePfxStep "x"
      (Reachable.addPfxStep "urn:x" "x2" true
        (Reachable.addNs "urn:x" (some "x") none Reachable.empty)))

/-- Receiver for the C2 counterexample: prefix "p" bound to "urn:r". -/
def claim2Recv : NamespaceSet :=
  (addNamespaceUri emptyNS "urn:r" (some "p") none).1

/-- Source for the C2 counterexample: "urn:s" (prefix "q", importable) and
"urn:t" (prefix "p", conflicting with the receiver). -/
def claim2Src : NamespaceSet :=
  (addNamespaceUri (addNamespaceUri emptyNS "urn:s" (some "q") none).1
    "urn:t" (some "p") none).1

/-- C2 counterexample.  `import_from` raises `DuplicatePrefixError` on its
second iteration, yet the receiving set is NOT left as it was before the
call: the namespace imported by the first iteration remains.  So the
claim "every merge operation, including `import_from`, is exception-safe"
is false on the code. -/
theorem claim2_counterexample :
    (importFrom claim2Recv claim2Src false).2 =
      some (.duplicatePfx "p" "urn:r" "urn:t") ∧
    (importFrom claim2Recv claim2Src false).1 ≠ claim2Recv ∧
    alookup (importFrom claim2Recv claim2Src false).1.uriMap "urn:s" ≠
      none := by
  decide

/-- C2, amended.  `add_namespace_uri` is exception-safe: whenever it
raises, the set is exactly as it was before the call.  `import_from` is
exception-safe only per namespace: each single iteration of its loop
(`importOne`) leaves the set unchanged when it raises (for coherent
sets), but namespaces imported by earlier iterations are retained. -/
theorem claim2_exception_safety_amended :
    (∀ (s : NamespaceSet) (u : String) (pfx loc : Option String)
      (e : NsError), (addNamespaceUri s u pfx loc).2 = some e →
      (addNamespaceUri s u pfx loc).1 = s) ∧
    (∀ (s other : NamespaceSet) (repl : Bool) (u : String) (e : NsError),
      Inv s → (importOne s other repl u).2 = some e →
      (importOne s other repl u).1 = s) := by
  constructor
  · intro s u pfx loc e he
    by_cases hu0 : u = ""
    · simp [addNamespaceUri, hu0]
    · cases hl : alookup s.uriMap u with
      | some idx =>
        cases hn : normOptStr pfx with
        | none =>
          cases hm : mergeSchemaLocs (heapGet s idx) loc with
          | error e2 => simp [addNamespaceUri, hu0, hl, hn, hm]
          | ok ni2 => simp [addNamespaceUri, hu0, hl, hn, hm] at he
        | some p =>
          cases hc : checkPfxConflictNi s idx p with
          | some e2 => simp [addNamespaceUri, hu0, hl, hn, hc]
          | none =>
            cases hm : mergeSchemaLocs
                { heapGet s idx with
                    pfxes := osAdd (heapGet s idx).pfxes p } loc with
            | error e2 => simp [addNamespaceUri, hu0, hl, hn, hc, hm]
            | ok ni2 => simp [addNamespaceUri, hu0, hl, hn, hc, hm] at he
      | none =>
        cases hn : normOptStr pfx with
        | none => simp [addNamespaceUri, hu0, hl, hn] at he
        | some p =>
          cases hc : checkPfxConflictUri s u p with
          | some e2 => simp [addNamespaceUri, hu0, hl, hn, hc]
          | none => simp [addNamespaceUri, hu0, hl, hn, hc] at he
  · intro s other repl u e hinv he
    cases hl : alookup s.uriMap u with
    | none =>
      cases hf : (heapGet other
          ((alookup other.uriMap u).getD other.heap.length)).pfxes.findSome?
          (checkPfxConflictUri s u) with
      | some e2 => simp [importOne, hl, hf]
      | none => simp [importOne, hl, hf] at he
    | some idx =>
      cases hr2 : repl with
      | false => simp [importOne, hl, hr2] at he
      | true =>
        cases hf : (heapGet other
            ((alookup other.uriMap u).getD
              other.heap.length)).pfxes.findSome?
            (checkPfxConflictNi s idx) with
        | some e2 => simp [importOne, hl, hr2, hf]
        | none =>
          simp [importOne, hl, hr2, hf, removeNamespace_ok hinv hl] at he

theorem claim2_exception_safety_witness :
    (addNamespaceUri claim2Recv "urn:b" (some "p") none).1 = claim2Recv ∧
    (importOne claim2Recv claim2Src true "urn:t").1 = claim2Recv := by
  constructor
  · exact claim2_exception_safety_amended.1 claim2Recv "urn:b" (some "p")
      none (.duplicatePfx "p" "urn:r" "urn:b") (by decide)
  · refine claim2_exception_safety_amended.2 claim2Recv claim2Src true
      "urn:t" (.duplicatePfx "p" "urn:r" "urn:t") ?_ (by decide)
    exact reachable_inv
      (Reachable.addNs "urn:r" (some "p") none Reachable.empty)

/-! ## Model of `mixbox/fields.py` and `mixbox/entities.py`

Python values are modelled by one inductive type `Val`: `None`, strings,
ints, lists (covering both raw lists and the stored sequence of a
`multiple` field), dicts, and Entity instances (`vent cls fields`, where
`cls` indexes a class table and `fields` models the identity-keyed
`_fields` dict, keyed here by the field's position in its class's field
list).  Declared field types (`type_`) are Entity classes or `None`;
`factory` overrides and pre/post-set hooks are not modelled (no claim
involves them), and `TypedList` insertion re-validation is not repeated
on already-cleaned elements (it stores them unchanged). -/

inductive Val : Type where
  | vnone
  | vstr (s : String)
  | vint (n : Int)
  | vlist (xs : List Val)
  | vdict (kvs : List (String × Val))
  | vent (cls : Nat) (flds : List (Nat × Val))

/-- `value is not None`, as a Bool. -/
def isNotNone : Val → Bool
  | .vnone => false
  | _ => true

/-- A `TypedField` declaration: binding name, dict key name (already
resolved: explicit override or `name.lower()`), comparability,
multiplicity, declared type (an entity-class index or none). -/
structure FieldSpec : Type where
  name : String
  keyName : String
  comparable : Bool
  multiple : Bool
  typeRef : Option Nat
deriving DecidableEq, Repr

/-- An Entity subclass: its declared TypedFields and its `_try_cast`
flag. -/
structure ClassSpec : Type where
  fieldspecs : List FieldSpec
  tryCast : Bool
deriving DecidableEq, Repr

/-- The table of Entity classes in scope. -/
abbrev Ctx := List ClassSpec

def classFields (ctx : Ctx) (c : Nat) : List FieldSpec :=
  (ctx.getD c ⟨[], false⟩).fieldspecs

def classTryCast (ctx : Ctx) (c : Nat) : Bool :=
  (ctx.getD c ⟨[], false⟩).tryCast

def fspecAt (ctx : Ctx) (c fid : Nat) : FieldSpec :=
  (classFields ctx c).getD fid ⟨"", "", true, false, none⟩

/-- The exceptions surfacing from the fields/entities code: `TypeError`
raised by `TypedField._clean` (type mismatch), a generic `TypeError`, the
enriched `TypeError` re-raised by `Entity.from_dict`'s constructor
shortcut (the spec's ConstructionError), plus Python `AttributeError` /
`TypeError` for operations on values of the wrong shape. -/
inductive PErr : Type where
  | typeMismatch (fieldName : String)
  | typeError (msg : String)
  | constructionError (cls : Nat)
  | attributeError
  | iterationError
deriving DecidableEq, Repr

def PErr.isTypeError : PErr → Bool
  | .typeMismatch _ => true
  | .typeError _ => true
  | .constructionError _ => true
  | _ => false

/-- Oracle for `cls(value)` constructor calls: Entity subclass
constructors are arbitrary Python code, so the model abstracts them. -/
abbrev Ctor := Nat → Val → Except PErr Val

/-- `datautils.is_sequence`: has `__iter__` and is not a string/bytes
type.  Lists and dicts qualify; `None`, numbers, strings and (plain)
entities do not. -/
def isSeq : Val → Bool
  | .vlist _ => true
  | .vdict _ => true
  | _ => false

/-- Iterating a sequence value: a list yields its elements, a dict its
keys. -/
def seqElems : Val → List Val
  | .vlist xs => xs
  | .vdict kvs => kvs.map (fun kv => Val.vstr kv.1)
  | _ => []

/-- Python truthiness. -/
def pyTruthy : Val → Bool
  | .vnone => false
  | .vstr s => !s.isEmpty
  | .vint n => n != 0
  | .vlist xs => !xs.isEmpty
  | .vdict kvs => !kvs.isEmpty
  | .vent _ _ => true

/-- `TypedField.check_type` via `istypeof`/`isinstance`: declared types
are entity classes matched by class id (subclassing not modelled). -/
def checkType (tc : Nat) : Val → Bool
  | .vent c _ => c == tc
  | _ => false

/-- `TypedField._clean(value)`: `None` and untyped fields pass through;
a value of the declared type passes through; a castable type constructs
`type_(value)`; otherwise `TypeError`. -/
def tfClean (ctx : Ctx) (ctor : Ctor) (f : FieldSpec) (v : Val) :
    Except PErr Val :=
  match v with
  | .vnone => .ok .vnone
  | v2 =>
      match f.typeRef with
      | none => .ok v2
      | some tc =>
          if checkType tc v2 then .ok v2
          else if classTryCast ctx tc then ctor tc v2
          else .error (.typeMismatch f.name)

/-- Sequential cleaning of the generator
`(self._clean(x) for x in value if x is not None)` (after the filter). -/
def cleanAll (ctx : Ctx) (ctor : Ctor) (f : FieldSpec) :
    List Val → Except PErr (List Val)
  | [] => .ok []
  | x :: xs =>
      match tfClean ctx ctor f x with
      | .error e => .error e
      | .ok y =>
          match cleanAll ctx ctor f xs with
          | .error e => .error e
          | .ok ys => .ok (y :: ys)

/-- The value stored by `TypedField.__set__`: for a `multiple` field,
`None` becomes the empty sequence, a non-sequence scalar becomes a
cleaned one-element sequence, and a sequence is cleaned element-wise
after dropping elements that are `None`; otherwise the cleaned value. -/
def setValue (ctx : Ctx) (ctor : Ctor) (f : FieldSpec) (value : Val) :
    Except PErr Val :=
  if f.multiple then
    match value with
    | .vnone => .ok (.vlist [])
    | v2 =>
        if ¬ isSeq v2 then
          match tfClean ctx ctor f v2 with
          | .ok c => .ok (.vlist [c])
          | .error e => .error e
        else
          match cleanAll ctx ctor f ((seqElems v2).filter isNotNone) with
          | .ok cs => .ok (.vlist cs)
          | .error e => .error e
  else tfClean ctx ctor f value

/-- `TypedField.__set__`: normalize the value and commit it to the
instance's `_fields` dict under the field's identity (pre/post-set hooks
not modelled). -/
def tfSet (ctx : Ctx) (ctor : Ctor) (f : FieldSpec) (fid : Nat)
    (flds : List (Nat × Val)) (value : Val) :
    Except PErr (List (Nat × Val)) :=
  match setValue ctx ctor f value with
  | .ok v => .ok (aset flds fid v)
  | .error e => .error e

/-- `TypedField.__get__`: the stored value, else `None`, or the empty
sequence for an unset `multiple` field (the lazy `setdefault` mutation is
not observable through values). -/
def tfGet (f : FieldSpec) (flds : List (Nat × Val)) (fid : Nat) : Val :=
  match alookup flds fid with
  | some v => v
  | none => if f.multiple then .vlist [] else .vnone

/-- The `val is not None and val != []` filter of `Entity.to_dict`
(`{}` is not `[]` in Python, so empty dicts are kept). -/
def keptVal : Val → Bool
  | .vnone => false
  | .vlist [] => false
  | _ => true

mutual

/-- `Entity.to_dict`: iterate the set fields of `_fields`, convert each
value (element-wise for `multiple` fields), and keep only entries that
are neither `None` nor the empty list, under the field's `key_name`. -/
def entToDict (ctx : Ctx) (v : Val) : Except PErr Val :=
  match v with
  | .vent c flds =>
      match fieldsToDict ctx c flds [] with
      | .ok kvs => .ok (.vdict kvs)
      | .error e => .error e
  | _ => .error .attributeError
termination_by (sizeOf v, 0)

def fieldsToDict (ctx : Ctx) (c : Nat) (flds : List (Nat × Val))
    (acc : List (String × Val)) : Except PErr (List (String × Val)) :=
  match flds with
  | [] => .ok acc
  | (fid, v) :: rest =>
      match fieldConv ctx (fspecAt ctx c fid) v with
      | .error e => .error e
      | .ok dv =>
          let acc2 := if keptVal dv
                      then aset acc (fspecAt ctx c fid).keyName dv
                      else acc
          fieldsToDict ctx c rest acc2
termination_by (sizeOf flds, 0)

/-- The per-field conversion of `to_dict`: the `multiple` branch maps the
stored sequence through `_dictify` (empty/None storage becomes `[]`);
otherwise `_dictify` directly.  Non-sequence `multiple` storage is not
reachable through the descriptor and is modelled as a `TypeError`. -/
def fieldConv (ctx : Ctx) (f : FieldSpec) (v : Val) : Except PErr Val :=
  if f.multiple then
    match v with
    | .vnone => .ok (.vlist [])
    | .vlist [] => .ok (.vlist [])
    | .vlist xs =>
        match dictifyList ctx f xs with
        | .ok ds => .ok (.vlist ds)
        | .error e => .error e
    | _ => .error .iterationError
  else dictifyVal ctx f v
termination_by (sizeOf v, 2)

/-- `_dictify`: `None` passes through; with a declared type the value's
`to_dict()` is taken (`AttributeError` if it is not an entity); untyped
values pass through raw (`dict_value` is the identity on the base
`TypedField`). -/
def dictifyVal (ctx : Ctx) (f : FieldSpec) (v : Val) : Except PErr Val :=
  match v, f.typeRef with
  | .vnone, _ => .ok .vnone
  | .vent c flds, some _ => entToDict ctx (.vent c flds)
  | _, some _ => .error .attributeError
  | v2, none => .ok v2
termination_by (sizeOf v, 1)

def dictifyList (ctx : Ctx) (f : FieldSpec) (xs : List Val) :
    Except PErr (List Val) :=
  match xs with
  | [] => .ok []
  | x :: rest =>
      match dictifyVal ctx f x with
      | .error e => .error e
      | .ok d =>
          match dictifyList ctx f rest with
          | .error e => .error e
          | .ok ds => .ok (d :: ds)
termination_by (sizeOf xs, 0)

end

/-- `cls_dict.get(field.key_name)`: the value under the key, or `None`
when absent (Python cannot distinguish an absent key from an explicit
`None`). -/
def lookupD (kvs : List (String × Val)) (k : String) : Val :=
  match alookup kvs k with
  | some v => v
  | none => .vnone

theorem sizeOf_mem_val {α : Type} [SizeOf α] {l : List (α × Val)}
    {kv : α × Val} (h : kv ∈ l) : sizeOf kv.2 < sizeOf l := by
  induction l with
  | nil => simp at h
  | cons kv0 rest ih =>
    rcases List.mem_cons.mp h with h0 | h0
    · subst h0
      cases kv with
      | mk k v => simp; omega
    · have := ih h0
      simp
      omega

theorem sizeOf_lookupD_le (kvs : List (String × Val)) (k : String) :
    sizeOf (lookupD kvs k) ≤ sizeOf kvs := by
  cases ha : alookup kvs k with
  | none =>
    have h2 : lookupD kvs k = .vnone := by unfold lookupD; rw [ha]
    rw [h2]
    cases kvs with
    | nil => simp
    | cons kv rest => simp; omega
  | some v =>
    have h2 : lookupD kvs k = v := by unfold lookupD; rw [ha]
    rw [h2]
    have h3 := sizeOf_mem_val (alookup_mem ha)
    simp only at h3
    omega

mutual

/-- `Entity.from_dict`: `None` parses to `None`; a non-dict value
short-circuits into the class constructor, any `TypeError` re-raised with
a descriptive message (the spec's ConstructionError); a dict is parsed
field by field. -/
def entFromDict (ctx : Ctx) (ctor : Ctor) (c : Nat) (d : Val) :
    Except PErr Val :=
  match d with
  | .vnone => .ok .vnone
  | .vdict kvs =>
      match fieldsFromDict ctx ctor c (classFields ctx c).enum kvs [] with
      | .ok flds => .ok (.vent c flds)
      | .error e => .error e
  | v =>
      match ctor c v with
      | .ok e => .ok e
      | .error err =>
          if err.isTypeError then .error (.constructionError c)
          else .error err
termination_by (sizeOf d, 1, 0)

/-- The transformer dispatch of `from_dict` for one field, applied to the
dict value read under the field's key name: with a transformer (the
declared type; `factory` not modelled), recursively reconstruct —
element-wise for `multiple` fields, where `None` input becomes `[]`;
without one, a falsy value on a `multiple` field becomes `[]`, any other
value passes through raw. -/
def parseField (ctx : Ctx) (ctor : Ctor) (f : FieldSpec) (val : Val) :
    Except PErr Val :=
  match f.typeRef with
  | some tc =>
      if f.multiple then
        match val with
        | .vnone => .ok (Val.vlist [])
        | .vlist xs =>
            match fromDictList ctx ctor tc xs with
            | .ok es => .ok (Val.vlist es)
            | .error e => .error e
        | _ => .error .iterationError
      else entFromDict ctx ctor tc val
  | none =>
      if f.multiple && !(pyTruthy val) then .ok (Val.vlist [])
      else .ok val
termination_by (sizeOf val, 2, 0)

/-- The per-field loop of `from_dict`: read the dict value under each
field's key name (absent → `None`), transform it, and assign it through
`TypedField.__set__`. -/
def fieldsFromDict (ctx : Ctx) (ctor : Ctor) (c : Nat)
    (specs : List (Nat × FieldSpec)) (kvs : List (String × Val))
    (flds : List (Nat × Val)) : Except PErr (List (Nat × Val)) :=
  match specs with
  | [] => .ok flds
  | (fid, f) :: rest =>
      match parseField ctx ctor f (lookupD kvs f.keyName) with
      | .error e => .error e
      | .ok val2 =>
          match tfSet ctx ctor f fid flds val2 with
          | .error e => .error e
          | .ok flds2 => fieldsFromDict ctx ctor c rest kvs flds2
termination_by (1 + sizeOf kvs, 0, sizeOf specs)
decreasing_by
  · apply Prod.Lex.left
    have := sizeOf_lookupD_le kvs f.keyName
    omega
  · apply Prod.Lex.right
    apply Prod.Lex.right
    simp


def fromDictList (ctx : Ctx) (ctor : Ctor) (tc : Nat) (xs : List Val) :
    Except PErr (List Val) :=
  match xs with
  | [] => .ok []
  | x :: rest =>
      match entFromDict ctx ctor tc x with
      | .error e => .error e
      | .ok e =>
          match fromDictList ctx ctor tc rest with
          | .error e2 => .error e2
          | .ok es => .ok (e :: es)
termination_by (sizeOf xs, 0, 0)

end

/-- `value == []`, as a Bool. -/
def isEmptyListV : Val → Bool
  | .vlist [] => true
  | _ => false

/-- `value is None`-shaped equality used when comparing against an unset
field's default. -/
def isVnoneV : Val → Bool
  | .vnone => true
  | _ => false

mutual

/-- Python `==` on model values reaching it: plain lists compare
element-wise, dicts key-based (unordered), and entities by the
structural part of `Entity.__eq__` (the `other is self` identity
shortcut never fires between the distinct objects modelled here).
`TypedList` storage of typed `multiple` fields never reaches `pyEq`:
`fieldCmp` compares it by identity before recursing. -/
def pyEq (ctx : Ctx) (a b : Val) : Bool :=
  match a, b with
  | .vnone, .vnone => true
  | .vstr x, .vstr y => x == y
  | .vint x, .vint y => x == y
  | .vlist xs, .vlist ys => pyEqList ctx xs ys
  | .vdict xs, .vdict ys => pyEqDictL ctx xs ys && pyEqDictL ctx ys xs
  | .vent c1 f1, .vent c2 f2 => entStructEq ctx c1 f1 c2 f2
  | _, _ => false
termination_by (sizeOf a + sizeOf b, 0, 0)

def pyEqList (ctx : Ctx) (xs ys : List Val) : Bool :=
  match xs, ys with
  | [], [] => true
  | x :: xs2, y :: ys2 => pyEq ctx x y && pyEqList ctx xs2 ys2
  | _, _ => false
termination_by (sizeOf xs + sizeOf ys, 0, 0)

/-- One direction of Python dict equality: every entry of `xs` has an
equal entry in `ys`. -/
def pyEqDictL (ctx : Ctx) (xs ys : List (String × Val)) : Bool :=
  match xs with
  | [] => true
  | (k, v) :: rest =>
      (match h2 : alookup ys k with
       | some w => pyEq ctx v w
       | none => false) && pyEqDictL ctx rest ys
termination_by (sizeOf xs + sizeOf ys, 0, 0)
decreasing_by
  all_goals apply Prod.Lex.left
  all_goals first
    | (have ha := sizeOf_mem_val (alookup_mem h2)
       simp only at ha
       simp
       omega)
    | (simp
       omega)
    | simp
    | omega

/-- The structural part of `Entity.__eq__`: same concrete class, at
least one comparable TypedField declared, and every comparable field
holding `==` values on both entities (via `__get__`). -/
def entStructEq (ctx : Ctx) (c1 : Nat) (f1 : List (Nat × Val)) (c2 : Nat)
    (f2 : List (Nat × Val)) : Bool :=
  if c1 != c2 then false
  else if ((classFields ctx c1).filter (fun f => f.comparable)).isEmpty
  then false
  else entFieldsEq ctx f1 f2 (classFields ctx c1).enum
termination_by (sizeOf f1 + sizeOf f2, 1, 0)

def entFieldsEq (ctx : Ctx) (f1 f2 : List (Nat × Val))
    (specs : List (Nat × FieldSpec)) : Bool :=
  match specs with
  | [] => true
  | (fid, f) :: rest =>
      (!f.comparable || fieldCmp ctx f f1 f2 fid) &&
      entFieldsEq ctx f1 f2 rest
termination_by (sizeOf f1 + sizeOf f2, 0, 1 + sizeOf specs)

/-- `f.__get__(self) == f.__get__(other)` for one field, between two
distinct entities.  A `multiple` field with a declared type stores a
`TypedList` (fields.py:153-154, `functools.partial(TypedList, ...)`);
`TypedList` inherits no `__eq__` from `collections.MutableSequence`, and
`__set__` and the lazy `__get__` default always construct a fresh one per
instance, so the two sides are distinct objects compared by identity:
always `False`.  An untyped `multiple` field stores a plain `list`
(fields.py:155), compared structurally, an unset side contributing a
fresh empty list; otherwise stored values compare with `==` and an unset
side contributes `None`. -/
def fieldCmp (ctx : Ctx) (f : FieldSpec) (f1 f2 : List (Nat × Val))
    (fid : Nat) : Bool :=
  if f.multiple && f.typeRef.isSome then false
  else
    match h1 : alookup f1 fid, h2 : alookup f2 fid with
    | some v1, some v2 => pyEq ctx v1 v2
    | some v1, none => if f.multiple then isEmptyListV v1 else isVnoneV v1
    | none, some v2 => if f.multiple then isEmptyListV v2 else isVnoneV v2
    | none, none => true
termination_by (sizeOf f1 + sizeOf f2, 0, 0)
decreasing_by
  apply Prod.Lex.left
  have ha := sizeOf_mem_val (alookup_mem h1)
  have hb := sizeOf_mem_val (alookup_mem h2)
  simp only at ha hb
  omega

end

/-- A constructor oracle that rejects every call: no class in scope is
constructible from a scalar. -/
def noCtor : Ctor := fun _ _ => .error (.typeError "cannot construct")

/-- A comparable, `multiple`, untyped TypedField used in the concrete
examples. -/
def mulField : FieldSpec := ⟨"data", "data", true, true, none⟩

/-- On a `multiple` field, `__set__` of a non-`None` non-sequence scalar
stores the cleaned one-element sequence. -/
theorem setValue_nonseq {ctx : Ctx} {ctor : Ctor} {f : FieldSpec}
    {v : Val} (hm : f.multiple = true) (hs : isSeq v = false)
    (hn : isNotNone v = true) :
    setValue ctx ctor f v =
      (tfClean ctx ctor f v).map (fun c => Val.vlist [c]) := by
  cases v with
  | vnone => simp [isNotNone] at hn
  | vlist xs => simp [isSeq] at hs
  | vdict kvs => simp [isSeq] at hs
  | vstr s =>
      simp only [setValue, hm, isSeq, Bool.not_false, if_true]
      cases htc : tfClean ctx ctor f (.vstr s) <;> simp [Except.map]
  | vint n =>
      simp only [setValue, hm, isSeq, Bool.not_false, if_true]
      cases htc : tfClean ctx ctor f (.vint n) <;> simp [Except.map]
  | vent c fl =>
      simp only [setValue, hm, isSeq, Bool.not_false, if_true]
      cases htc : tfClean ctx ctor f (.vent c fl) <;> simp [Except.map]

/-- On a `multiple` field, `__set__` of a sequence stores the cleaned
values of its non-`None` elements. -/
theorem setValue_seq {ctx : Ctx} {ctor : Ctor} {f : FieldSpec} {v : Val}
    (hm : f.multiple = true) (hs : isSeq v = true) :
    setValue ctx ctor f v =
      (cleanAll ctx ctor f ((seqElems v).filter isNotNone)).map
        Val.vlist := by
  cases v with
  | vnone => simp [isSeq] at hs
  | vstr s => simp [isSeq] at hs
  | vint n => simp [isSeq] at hs
  | vent c fl => simp [isSeq] at hs
  | vlist xs =>
      simp only [setValue, hm, isSeq, Bool.not_true, if_true]
      cases hca : cleanAll ctx ctor f ((seqElems (.vlist xs)).filter isNotNone) <;>
        simp [Except.map, hca]
  | vdict kvs =>
      simp only [setValue, hm, isSeq, Bool.not_true, if_true]
      cases hca : cleanAll ctx ctor f ((seqElems (.vdict kvs)).filter isNotNone) <;>
        simp [Except.map, hca]

/-- C5 counterexample: assigning the one-element sequence `[None]` to a
`multiple` TypedField stores `[]`, not the element-wise image
`[clean(None)] = [None]` that cleaning each element of the assigned
sequence would produce: `__set__` drops `None` elements before
cleaning. -/
theorem claim5_counterexample :
    tfSet [] noCtor mulField 0 [] (.vlist [.vnone]) =
      .ok [(0, .vlist [])] ∧
    cleanAll [] noCtor mulField [.vnone] = .ok [.vnone] := by
  exact ⟨rfl, rfl⟩

/-- C5 (amended): on a `multiple` TypedField, `__set__` stores `[]` for
`None`, the cleaned one-element sequence for a non-sequence scalar, and,
for any other sequence, the cleaned values of exactly its non-`None`
elements (elements that are `None` are dropped before cleaning). -/
theorem claim5_multiplicity_amended (ctx : Ctx) (ctor : Ctor)
    (f : FieldSpec) (fid : Nat) (flds : List (Nat × Val))
    (hm : f.multiple = true) :
    tfSet ctx ctor f fid flds .vnone = .ok (aset flds fid (.vlist [])) ∧
    (∀ v, isSeq v = false → isNotNone v = true →
      tfSet ctx ctor f fid flds v =
        (tfClean ctx ctor f v).map
          (fun c => aset flds fid (.vlist [c]))) ∧
    (∀ v, isSeq v = true →
      tfSet ctx ctor f fid flds v =
        (cleanAll ctx ctor f ((seqElems v).filter isNotNone)).map
          (fun cs => aset flds fid (.vlist cs))) := by
  refine ⟨?_, ?_, ?_⟩
  · simp [tfSet, setValue, hm]
  · intro v hs hn
    unfold tfSet
    rw [setValue_nonseq hm hs hn]
    cases htc : tfClean ctx ctor f v <;> simp [Except.map]
  · intro v hs
    unfold tfSet
    rw [setValue_seq hm hs]
    cases hca : cleanAll ctx ctor f ((seqElems v).filter isNotNone) <;>
      simp [Except.map]

/-- C5 witness: on a concrete `multiple` field, assigning the bare
scalar `"x"` stores `["x"]` and assigning `None` stores `[]`. -/
theorem claim5_multiplicity_witness :
    tfSet [] noCtor mulField 0 [] (.vstr "x") =
      .ok [(0, .vlist [.vstr "x"])] ∧
    tfSet [] noCtor mulField 0 [] .vnone = .ok [(0, .vlist [])] := by
  have h := claim5_multiplicity_amended [] noCtor mulField 0 [] rfl
  refine ⟨?_, ?_⟩
  · rw [h.2.1 (.vstr "x") rfl rfl]
    rfl
  · rw [h.1]
    rfl

/-- Every element of a `cleanAll` result is the cleaned image of some
input element. -/
theorem cleanAll_mem {ctx : Ctx} {ctor : Ctor} {f : FieldSpec}
    {xs ys : List Val} (h : cleanAll ctx ctor f xs = .ok ys) :
    ∀ y ∈ ys, ∃ x ∈ xs, tfClean ctx ctor f x = .ok y := by
  induction xs generalizing ys with
  | nil =>
    unfold cleanAll at h
    injection h with h
    subst h
    simp
  | cons x xs2 ih =>
    unfold cleanAll at h
    cases h1 : tfClean ctx ctor f x with
    | error e => rw [h1] at h; cases h
    | ok y0 =>
      rw [h1] at h
      cases h2 : cleanAll ctx ctor f xs2 with
      | error e => rw [h2] at h; cases h
      | ok ys2 =>
        rw [h2] at h
        injection h with h
        subst h
        intro y hy
        rcases List.mem_cons.mp hy with hy | hy
        · exact ⟨x, List.mem_cons_self _ _, hy ▸ h1⟩
        · rcases ih h2 y hy with ⟨x2, hx2, hcx2⟩
          exact ⟨x2, List.mem_cons_of_mem _ hx2, hcx2⟩

/-- On a non-`None` value, `_clean` dispatches on the declared type. -/
theorem tfClean_eq (ctx : Ctx) (ctor : Ctor) (f : FieldSpec) (v : Val)
    (hv : isNotNone v = true) :
    tfClean ctx ctor f v =
      match f.typeRef with
      | none => .ok v
      | some tc =>
          if checkType tc v then .ok v
          else if classTryCast ctx tc then ctor tc v
          else .error (.typeMismatch f.name) := by
  cases v with
  | vnone => simp [isNotNone] at hv
  | vstr s => rfl
  | vint n => rfl
  | vlist xs => rfl
  | vdict kvs => rfl
  | vent c fl => rfl

/-- `_clean` never turns a non-`None` value into `None` when the
constructor oracle never returns `None`. -/
theorem tfClean_notNone {ctx : Ctx} {ctor : Ctor} {f : FieldSpec}
    {x y : Val}
    (hctor : ∀ c v e, ctor c v = .ok e → isNotNone e = true)
    (hx : isNotNone x = true) (h : tfClean ctx ctor f x = .ok y) :
    isNotNone y = true := by
  rw [tfClean_eq ctx ctor f x hx] at h
  cases htr : f.typeRef with
  | none =>
    rw [htr] at h
    injection h with h
    subst h
    exact hx
  | some tc =>
    rw [htr] at h
    simp only at h
    by_cases hck : checkType tc x = true
    · rw [if_pos hck] at h
      injection h with h
      subst h
      exact hx
    · rw [if_neg hck] at h
      by_cases htc : classTryCast ctx tc = true
      · rw [if_pos htc] at h
        exact hctor tc x y h
      · rw [if_neg htc] at h
        cases h

/-- C10: when a `multiple` TypedField is assigned from a sequence, the
stored collection consists of the cleaned values of exactly the
non-`None` elements of the input, and (for a constructor oracle that
never returns `None`) contains no `None` itself. -/
theorem claim10_none_dropped (ctx : Ctx) (ctor : Ctor) (f : FieldSpec)
    (fid : Nat) (flds : List (Nat × Val)) (v : Val) (cs : List Val)
    (hm : f.multiple = true) (hs : isSeq v = true)
    (hctor : ∀ c w e, ctor c w = .ok e → isNotNone e = true)
    (hok : cleanAll ctx ctor f ((seqElems v).filter isNotNone) = .ok cs) :
    tfSet ctx ctor f fid flds v = .ok (aset flds fid (.vlist cs)) ∧
    ∀ y ∈ cs, (∃ x ∈ seqElems v, isNotNone x = true ∧
                 tfClean ctx ctor f x = .ok y) ∧
               isNotNone y = true := by
  constructor
  · unfold tfSet
    rw [setValue_seq hm hs, hok]
    rfl
  · intro y hy
    rcases cleanAll_mem hok y hy with ⟨x, hx, hcx⟩
    have hxf := List.mem_filter.mp hx
    exact ⟨⟨x, hxf.1, hxf.2, hcx⟩, tfClean_notNone hctor hxf.2 hcx⟩

/-- C10 witness: assigning `[None, "a", None]` to a concrete `multiple`
field stores `["a"]`. -/
theorem claim10_none_dropped_witness :
    tfSet [] noCtor mulField 0 [] (.vlist [.vnone, .vstr "a", .vnone]) =
      .ok (aset [] 0 (.vlist [.vstr "a"])) := by
  exact (claim10_none_dropped [] noCtor mulField 0 []
    (.vlist [.vnone, .vstr "a", .vnone]) [.vstr "a"] rfl rfl
    (fun c w e h => by cases h) rfl).1

/-- C9: `from_dict` on a non-`None` value that is not a mapping invokes
the class constructor with the value as its single argument and returns
the result; a constructor `TypeError` is replaced by the descriptive
construction error naming the class. -/
theorem claim9_scalar_shortcut (ctx : Ctx) (ctor : Ctor) (c : Nat)
    (v : Val) (hnn : isNotNone v = true)
    (hnd : ∀ kvs, v ≠ .vdict kvs) :
    entFromDict ctx ctor c v =
      match ctor c v with
      | .ok e => .ok e
      | .error err =>
          if err.isTypeError then .error (.constructionError c)
          else .error err := by
  cases v with
  | vnone => simp [isNotNone] at hnn
  | vdict kvs => exact absurd rfl (hnd kvs)
  | vstr s => simp only [entFromDict]
  | vint n => simp only [entFromDict]
  | vlist xs => simp only [entFromDict]
  | vent c2 fl => simp only [entFromDict]

/-- C9 witness: for a constructor that rejects every scalar, `from_dict`
of `"abc"` fails with the construction error for the class. -/
theorem claim9_scalar_shortcut_witness :
    entFromDict [] noCtor 0 (.vstr "abc") =
      .error (.constructionError 0) := by
  have h := claim9_scalar_shortcut [] noCtor 0 (.vstr "abc") rfl
    (fun kvs h2 => Val.noConfusion h2)
  rw [h]
  rfl

/-- `entFieldsEq` over a list of field declarations is the conjunction
of `fieldCmp` over the comparable ones. -/
theorem entFieldsEq_iff (ctx : Ctx) (f1 f2 : List (Nat × Val))
    (specs : List (Nat × FieldSpec)) :
    entFieldsEq ctx f1 f2 specs = true ↔
      ∀ s ∈ specs, s.2.comparable = true →
        fieldCmp ctx s.2 f1 f2 s.1 = true := by
  induction specs with
  | nil => simp [entFieldsEq]
  | cons s rest ih =>
    obtain ⟨fid, f⟩ := s
    simp only [entFieldsEq, Bool.and_eq_true, Bool.or_eq_true,
      Bool.not_eq_true', ih, List.mem_cons]
    constructor
    · rintro ⟨h1, h2⟩ s hs hc
      rcases hs with hs | hs
      · subst hs
        simp only at hc
        rcases h1 with h1 | h1
        · rw [hc] at h1
          cases h1
        · exact h1
      · exact h2 s hs hc
    · intro h
      constructor
      · by_cases hc : f.comparable = true
        · exact Or.inr (h (fid, f) (Or.inl rfl) hc)
        · simp only [Bool.not_eq_true] at hc
          exact Or.inl hc
      · intro s hs hc
        exact h s (Or.inr hs) hc

/-- Two references to entity objects: equal when the identity is the
same object, else by the structural comparison of `Entity.__eq__`. -/
def entityEqObj (ctx : Ctx) (a b : Nat × Val) : Bool :=
  if a.1 == b.1 then true
  else
    match a.2, b.2 with
    | .vent c1 f1, .vent c2 f2 => entStructEq ctx c1 f1 c2 f2
    | _, _ => false

/-- C7: Entity equality is `True` on the identical reference; between
distinct references it holds iff the concrete classes coincide, at
least one comparable TypedField is declared, and every comparable field
holds `==` values on both sides; and with zero comparable fields it is
`False` even for a structurally identical copy. -/
theorem claim7_structural_equality (ctx : Ctx) (a b : Nat × Val)
    (hne : a.1 ≠ b.1) :
    (entityEqObj ctx a a = true) ∧
    (∀ c1 f1 c2 f2, a.2 = .vent c1 f1 → b.2 = .vent c2 f2 →
      (entityEqObj ctx a b = true ↔
        (c1 = c2 ∧
         ((classFields ctx c1).filter (fun f => f.comparable)).isEmpty
           = false ∧
         ∀ s ∈ (classFields ctx c1).enum, s.2.comparable = true →
           fieldCmp ctx s.2 f1 f2 s.1 = true))) ∧
    (∀ c1 f1, a.2 = .vent c1 f1 → b.2 = .vent c1 f1 →
      ((classFields ctx c1).filter (fun f => f.comparable)).isEmpty
        = true →
      entityEqObj ctx a b = false) := by
  have hbeq : (a.1 == b.1) = false := by
    simp only [beq_eq_false_iff_ne, ne_eq]
    exact hne
  refine ⟨?_, ?_, ?_⟩
  · unfold entityEqObj
    simp
  · intro c1 f1 c2 f2 ha hb
    unfold entityEqObj
    rw [ha, hb, hbeq]
    simp only [Bool.false_eq_true, if_false]
    by_cases hcc : c1 = c2
    · subst hcc
      simp only [entStructEq, bne_self_eq_false, Bool.false_eq_true,
        if_false]
      by_cases he :
          ((classFields ctx c1).filter (fun f => f.comparable)).isEmpty
            = true
      · simp [he]
      · simp only [Bool.not_eq_true] at he
        simp [he, entFieldsEq_iff]
    · have hb2 : (c1 != c2) = true := by
        simp [bne_iff_ne]
        exact hcc
      simp [entStructEq, hb2, hcc]
  · intro c1 f1 ha hb he
    unfold entityEqObj
    rw [ha, hb, hbeq]
    simp [entStructEq, he]

/-- C7 witness: for a class with zero comparable fields, an entity is
equal to itself by reference but unequal to a structurally identical
distinct copy. -/
theorem claim7_structural_equality_witness :
    entityEqObj [ClassSpec.mk [] true] (0, .vent 0 []) (0, .vent 0 [])
      = true ∧
    entityEqObj [ClassSpec.mk [] true] (0, .vent 0 []) (1, .vent 0 [])
      = false := by
  have h := claim7_structural_equality [ClassSpec.mk [] true]
    (0, .vent 0 []) (1, .vent 0 []) (by decide)
  exact ⟨h.1, h.2.2 0 [] rfl rfl rfl⟩


/-- Fields whose key name never matches `key` leave the `to_dict`
accumulator's entry for `key` untouched. -/
theorem fieldsToDict_lookup_skip {ctx : Ctx} {c : Nat} {key : String} :
    ∀ (flds : List (Nat × Val)) (acc kvs : List (String × Val)),
      (∀ kv ∈ flds, (fspecAt ctx c kv.1).keyName ≠ key) →
      fieldsToDict ctx c flds acc = .ok kvs →
      alookup kvs key = alookup acc key := by
  intro flds
  induction flds with
  | nil =>
    intro acc kvs hkey h
    unfold fieldsToDict at h
    injection h with h
    subst h
    rfl
  | cons kv rest ih =>
    intro acc kvs hkey h
    obtain ⟨fid0, v0⟩ := kv
    unfold fieldsToDict at h
    cases hfc : fieldConv ctx (fspecAt ctx c fid0) v0 with
    | error e => rw [hfc] at h; cases h
    | ok dv =>
      rw [hfc] at h
      simp only at h
      have h2 := ih _ kvs
        (fun kv hm => hkey kv (List.mem_cons_of_mem _ hm)) h
      rw [h2]
      by_cases hk : keptVal dv = true
      · rw [if_pos hk, alookup_aset_ne]
        exact Ne.symm (hkey (fid0, v0) (List.mem_cons_self _ _))
      · rw [if_neg hk]

/-- What `to_dict` records under a field's key name: the converted
stored value when it is kept, nothing otherwise (fields of the class
carry pairwise distinct key names). -/
theorem fieldsToDict_lookup {ctx : Ctx} {c : Nat} {fid : Nat} :
    ∀ (flds : List (Nat × Val)) (acc kvs : List (String × Val)),
      (akeys flds).Nodup →
      (∀ kv ∈ flds, kv.1 ≠ fid →
        (fspecAt ctx c kv.1).keyName ≠ (fspecAt ctx c fid).keyName) →
      fieldsToDict ctx c flds acc = .ok kvs →
      (fspecAt ctx c fid).keyName ∉ akeys acc →
      alookup kvs (fspecAt ctx c fid).keyName =
        (match alookup flds fid with
         | some v =>
             (match fieldConv ctx (fspecAt ctx c fid) v with
              | .ok dv => if keptVal dv then some dv else none
              | .error e => none)
         | none => none) := by
  intro flds
  induction flds with
  | nil =>
    intro acc kvs hnd hkey h hacc
    unfold fieldsToDict at h
    injection h with h
    subst h
    rw [alookup_none_of_not_mem_keys hacc]
    rfl
  | cons kv rest ih =>
    intro acc kvs hnd hkey h hacc
    obtain ⟨fid0, v0⟩ := kv
    simp [akeys] at hnd
    unfold fieldsToDict at h
    cases hfc : fieldConv ctx (fspecAt ctx c fid0) v0 with
    | error e => rw [hfc] at h; cases h
    | ok dv =>
      rw [hfc] at h
      simp only at h
      by_cases hfid : fid0 = fid
      · subst hfid
        have hnotin : ∀ kv2 ∈ rest, (fspecAt ctx c kv2.1).keyName ≠
            (fspecAt ctx c fid0).keyName := by
          intro kv2 hm
          have hne : kv2.1 ≠ fid0 := by
            intro he
            exact hnd.1 kv2.2 (by rw [← he]; exact hm)
          exact hkey kv2 (List.mem_cons_of_mem _ hm) hne
        have h2 := fieldsToDict_lookup_skip rest _ kvs hnotin h
        by_cases hk : keptVal dv = true
        · rw [if_pos hk] at h2
          rw [h2, alookup_aset_self]
          simp [alookup, hfc, hk]
        · rw [if_neg hk] at h2
          rw [h2, alookup_none_of_not_mem_keys hacc]
          simp [alookup, hfc, hk]
      · have h2 := ih _ kvs hnd.2
          (fun kv2 hm hne => hkey kv2 (List.mem_cons_of_mem _ hm) hne) h
          (by
            by_cases hk : keptVal dv = true
            · rw [if_pos hk]
              intro hmem
              rw [akeys_aset] at hmem
              have hne0 := hkey (fid0, v0) (List.mem_cons_self _ _) hfid
              by_cases hin : (fspecAt ctx c fid0).keyName ∈ akeys acc
              · rw [if_pos hin] at hmem
                exact hacc hmem
              · rw [if_neg hin] at hmem
                rcases List.mem_append.mp hmem with hmem | hmem
                · exact hacc hmem
                · simp at hmem
                  exact hne0 hmem.symm
            · rw [if_neg hk]
              exact hacc)
        rw [h2]
        simp only [alookup, if_neg hfid]

/-- `_dictify` of an unset field's default (`None`, or `[]` for a
`multiple` field) succeeds and is never kept. -/
theorem fieldConv_default (ctx : Ctx) (f : FieldSpec) :
    fieldConv ctx f (if f.multiple then Val.vlist [] else Val.vnone) =
      .ok (if f.multiple then Val.vlist [] else Val.vnone) := by
  by_cases hm : f.multiple = true
  · simp [fieldConv, hm]
  · simp only [Bool.not_eq_true] at hm
    simp [fieldConv, hm, dictifyVal]


/-- The `from_dict` transformer of an absent key (read as `None`)
produces the field's default: `[]` for a `multiple` field, `None`
otherwise. -/
theorem parseField_none (ctx : Ctx) (ctor : Ctor) (f : FieldSpec) :
    parseField ctx ctor f .vnone =
      .ok (if f.multiple then Val.vlist [] else Val.vnone) := by
  cases htr : f.typeRef with
  | none =>
    by_cases hm : f.multiple = true
    · simp [parseField, htr, hm, pyTruthy]
    · simp only [Bool.not_eq_true] at hm
      simp [parseField, htr, hm, pyTruthy]
  | some tc =>
    by_cases hm : f.multiple = true
    · simp [parseField, htr, hm]
    · simp only [Bool.not_eq_true] at hm
      simp [parseField, htr, hm, entFromDict]

/-- Assigning a field's default through the descriptor stores it
unchanged. -/
theorem tfSet_default (ctx : Ctx) (ctor : Ctor) (f : FieldSpec)
    (fid : Nat) (flds : List (Nat × Val)) :
    tfSet ctx ctor f fid flds
        (if f.multiple then Val.vlist [] else Val.vnone) =
      .ok (aset flds fid (if f.multiple then Val.vlist [] else Val.vnone)) := by
  by_cases hm : f.multiple = true
  · simp [tfSet, setValue, hm, isSeq, seqElems, cleanAll]
  · simp only [Bool.not_eq_true] at hm
    simp [tfSet, setValue, hm, tfClean]

/-- Field declarations whose index differs from `fid` leave the
`from_dict` accumulator's entry for `fid` untouched. -/
theorem fieldsFromDict_skip {ctx : Ctx} {ctor : Ctor} {c : Nat}
    {kvs : List (String × Val)} {fid : Nat} :
    ∀ (specs : List (Nat × FieldSpec)) (flds out : List (Nat × Val)),
      (∀ s ∈ specs, s.1 ≠ fid) →
      fieldsFromDict ctx ctor c specs kvs flds = .ok out →
      alookup out fid = alookup flds fid := by
  intro specs
  induction specs with
  | nil =>
    intro flds out hs h
    unfold fieldsFromDict at h
    injection h with h
    subst h
    rfl
  | cons s rest ih =>
    intro flds out hs h
    obtain ⟨fid0, f0⟩ := s
    unfold fieldsFromDict at h
    cases hpf : parseField ctx ctor f0 (lookupD kvs f0.keyName) with
    | error e => rw [hpf] at h; cases h
    | ok val2 =>
      rw [hpf] at h
      simp only at h
      cases hts : tfSet ctx ctor f0 fid0 flds val2 with
      | error e => rw [hts] at h; cases h
      | ok flds2 =>
        rw [hts] at h
        simp only at h
        have h2 := ih flds2 out
          (fun s hm => hs s (List.mem_cons_of_mem _ hm)) h
        rw [h2]
        have hne : fid0 ≠ fid := hs (fid0, f0) (List.mem_cons_self _ _)
        unfold tfSet at hts
        cases hsv : setValue ctx ctor f0 val2 with
        | error e => rw [hsv] at hts; cases hts
        | ok v =>
          rw [hsv] at hts
          injection hts with hts
          subst hts
          exact alookup_aset_ne flds v (Ne.symm hne)

/-- A key absent from the input mapping leaves the field set to its
default after `from_dict`: `[]` for a `multiple` field, `None`
otherwise. -/
theorem fieldsFromDict_absent {ctx : Ctx} {ctor : Ctor} {c : Nat}
    {kvs : List (String × Val)} {fid : Nat} {f : FieldSpec}
    (habs : alookup kvs f.keyName = none) :
    ∀ (specs : List (Nat × FieldSpec)) (flds out : List (Nat × Val)),
      (fid, f) ∈ specs →
      (specs.map Prod.fst).Nodup →
      fieldsFromDict ctx ctor c specs kvs flds = .ok out →
      alookup out fid =
        some (if f.multiple then Val.vlist [] else Val.vnone) := by
  intro specs
  induction specs with
  | nil =>
    intro flds out hmem
    simp at hmem
  | cons s rest ih =>
    intro flds out hmem hnd h
    obtain ⟨fid0, f0⟩ := s
    simp only [List.map, List.nodup_cons] at hnd
    unfold fieldsFromDict at h
    cases hpf : parseField ctx ctor f0 (lookupD kvs f0.keyName) with
    | error e => rw [hpf] at h; cases h
    | ok val2 =>
      rw [hpf] at h
      simp only at h
      cases hts : tfSet ctx ctor f0 fid0 flds val2 with
      | error e => rw [hts] at h; cases h
      | ok flds2 =>
        rw [hts] at h
        simp only at h
        rcases List.mem_cons.mp hmem with hm0 | hm0
        · rw [Prod.mk.injEq] at hm0
          obtain ⟨h1, h2⟩ := hm0
          subst h1
          subst h2
          have hlook : lookupD kvs f.keyName = .vnone := by
            unfold lookupD
            rw [habs]
          rw [hlook, parseField_none] at hpf
          injection hpf with hpf
          rw [← hpf, tfSet_default] at hts
          injection hts with hts
          have hskip := @fieldsFromDict_skip ctx ctor c kvs fid rest
            flds2 out
            (fun s hm => by
              intro he
              apply hnd.1
              rw [← he]
              exact List.mem_map_of_mem Prod.fst hm) h
          rw [hskip, ← hts, alookup_aset_self]
        · exact ih flds2 out hm0 hnd.2 h


/-- C8: `to_dict` output is sparse — an entity field appears in the
produced mapping under its key name, with its converted value, exactly
when that converted value is neither `None` nor the empty list — and on
reconstruction `from_dict` stores the default for a key absent from the
input mapping: the empty sequence for a `multiple` field, `None`
otherwise. -/
theorem claim8_sparse_dict (ctx : Ctx) (ctor : Ctor) (c : Nat) :
    (∀ (flds : List (Nat × Val)) (kvs : List (String × Val))
       (fid : Nat) (dv : Val),
      (akeys flds).Nodup →
      (∀ j, j < (classFields ctx c).length → j ≠ fid →
        (fspecAt ctx c j).keyName ≠ (fspecAt ctx c fid).keyName) →
      (∀ kv ∈ flds, kv.1 < (classFields ctx c).length) →
      entToDict ctx (.vent c flds) = .ok (.vdict kvs) →
      fieldConv ctx (fspecAt ctx c fid)
          (tfGet (fspecAt ctx c fid) flds fid) = .ok dv →
      alookup kvs (fspecAt ctx c fid).keyName =
        (if keptVal dv then some dv else none)) ∧
    (∀ (kvs : List (String × Val)) (out : List (Nat × Val))
       (fid : Nat) (f : FieldSpec),
      (fid, f) ∈ (classFields ctx c).enum →
      alookup kvs f.keyName = none →
      entFromDict ctx ctor c (.vdict kvs) = .ok (.vent c out) →
      alookup out fid =
        some (if f.multiple then Val.vlist [] else Val.vnone)) := by
  constructor
  · intro flds kvs fid dv hnd hknames hrange htd hdv
    unfold entToDict at htd
    cases hftd : fieldsToDict ctx c flds [] with
    | error e => rw [hftd] at htd; cases htd
    | ok kvs2 =>
      rw [hftd] at htd
      injection htd with htd
      injection htd with htd
      subst htd
      have hlem := fieldsToDict_lookup flds [] kvs2 hnd
        (fun kv hm hne => hknames kv.1 (hrange kv hm) hne) hftd
        (by simp [akeys])
      cases halk : alookup flds fid with
      | some v =>
        have hget : tfGet (fspecAt ctx c fid) flds fid = v := by
          unfold tfGet
          rw [halk]
        rw [halk] at hlem
        rw [hget] at hdv
        simp only [hdv] at hlem
        exact hlem
      | none =>
        have hget : tfGet (fspecAt ctx c fid) flds fid =
            (if (fspecAt ctx c fid).multiple then Val.vlist []
             else Val.vnone) := by
          unfold tfGet
          rw [halk]
        rw [halk] at hlem
        rw [hget, fieldConv_default] at hdv
        injection hdv with hdv
        have hkept : keptVal dv = false := by
          rw [← hdv]
          by_cases hm : (fspecAt ctx c fid).multiple = true
          · simp [hm, keptVal]
          · simp only [Bool.not_eq_true] at hm
            simp [hm, keptVal]
        rw [hkept]
        simpa using hlem
  · intro kvs out fid f hmem habs hfd
    unfold entFromDict at hfd
    cases hffd : fieldsFromDict ctx ctor c (classFields ctx c).enum kvs []
      with
    | error e => rw [hffd] at hfd; cases hfd
    | ok flds0 =>
      rw [hffd] at hfd
      simp only at hfd
      injection hfd with hfd
      injection hfd with hc hf
      subst hf
      have hnd : ((classFields ctx c).enum.map Prod.fst).Nodup := by
        rw [List.enum_map_fst]
        exact List.nodup_range _
      exact fieldsFromDict_absent habs (classFields ctx c).enum [] flds0
        hmem hnd hffd


/-- A concrete two-field class: a comparable scalar field keyed "a" and
a comparable `multiple` field keyed "b", both untyped. -/
def ctx8 : Ctx :=
  [⟨[⟨"a", "a", true, false, none⟩, ⟨"b", "b", true, true, none⟩], false⟩]

/-- C8 witness: for the concrete two-field class, an entity with the
scalar set to `"x"` and the `multiple` field empty serializes to a
mapping without the key "b", and reconstructing from that mapping stores
`[]` for the `multiple` field. -/
theorem claim8_sparse_dict_witness :
    alookup [("a", Val.vstr "x")] "b" = none ∧
    alookup [(0, Val.vstr "x"), (1, Val.vlist [])] 1 =
      some (Val.vlist []) := by
  have h := claim8_sparse_dict ctx8 noCtor 0
  have htd : entToDict ctx8
      (.vent 0 [(0, Val.vstr "x"), (1, Val.vlist [])]) =
      .ok (.vdict [("a", Val.vstr "x")]) := by
    simp [entToDict, fieldsToDict, fieldConv, dictifyVal, dictifyList,
      fspecAt, classFields, ctx8, keptVal, aset, List.getD_cons_zero,
      List.getD_cons_succ]
  have hdv : fieldConv ctx8 (fspecAt ctx8 0 1)
      (tfGet (fspecAt ctx8 0 1) [(0, Val.vstr "x"), (1, Val.vlist [])] 1)
      = .ok (Val.vlist []) := by
    simp [fieldConv, tfGet, alookup, fspecAt, classFields, ctx8,
      List.getD_cons_zero, List.getD_cons_succ]
  have hfd : entFromDict ctx8 noCtor 0 (.vdict [("a", Val.vstr "x")]) =
      .ok (.vent 0 [(0, Val.vstr "x"), (1, Val.vlist [])]) := by
    have henum : (classFields ctx8 0).enum =
        [(0, (⟨"a", "a", true, false, none⟩ : FieldSpec)),
         (1, (⟨"b", "b", true, true, none⟩ : FieldSpec))] := by decide
    simp [entFromDict, fieldsFromDict, henum, parseField, lookupD,
      alookup, tfSet, setValue, tfClean, cleanAll, seqElems, isSeq,
      pyTruthy, aset]
  constructor
  · have hA := h.1 [(0, Val.vstr "x"), (1, Val.vlist [])]
      [("a", Val.vstr "x")] 1 (Val.vlist []) (by decide) (by decide)
      (by decide) htd hdv
    simpa [fspecAt, classFields, ctx8, keptVal, List.getD_cons_zero,
      List.getD_cons_succ] using hA
  · have hB := h.2 [("a", Val.vstr "x")]
      [(0, Val.vstr "x"), (1, Val.vlist [])] 1 ⟨"b", "b", true, true, none⟩
      (by decide) rfl hfd
    simpa using hB


mutual

/-- Raw (non-entity) values as stored in untyped fields: no entities
anywhere, and every nested dict has pairwise distinct keys (a Python
dict cannot hold duplicate keys). -/
def goodRaw : Val → Bool
  | .vnone => true
  | .vstr _ => true
  | .vint _ => true
  | .vlist xs => goodRawList xs
  | .vdict kvs => decide (akeys kvs).Nodup && goodRawKVs kvs
  | .vent _ _ => false
termination_by v => (sizeOf v, 0)

def goodRawList : List Val → Bool
  | [] => true
  | x :: xs => goodRaw x && goodRawList xs
termination_by xs => (sizeOf xs, 1)

def goodRawKVs : List (String × Val) → Bool
  | [] => true
  | (_, v) :: kvs => goodRaw v && goodRawKVs kvs
termination_by kvs => (sizeOf kvs, 1)

end

theorem goodRawList_mem {xs : List Val} (h : goodRawList xs = true) :
    ∀ x ∈ xs, goodRaw x = true := by
  induction xs with
  | nil => simp
  | cons x xs ih =>
    rw [goodRawList] at h
    rw [Bool.and_eq_true] at h
    intro y hy
    rcases List.mem_cons.mp hy with hy | hy
    · exact hy ▸ h.1
    · exact ih h.2 y hy

theorem goodRawKVs_mem {kvs : List (String × Val)}
    (h : goodRawKVs kvs = true) : ∀ kv ∈ kvs, goodRaw kv.2 = true := by
  induction kvs with
  | nil => simp
  | cons kv kvs ih =>
    obtain ⟨k, v⟩ := kv
    rw [goodRawKVs] at h
    rw [Bool.and_eq_true] at h
    intro kv2 hkv2
    rcases List.mem_cons.mp hkv2 with hy | hy
    · rw [hy]
      exact h.1
    · exact ih h.2 kv2 hy

/-- Python `==` is reflexive on entity-free values with duplicate-free
nested dicts. -/
theorem pyEq_refl (ctx : Ctx) :
    ∀ (n : Nat) (v : Val), sizeOf v ≤ n → goodRaw v = true →
      pyEq ctx v v = true := by
  intro n
  induction n with
  | zero =>
    intro v hsz
    cases v <;> simp at hsz
  | succ n ih =>
    intro v hsz hg
    cases v with
    | vnone => simp [pyEq]
    | vstr s => simp [pyEq]
    | vint m => simp [pyEq]
    | vent c flds => rw [goodRaw] at hg; cases hg
    | vlist xs =>
      rw [goodRaw] at hg
      have hxs : ∀ x ∈ xs, sizeOf x ≤ n := by
        intro x hx
        have h1 := List.sizeOf_lt_of_mem hx
        simp at hsz
        omega
      rw [pyEq]
      clear hsz
      induction xs with
      | nil => rw [pyEqList]
      | cons x xs2 ih2 =>
        rw [goodRawList, Bool.and_eq_true] at hg
        rw [pyEqList, Bool.and_eq_true]
        constructor
        · exact ih x (hxs x (List.mem_cons_self _ _)) hg.1
        · exact ih2 hg.2 (fun x hx => hxs x (List.mem_cons_of_mem _ hx))
    | vdict kvs =>
      rw [goodRaw] at hg
      rw [Bool.and_eq_true, decide_eq_true_iff] at hg
      have hvs : ∀ kv ∈ kvs, sizeOf kv.2 ≤ n := by
        intro kv hkv
        have h1 := sizeOf_mem_val hkv
        simp at hsz
        omega
      rw [pyEq]
      have hside : pyEqDictL ctx kvs kvs = true := by
        have hgen : ∀ sub : List (String × Val),
            (∀ kv ∈ sub, kv ∈ kvs) → pyEqDictL ctx sub kvs = true := by
          intro sub
          induction sub with
          | nil => intro hsub; rw [pyEqDictL]
          | cons kv rest ih2 =>
            intro hsub
            obtain ⟨k, v⟩ := kv
            rw [pyEqDictL, Bool.and_eq_true]
            constructor
            · have hmem : (k, v) ∈ kvs :=
                hsub (k, v) (List.mem_cons_self _ _)
              have halk : alookup kvs k = some v := mem_alookup hg.1 hmem
              rw [halk]
              exact ih v (hvs (k, v) hmem)
                (goodRawKVs_mem hg.2 (k, v) hmem)
            · exact ih2 (fun kv hkv => hsub kv (List.mem_cons_of_mem _ hkv))
        exact hgen kvs (fun kv h => h)
      rw [hside]
      rfl


/-- The key names declared by a class are pairwise distinct (as produced
by `TypedField.key_name` resolution in non-degenerate classes). -/
def distinctKeyNames (fs : List FieldSpec) : Bool :=
  decide (fs.map (fun f => f.keyName)).Nodup

/-- An untyped `multiple` field stores a list of non-`None` raw
values. -/
def wfRawList (v : Val) : Bool :=
  match v with
  | .vlist xs => goodRawList xs && xs.all isNotNone
  | _ => false

mutual

/-- Well-formed entity value: the class declares at least one comparable
field, pairwise distinct key names, and no comparable field that is both
`multiple` and typed (such a field stores a `TypedList`, which compares
by identity and is never equal between distinct entities); the `_fields`
dict has distinct keys, all of which are declared field indices; and
every stored value is well formed for its field. -/
def wfEnt (ctx : Ctx) (v : Val) : Bool :=
  match v with
  | .vent c flds =>
      !((classFields ctx c).filter (fun f => f.comparable)).isEmpty &&
      (classFields ctx c).all
        (fun f => !(f.comparable && f.multiple && f.typeRef.isSome)) &&
      distinctKeyNames (classFields ctx c) &&
      decide (akeys flds).Nodup &&
      flds.all (fun kv => kv.1 < (classFields ctx c).length) &&
      wfFields ctx c flds
  | _ => false
termination_by (sizeOf v, 1)

def wfFields (ctx : Ctx) (c : Nat) (flds : List (Nat × Val)) : Bool :=
  match flds with
  | [] => true
  | (fid, v) :: rest =>
      wfFieldVal ctx (fspecAt ctx c fid) v && wfFields ctx c rest
termination_by (sizeOf flds, 0)

/-- Well-formed stored value for one field, i.e. a value the descriptor
`__set__` can produce and that survives the dict round trip: a typed
`multiple` field holds a list of well-formed entities of the declared
class; a typed scalar field holds `None` or such an entity; an untyped
`multiple` field holds a list of non-`None` raw values; an untyped
scalar field holds a raw value other than the empty list (an empty list
would be omitted by `to_dict` and come back as `None`). -/
def wfFieldVal (ctx : Ctx) (f : FieldSpec) (v : Val) : Bool :=
  match f.typeRef with
  | some tc =>
      if f.multiple then wfTypedList ctx tc v else wfTypedSingle ctx tc v
  | none =>
      if f.multiple then wfRawList v else goodRaw v && !(isEmptyListV v)
termination_by (sizeOf v, 3)

def wfTypedList (ctx : Ctx) (tc : Nat) (v : Val) : Bool :=
  match v with
  | .vlist xs => wfEntList ctx tc xs
  | _ => false
termination_by (sizeOf v, 2)

def wfTypedSingle (ctx : Ctx) (tc : Nat) (v : Val) : Bool :=
  match v with
  | .vnone => true
  | .vent c2 flds2 => c2 == tc && wfEnt ctx (.vent c2 flds2)
  | _ => false
termination_by (sizeOf v, 2)

def wfEntList (ctx : Ctx) (tc : Nat) (xs : List Val) : Bool :=
  match xs with
  | [] => true
  | x :: rest =>
      (match x with
       | .vent c2 flds2 => c2 == tc && wfEnt ctx (.vent c2 flds2)
       | _ => false) && wfEntList ctx tc rest
termination_by (sizeOf xs, 0)

end

theorem wfFields_lookup {ctx : Ctx} {c : Nat} :
    ∀ {flds : List (Nat × Val)} {fid : Nat} {v : Val},
      wfFields ctx c flds = true → alookup flds fid = some v →
      wfFieldVal ctx (fspecAt ctx c fid) v = true := by
  intro flds
  induction flds with
  | nil =>
    intro fid v hwf halk
    simp [alookup] at halk
  | cons kv rest ih =>
    intro fid v hwf halk
    obtain ⟨fid0, v0⟩ := kv
    rw [wfFields, Bool.and_eq_true] at hwf
    rw [alookup] at halk
    by_cases hfid : fid0 = fid
    · rw [if_pos hfid] at halk
      injection halk with halk
      subst hfid
      rw [← halk]
      exact hwf.1
    · rw [if_neg hfid] at halk
      exact ih hwf.2 halk

theorem wfEntList_head {ctx : Ctx} {tc : Nat} {x : Val} {rest : List Val}
    (h : wfEntList ctx tc (x :: rest) = true) :
    (∃ flds2, x = .vent tc flds2 ∧ wfEnt ctx x = true) ∧
    wfEntList ctx tc rest = true := by
  cases x with
  | vent c2 flds2 =>
    rw [wfEntList, Bool.and_eq_true] at h
    have h1 := h.1
    rw [Bool.and_eq_true, beq_iff_eq] at h1
    exact ⟨⟨flds2, by rw [h1.1], h1.2⟩, h.2⟩
  | vnone =>
    rw [wfEntList, Bool.and_eq_true] at h
    · cases h.1
    · intro c flds h2
      cases h2
  | vstr s =>
    rw [wfEntList, Bool.and_eq_true] at h
    · cases h.1
    · intro c flds h2
      cases h2
  | vint m =>
    rw [wfEntList, Bool.and_eq_true] at h
    · cases h.1
    · intro c flds h2
      cases h2
  | vlist xs =>
    rw [wfEntList, Bool.and_eq_true] at h
    · cases h.1
    · intro c flds h2
      cases h2
  | vdict kvs =>
    rw [wfEntList, Bool.and_eq_true] at h
    · cases h.1
    · intro c flds h2
      cases h2


/-- `_clean` is the identity on untyped fields. -/
theorem tfClean_untyped {ctx : Ctx} {ctor : Ctor} {f : FieldSpec}
    (htr : f.typeRef = none) (v : Val) :
    tfClean ctx ctor f v = .ok v := by
  cases v <;> simp [tfClean, htr]

/-- `_clean` is the identity on values of the declared type. -/
theorem tfClean_typed {ctx : Ctx} {ctor : Ctor} {f : FieldSpec}
    {tc : Nat} {v : Val} (htr : f.typeRef = some tc)
    (hck : checkType tc v = true) :
    tfClean ctx ctor f v = .ok v := by
  cases v with
  | vent c2 flds2 => simp [tfClean, htr, hck]
  | vnone => rfl
  | vstr s => simp [checkType] at hck
  | vint m => simp [checkType] at hck
  | vlist xs => simp [checkType] at hck
  | vdict kvs => simp [checkType] at hck

/-- Cleaning a list of values on which `_clean` is the identity. -/
theorem cleanAll_id {ctx : Ctx} {ctor : Ctor} {f : FieldSpec} :
    ∀ {xs : List Val}, (∀ x ∈ xs, tfClean ctx ctor f x = .ok x) →
      cleanAll ctx ctor f xs = .ok xs := by
  intro xs
  induction xs with
  | nil => intro h; rfl
  | cons x rest ih =>
    intro h
    rw [cleanAll, h x (List.mem_cons_self _ _),
      ih (fun y hy => h y (List.mem_cons_of_mem _ hy))]

/-- `__set__` on a non-`multiple` field stores the cleaned value. -/
theorem setValue_single {ctx : Ctx} {ctor : Ctor} {f : FieldSpec}
    (hm : f.multiple = false) (v : Val) :
    setValue ctx ctor f v = tfClean ctx ctor f v := by
  simp [setValue, hm]

/-- Assigning a field's default stores it unchanged. -/
theorem setValue_default (ctx : Ctx) (ctor : Ctor) (f : FieldSpec) :
    setValue ctx ctor f
        (if f.multiple then Val.vlist [] else Val.vnone) =
      .ok (if f.multiple then Val.vlist [] else Val.vnone) := by
  by_cases hm : f.multiple = true
  · simp [setValue, hm, isSeq, seqElems, cleanAll]
  · simp only [Bool.not_eq_true] at hm
    simp [setValue, hm, tfClean]

/-- `_dictify` is the identity on untyped scalar fields. -/
theorem fieldConv_untyped_single {ctx : Ctx} {f : FieldSpec}
    (htr : f.typeRef = none) (hm : f.multiple = false) (v : Val) :
    fieldConv ctx f v = .ok v := by
  cases v <;>
    (rw [fieldConv.eq_def, hm]
     simp only [Bool.false_eq_true, if_false]
     rw [dictifyVal.eq_def, htr])

/-- Element-wise `_dictify` is the identity on untyped fields. -/
theorem dictifyList_untyped {ctx : Ctx} {f : FieldSpec}
    (htr : f.typeRef = none) :
    ∀ xs : List Val, dictifyList ctx f xs = .ok xs := by
  intro xs
  induction xs with
  | nil => rw [dictifyList]
  | cons x rest ih =>
    rw [dictifyList, ih]
    have hx : dictifyVal ctx f x = .ok x := by
      cases x <;> rw [dictifyVal.eq_def, htr]
    rw [hx]

/-- The `multiple` branch of `to_dict` conversion on untyped fields
returns the stored list unchanged. -/
theorem fieldConv_untyped_multiple {ctx : Ctx} {f : FieldSpec}
    (htr : f.typeRef = none) (hm : f.multiple = true) (xs : List Val) :
    fieldConv ctx f (Val.vlist xs) = .ok (Val.vlist xs) := by
  cases xs with
  | nil => simp [fieldConv, hm]
  | cons x rest =>
    simp [fieldConv, hm, dictifyList_untyped htr]

/-- `dictifyList` succeeds pointwise. -/
theorem dictifyList_ok {ctx : Ctx} {f : FieldSpec} :
    ∀ {xs ds : List Val},
      List.Forall₂ (fun x d => dictifyVal ctx f x = .ok d) xs ds →
      dictifyList ctx f xs = .ok ds := by
  intro xs
  induction xs with
  | nil =>
    intro ds h
    cases h
    rw [dictifyList]
  | cons x rest ih =>
    intro ds h
    cases h with
    | cons hx hrest =>
      rw [dictifyList, hx, ih hrest]

/-- `fromDictList` succeeds pointwise. -/
theorem fromDictList_ok {ctx : Ctx} {ctor : Ctor} {tc : Nat} :
    ∀ {ds es : List Val},
      List.Forall₂ (fun d e => entFromDict ctx ctor tc d = .ok e) ds es →
      fromDictList ctx ctor tc ds = .ok es := by
  intro ds
  induction ds with
  | nil =>
    intro es h
    cases h
    rw [fromDictList]
  | cons d rest ih =>
    intro es h
    cases h with
    | cons hd hrest =>
      rw [fromDictList, hd, ih hrest]

/-- Element-wise Python `==` from a pointwise relation. -/
theorem pyEqList_of_forall2 {ctx : Ctx} :
    ∀ {xs es : List Val},
      List.Forall₂ (fun x e => pyEq ctx x e = true) xs es →
      pyEqList ctx xs es = true := by
  intro xs
  induction xs with
  | nil =>
    intro es h
    cases h
    rw [pyEqList]
  | cons x rest ih =>
    intro es h
    cases h with
    | cons hx hrest =>
      rw [pyEqList, hx, ih hrest]
      rfl

/-- `to_dict`'s field loop succeeds when every per-field conversion
does. -/
theorem fieldsToDict_ok {ctx : Ctx} {c : Nat} :
    ∀ (flds : List (Nat × Val)) (acc : List (String × Val)),
      (∀ kv ∈ flds, ∃ dv, fieldConv ctx (fspecAt ctx c kv.1) kv.2 = .ok dv) →
      ∃ kvs, fieldsToDict ctx c flds acc = .ok kvs := by
  intro flds
  induction flds with
  | nil =>
    intro acc h
    exact ⟨acc, by rw [fieldsToDict]⟩
  | cons kv rest ih =>
    intro acc h
    obtain ⟨fid0, v0⟩ := kv
    obtain ⟨dv, hdv⟩ := h (fid0, v0) (List.mem_cons_self _ _)
    obtain ⟨kvs, hkvs⟩ := ih
      (if keptVal dv then aset acc (fspecAt ctx c fid0).keyName dv else acc)
      (fun kv hm => h kv (List.mem_cons_of_mem _ hm))
    refine ⟨kvs, ?_⟩
    rw [fieldsToDict, hdv]
    exact hkvs

/-- `from_dict`'s field loop succeeds when every per-field parse and
store does. -/
theorem fieldsFromDict_ok {ctx : Ctx} {ctor : Ctor} {c : Nat}
    {kvs : List (String × Val)} :
    ∀ (specs : List (Nat × FieldSpec)) (flds : List (Nat × Val)),
      (∀ s ∈ specs, ∃ parsed stored2,
        parseField ctx ctor s.2 (lookupD kvs s.2.keyName) = .ok parsed ∧
        setValue ctx ctor s.2 parsed = .ok stored2) →
      ∃ out, fieldsFromDict ctx ctor c specs kvs flds = .ok out := by
  intro specs
  induction specs with
  | nil =>
    intro flds h
    exact ⟨flds, by rw [fieldsFromDict]⟩
  | cons s rest ih =>
    intro flds h
    obtain ⟨fid0, f0⟩ := s
    obtain ⟨parsed, stored2, hpf, hsv⟩ := h (fid0, f0) (List.mem_cons_self _ _)
    obtain ⟨out, hout⟩ := ih (aset flds fid0 stored2)
      (fun s hm => h s (List.mem_cons_of_mem _ hm))
    refine ⟨out, ?_⟩
    rw [fieldsFromDict, hpf]
    have hts : tfSet ctx ctor f0 fid0 flds parsed =
        .ok (aset flds fid0 stored2) := by
      unfold tfSet
      rw [hsv]
    simp only
    rw [hts]
    simp only
    exact hout

/-- What one `from_dict` iteration stores for a field: the normalized
parse of the value read under its key name (later iterations write other
field indices only). -/
theorem fieldsFromDict_stored {ctx : Ctx} {ctor : Ctor} {c : Nat}
    {kvs : List (String × Val)} {fid : Nat} {f : FieldSpec}
    {parsed stored2 : Val}
    (hpf : parseField ctx ctor f (lookupD kvs f.keyName) = .ok parsed)
    (hsv : setValue ctx ctor f parsed = .ok stored2) :
    ∀ (specs : List (Nat × FieldSpec)) (flds out : List (Nat × Val)),
      (fid, f) ∈ specs →
      (specs.map Prod.fst).Nodup →
      fieldsFromDict ctx ctor c specs kvs flds = .ok out →
      alookup out fid = some stored2 := by
  intro specs
  induction specs with
  | nil =>
    intro flds out hmem
    simp at hmem
  | cons s rest ih =>
    intro flds out hmem hnd h
    obtain ⟨fid0, f0⟩ := s
    simp only [List.map, List.nodup_cons] at hnd
    unfold fieldsFromDict at h
    cases hpf0 : parseField ctx ctor f0 (lookupD kvs f0.keyName) with
    | error e => rw [hpf0] at h; cases h
    | ok val2 =>
      rw [hpf0] at h
      simp only at h
      cases hts : tfSet ctx ctor f0 fid0 flds val2 with
      | error e => rw [hts] at h; cases h
      | ok flds2 =>
        rw [hts] at h
        simp only at h
        rcases List.mem_cons.mp hmem with hm0 | hm0
        · rw [Prod.mk.injEq] at hm0
          obtain ⟨h1, h2⟩ := hm0
          subst h1
          subst h2
          rw [hpf] at hpf0
          injection hpf0 with hpf0
          unfold tfSet at hts
          rw [← hpf0, hsv] at hts
          injection hts with hts
          have hskip := @fieldsFromDict_skip ctx ctor c kvs fid rest
            flds2 out
            (fun s hm => by
              intro he
              apply hnd.1
              rw [← he]
              exact List.mem_map_of_mem Prod.fst hm) h
          rw [hskip, ← hts, alookup_aset_self]
        · exact ih flds2 out hm0 hnd.2 h

/-- One field comparison of `Entity.__eq__`, on the two lookup
results. -/
def cmpOne (ctx : Ctx) (f : FieldSpec) : Option Val → Option Val → Bool
  | some v1, some v2 => pyEq ctx v1 v2
  | some v1, none => if f.multiple then isEmptyListV v1 else isVnoneV v1
  | none, some v2 => if f.multiple then isEmptyListV v2 else isVnoneV v2
  | none, none => true

theorem fieldCmp_eq (ctx : Ctx) (f : FieldSpec) (f1 f2 : List (Nat × Val))
    (fid : Nat) :
    fieldCmp ctx f f1 f2 fid =
      (if f.multiple && f.typeRef.isSome then false
       else cmpOne ctx f (alookup f1 fid) (alookup f2 fid)) := by
  unfold fieldCmp
  by_cases hc : (f.multiple && f.typeRef.isSome) = true
  · rw [if_pos hc, if_pos hc]
  · rw [if_neg hc, if_neg hc]
    cases h1 : alookup f1 fid <;> cases h2 : alookup f2 fid <;> rfl


theorem pyEq_none (ctx : Ctx) : pyEq ctx .vnone .vnone = true := by
  rw [pyEq]

theorem pyEq_vlist (ctx : Ctx) (xs ys : List Val) :
    pyEq ctx (.vlist xs) (.vlist ys) = pyEqList ctx xs ys := by
  rw [pyEq]

theorem pyEq_ent (ctx : Ctx) (c1 : Nat) (f1 : List (Nat × Val)) (c2 : Nat)
    (f2 : List (Nat × Val)) :
    pyEq ctx (.vent c1 f1) (.vent c2 f2) = entStructEq ctx c1 f1 c2 f2 := by
  rw [pyEq]

theorem checkType_isNotNone {tc : Nat} {e : Val}
    (h : checkType tc e = true) : isNotNone e = true := by
  cases e <;> simp [checkType, isNotNone] at h ⊢

theorem keptVal_false {v : Val} (h : keptVal v = false) :
    v = .vnone ∨ v = .vlist [] := by
  cases v with
  | vnone => exact Or.inl rfl
  | vlist xs =>
    cases xs with
    | nil => exact Or.inr rfl
    | cons x r => simp [keptVal] at h
  | vstr s => simp [keptVal] at h
  | vint m => simp [keptVal] at h
  | vdict kvs => simp [keptVal] at h
  | vent c flds => simp [keptVal] at h

/-- The transformer of `from_dict` on untyped fields: a falsy value on a
`multiple` field becomes `[]`, anything else passes through raw. -/
theorem parseField_untyped {ctx : Ctx} {ctor : Ctor} {f : FieldSpec}
    (htr : f.typeRef = none) (val : Val) :
    parseField ctx ctor f val =
      .ok (if f.multiple && !(pyTruthy val) then Val.vlist [] else val) := by
  rw [parseField.eq_def, htr]
  by_cases hc : (f.multiple && !(pyTruthy val)) = true
  · rw [if_pos hc, if_pos hc]
  · rw [if_neg hc, if_neg hc]

/-- The transformer of `from_dict` on typed scalar fields is the
recursive `from_dict` of the declared class. -/
theorem parseField_typed_single {ctx : Ctx} {ctor : Ctor} {f : FieldSpec}
    {tc : Nat} (htr : f.typeRef = some tc) (hm : f.multiple = false)
    (val : Val) :
    parseField ctx ctor f val = entFromDict ctx ctor tc val := by
  rw [parseField.eq_def, htr, hm]
  simp only [Bool.false_eq_true, if_false]

/-- The round trip property for one entity. -/
def RT (ctx : Ctx) (ctor : Ctor) (c : Nat) (flds : List (Nat × Val)) :
    Prop :=
  ∃ kvs flds2,
    entToDict ctx (.vent c flds) = .ok (.vdict kvs) ∧
    entFromDict ctx ctor c (.vdict kvs) = .ok (.vent c flds2) ∧
    entStructEq ctx c flds c flds2 = true

/-- Pointwise round trip for a list of well-formed entities of a
declared class. -/
theorem entListChain {ctx : Ctx} {ctor : Ctor} {n : Nat}
    (hIH : ∀ c2 flds2, sizeOf (Val.vent c2 flds2) ≤ n →
      wfEnt ctx (.vent c2 flds2) = true → RT ctx ctor c2 flds2)
    {f : FieldSpec} {tc : Nat} (htr : f.typeRef = some tc) :
    ∀ xs : List Val, (∀ x ∈ xs, sizeOf x ≤ n) →
      wfEntList ctx tc xs = true →
      ∃ ds es,
        List.Forall₂ (fun x d => dictifyVal ctx f x = .ok d) xs ds ∧
        List.Forall₂ (fun d e => entFromDict ctx ctor tc d = .ok e) ds es ∧
        List.Forall₂ (fun x e => pyEq ctx x e = true) xs es ∧
        (∀ e ∈ es, checkType tc e = true) := by
  intro xs
  induction xs with
  | nil =>
    intro hsz hwf
    exact ⟨[], [], .nil, .nil, .nil, by simp⟩
  | cons x rest ih =>
    intro hsz hwf
    obtain ⟨⟨flds2, hx, hwfx⟩, hwfrest⟩ := wfEntList_head hwf
    subst hx
    have hszx : sizeOf (Val.vent tc flds2) ≤ n :=
      hsz _ (List.mem_cons_self _ _)
    obtain ⟨kvs1, flds3, htd, hfd, hseq⟩ := hIH tc flds2 hszx hwfx
    obtain ⟨ds, es, h1, h2, h3, h4⟩ := ih
      (fun y hy => hsz y (List.mem_cons_of_mem _ hy)) hwfrest
    refine ⟨.vdict kvs1 :: ds, .vent tc flds3 :: es, ?_, ?_, ?_, ?_⟩
    · refine List.Forall₂.cons ?_ h1
      rw [dictifyVal.eq_def, htr]
      exact htd
    · exact List.Forall₂.cons hfd h2
    · refine List.Forall₂.cons ?_ h3
      rw [pyEq_ent]
      exact hseq
    · intro e he
      rcases List.mem_cons.mp he with he | he
      · rw [he]
        simp [checkType]
      · exact h4 e he

/-- One set field survives the dict round trip: its `to_dict` conversion
succeeds, the `from_dict` transformer accepts what the sparse mapping
hands back (the converted value if kept, else `None`), the descriptor
stores the parsed result, and the stored result is `==` to the original
value. -/
theorem fieldChain {ctx : Ctx} {ctor : Ctor} {n : Nat}
    (hIH : ∀ c2 flds2, sizeOf (Val.vent c2 flds2) ≤ n →
      wfEnt ctx (.vent c2 flds2) = true → RT ctx ctor c2 flds2)
    (f : FieldSpec) (v : Val) (hwf : wfFieldVal ctx f v = true)
    (hsz : sizeOf v ≤ n) :
    ∃ dv parsed stored2,
      fieldConv ctx f v = .ok dv ∧
      parseField ctx ctor f (if keptVal dv then dv else .vnone) =
        .ok parsed ∧
      setValue ctx ctor f parsed = .ok stored2 ∧
      pyEq ctx v stored2 = true := by
  rw [wfFieldVal.eq_def] at hwf
  cases htr : f.typeRef with
  | none =>
    rw [htr] at hwf
    simp only at hwf
    by_cases hm : f.multiple = true
    · rw [if_pos hm] at hwf
      cases v with
      | vlist xs =>
        simp only [wfRawList, Bool.and_eq_true] at hwf
        have hnn : ∀ x ∈ xs, isNotNone x = true := by
          have h2 := hwf.2
          rw [List.all_eq_true] at h2
          exact fun x hx => h2 x hx
        cases xs with
        | nil =>
          refine ⟨.vlist [], .vlist [], .vlist [], ?_, ?_, ?_, ?_⟩
          · exact fieldConv_untyped_multiple htr hm []
          · rw [parseField_untyped htr]
            simp [keptVal, hm, pyTruthy]
          · simp [setValue, hm, isSeq, seqElems, cleanAll]
          · rw [pyEq_vlist, pyEqList]
        | cons x rest =>
          refine ⟨.vlist (x :: rest), .vlist (x :: rest),
            .vlist (x :: rest), ?_, ?_, ?_, ?_⟩
          · exact fieldConv_untyped_multiple htr hm (x :: rest)
          · rw [parseField_untyped htr]
            simp [keptVal, hm, pyTruthy]
          · rw [setValue_seq hm (by rfl)]
            have hfe : (seqElems (Val.vlist (x :: rest))).filter isNotNone
                = x :: rest := by
              rw [seqElems]
              exact List.filter_eq_self.mpr hnn
            rw [hfe, cleanAll_id (fun y hy => tfClean_untyped htr y)]
            rfl
          · refine pyEq_refl ctx (sizeOf (Val.vlist (x :: rest))) _
              (Nat.le_refl _) ?_
            rw [goodRaw]
            exact hwf.1
      | vnone => simp [wfRawList] at hwf
      | vstr s => simp [wfRawList] at hwf
      | vint m => simp [wfRawList] at hwf
      | vdict kvs => simp [wfRawList] at hwf
      | vent c2 flds2 => simp [wfRawList] at hwf
    · rw [if_neg hm] at hwf
      simp only [Bool.not_eq_true] at hm
      rw [Bool.and_eq_true, Bool.not_eq_true'] at hwf
      obtain ⟨hg, hne⟩ := hwf
      by_cases hk : keptVal v = true
      · refine ⟨v, v, v, fieldConv_untyped_single htr hm v, ?_, ?_, ?_⟩
        · rw [if_pos hk, parseField_untyped htr, hm]
          rfl
        · rw [setValue_single hm, tfClean_untyped htr]
        · exact pyEq_refl ctx (sizeOf v) v (Nat.le_refl _) hg
      · rw [Bool.not_eq_true] at hk
        rcases keptVal_false hk with hv | hv
        · subst hv
          refine ⟨.vnone, .vnone, .vnone,
            fieldConv_untyped_single htr hm .vnone, ?_, ?_, ?_⟩
          · rw [hk, parseField_untyped htr, hm]
            rfl
          · rw [setValue_single hm, tfClean_untyped htr]
          · exact pyEq_none ctx
        · rw [hv] at hne
          simp [isEmptyListV] at hne
  | some tc =>
    rw [htr] at hwf
    simp only at hwf
    by_cases hm : f.multiple = true
    · rw [if_pos hm] at hwf
      cases v with
      | vlist xs =>
        simp only [wfTypedList] at hwf
        have hszxs : ∀ x ∈ xs, sizeOf x ≤ n := by
          intro x hx
          have h1 := List.sizeOf_lt_of_mem hx
          simp at hsz
          omega
        obtain ⟨ds, es, h1, h2, h3, h4⟩ :=
          entListChain hIH htr xs hszxs hwf
        cases xs with
        | nil =>
          cases h1
          cases h2
          refine ⟨.vlist [], .vlist [], .vlist [], ?_, ?_, ?_, ?_⟩
          · simp [fieldConv, hm]
          · rw [parseField.eq_def, htr, hm]
            simp [keptVal]
          · simp [setValue, hm, isSeq, seqElems, cleanAll]
          · rw [pyEq_vlist, pyEqList]
        | cons x rest =>
          cases h1 with
          | cons h1x h1rest =>
            rename_i d ds2
            refine ⟨.vlist (d :: ds2), .vlist es, .vlist es, ?_, ?_, ?_, ?_⟩
            · rw [fieldConv.eq_def, hm]
              simp only [if_true]
              rw [dictifyList_ok (List.Forall₂.cons h1x h1rest)]
            · simp only [show keptVal (Val.vlist (d :: ds2)) = true from
                rfl, if_true]
              rw [parseField.eq_def, htr, hm]
              simp only [if_true]
              rw [fromDictList_ok h2]
            · rw [setValue_seq hm (by rfl)]
              have hfe : (seqElems (Val.vlist es)).filter isNotNone
                  = es := by
                rw [seqElems]
                exact List.filter_eq_self.mpr
                  (fun e he => checkType_isNotNone (h4 e he))
              rw [hfe, cleanAll_id
                (fun e he => tfClean_typed htr (h4 e he))]
              rfl
            · rw [pyEq_vlist]
              exact pyEqList_of_forall2 h3
      | vnone => simp [wfTypedList] at hwf
      | vstr s => simp [wfTypedList] at hwf
      | vint m => simp [wfTypedList] at hwf
      | vdict kvs => simp [wfTypedList] at hwf
      | vent c2 flds2 => simp [wfTypedList] at hwf
    · rw [if_neg hm] at hwf
      simp only [Bool.not_eq_true] at hm
      cases v with
      | vnone =>
        refine ⟨.vnone, .vnone, .vnone, ?_, ?_, ?_, pyEq_none ctx⟩
        · rw [fieldConv.eq_def, hm]
          simp only [Bool.false_eq_true, if_false]
          rw [dictifyVal.eq_def, htr]
        · simp only [show keptVal Val.vnone = false from rfl,
            Bool.false_eq_true, if_false]
          rw [parseField_typed_single htr hm, entFromDict]
        · rw [setValue_single hm]
          rfl
      | vent c2 flds2 =>
        simp only [wfTypedSingle, Bool.and_eq_true, beq_iff_eq] at hwf
        obtain ⟨hc2, hwfe⟩ := hwf
        subst hc2
        obtain ⟨kvs1, flds3, htd, hfd, hseq⟩ :=
          hIH _ flds2 hsz hwfe
        refine ⟨.vdict kvs1, .vent c2 flds3, .vent c2 flds3, ?_, ?_, ?_, ?_⟩
        · rw [fieldConv.eq_def, hm]
          simp only [Bool.false_eq_true, if_false]
          rw [dictifyVal.eq_def, htr]
          exact htd
        · simp only [show keptVal (Val.vdict kvs1) = true from rfl,
            if_true]
          rw [parseField_typed_single htr hm]
          exact hfd
        · rw [setValue_single hm,
            tfClean_typed htr (by simp [checkType])]
        · rw [pyEq_ent]
          exact hseq
      | vstr s => simp [wfTypedSingle] at hwf
      | vint m => simp [wfTypedSingle] at hwf
      | vlist xs => simp [wfTypedSingle] at hwf
      | vdict kvs => simp [wfTypedSingle] at hwf

/-- Pairwise distinct key names, read through `fspecAt`. -/
theorem fspecAt_keyName_ne {ctx : Ctx} {c : Nat}
    (h : ((classFields ctx c).map (fun f => f.keyName)).Nodup)
    {i j : Nat} (hi : i < (classFields ctx c).length)
    (hj : j < (classFields ctx c).length) (hij : i ≠ j) :
    (fspecAt ctx c i).keyName ≠ (fspecAt ctx c j).keyName := by
  intro hcon
  apply hij
  have hi2 : i < ((classFields ctx c).map (fun f => f.keyName)).length := by
    simpa using hi
  have hj2 : j < ((classFields ctx c).map (fun f => f.keyName)).length := by
    simpa using hj
  have e1 : ((classFields ctx c).map (fun f => f.keyName)).get ⟨i, hi2⟩ =
      (fspecAt ctx c i).keyName := by
    simp only [List.get_eq_getElem, List.getElem_map]
    rw [fspecAt, List.getD_eq_getElem _ _ hi]
  have e2 : ((classFields ctx c).map (fun f => f.keyName)).get ⟨j, hj2⟩ =
      (fspecAt ctx c j).keyName := by
    simp only [List.get_eq_getElem, List.getElem_map]
    rw [fspecAt, List.getD_eq_getElem _ _ hj]
  have h3 : ((classFields ctx c).map (fun f => f.keyName)).get ⟨i, hi2⟩ =
      ((classFields ctx c).map (fun f => f.keyName)).get ⟨j, hj2⟩ := by
    rw [e1, e2, hcon]
  have h4 := List.nodup_iff_injective_get.mp h h3
  exact congrArg Fin.val h4

/-- Membership in the enumerated field list determines the field
spec. -/
theorem enum_mem_fspec {ctx : Ctx} {c : Nat} {fid : Nat} {f : FieldSpec}
    (h : (fid, f) ∈ (classFields ctx c).enum) :
    fid < (classFields ctx c).length ∧ fspecAt ctx c fid = f := by
  rw [List.mk_mem_enum_iff_getElem?, List.getElem?_eq_some] at h
  obtain ⟨hlt, hget⟩ := h
  exact ⟨hlt, by rw [fspecAt, List.getD_eq_getElem _ _ hlt, hget]⟩

/-- The dict round trip for well-formed entities: `to_dict` succeeds,
`from_dict` of the result succeeds and yields an entity of the same
class that is structurally equal to the original. -/
theorem entRoundTrip (ctx : Ctx) (ctor : Ctor) :
    ∀ (n : Nat) (c : Nat) (flds : List (Nat × Val)),
      sizeOf (Val.vent c flds) ≤ n →
      wfEnt ctx (.vent c flds) = true →
      RT ctx ctor c flds := by
  intro n
  induction n with
  | zero =>
    intro c flds hsz _
    exfalso
    have he : sizeOf (Val.vent c flds) = 1 + sizeOf c + sizeOf flds := by
      simp
    omega
  | succ n ih =>
    intro c flds hsz hwf
    rw [wfEnt] at hwf
    rw [Bool.and_eq_true, Bool.and_eq_true, Bool.and_eq_true,
      Bool.and_eq_true, Bool.and_eq_true] at hwf
    obtain ⟨⟨⟨⟨⟨hcmp, hcmt⟩, hdkn⟩, hndf⟩, hrangef⟩, hwff⟩ := hwf
    rw [decide_eq_true_iff] at hndf
    rw [List.all_eq_true] at hrangef
    rw [List.all_eq_true] at hcmt
    rw [distinctKeyNames, decide_eq_true_iff] at hdkn
    have he : sizeOf (Val.vent c flds) = 1 + sizeOf c + sizeOf flds := by
      simp
    have hrange2 : ∀ kv ∈ flds, kv.1 < (classFields ctx c).length := by
      intro kv hmv
      have h2 := hrangef kv hmv
      simpa using h2
    have hndenum : ((classFields ctx c).enum.map Prod.fst).Nodup := by
      rw [List.enum_map_fst]
      exact List.nodup_range _
    have hconv : ∀ kv ∈ flds, ∃ dv parsed stored2,
        fieldConv ctx (fspecAt ctx c kv.1) kv.2 = .ok dv ∧
        parseField ctx ctor (fspecAt ctx c kv.1)
          (if keptVal dv then dv else .vnone) = .ok parsed ∧
        setValue ctx ctor (fspecAt ctx c kv.1) parsed = .ok stored2 ∧
        pyEq ctx kv.2 stored2 = true := by
      intro kv hmv
      have halk : alookup flds kv.1 = some kv.2 := mem_alookup hndf hmv
      have hwfv := wfFields_lookup hwff halk
      have hszv : sizeOf kv.2 ≤ n := by
        have h2 := sizeOf_mem_val hmv
        omega
      exact fieldChain ih (fspecAt ctx c kv.1) kv.2 hwfv hszv
    obtain ⟨kvs, hkvs⟩ := fieldsToDict_ok flds []
      (by
        intro kv hmv
        obtain ⟨dv, parsed, stored2, hdv, h2, h3, h4⟩ := hconv kv hmv
        exact ⟨dv, hdv⟩)
    have htd : entToDict ctx (.vent c flds) = .ok (.vdict kvs) := by
      rw [entToDict, hkvs]
    have hfield1 : ∀ fid f, (fid, f) ∈ (classFields ctx c).enum →
        ∃ parsed stored2,
          parseField ctx ctor f (lookupD kvs f.keyName) = .ok parsed ∧
          setValue ctx ctor f parsed = .ok stored2 ∧
          cmpOne ctx f (alookup flds fid) (some stored2) = true := by
      intro fid f hms
      obtain ⟨hflen, hfeq⟩ := enum_mem_fspec hms
      subst hfeq
      have hlem := fieldsToDict_lookup flds [] kvs hndf
        (fun kv hmv hne =>
          fspecAt_keyName_ne hdkn (hrange2 kv hmv) hflen hne)
        hkvs (by simp [akeys])
      cases halk : alookup flds fid with
      | some v =>
        rw [halk] at hlem
        simp only at hlem
        obtain ⟨dv, parsed, stored2, hdv, hpf, hsv, hpe⟩ :=
          hconv (fid, v) (alookup_mem halk)
        rw [hdv] at hlem
        simp only at hlem
        have hlookD : lookupD kvs (fspecAt ctx c fid).keyName =
            (if keptVal dv then dv else Val.vnone) := by
          rw [lookupD, hlem]
          by_cases hk : keptVal dv = true
          · rw [if_pos hk, if_pos hk]
          · rw [if_neg hk, if_neg hk]
        refine ⟨parsed, stored2, ?_, hsv, ?_⟩
        · rw [hlookD]
          exact hpf
        · exact hpe
      | none =>
        rw [halk] at hlem
        simp only at hlem
        have hlookD : lookupD kvs (fspecAt ctx c fid).keyName =
            Val.vnone := by
          rw [lookupD, hlem]
        refine ⟨(if (fspecAt ctx c fid).multiple then Val.vlist []
          else Val.vnone),
          (if (fspecAt ctx c fid).multiple then Val.vlist []
          else Val.vnone), ?_, ?_, ?_⟩
        · rw [hlookD]
          exact parseField_none ctx ctor _
        · exact setValue_default ctx ctor _
        · by_cases hmu : (fspecAt ctx c fid).multiple = true
          · simp [cmpOne, hmu, isEmptyListV]
          · simp only [Bool.not_eq_true] at hmu
            simp [cmpOne, hmu, isVnoneV]
    obtain ⟨out, hout⟩ := fieldsFromDict_ok (classFields ctx c).enum []
      (by
        intro s hms
        obtain ⟨parsed, stored2, hpf, hsv, hcm⟩ := hfield1 s.1 s.2 hms
        exact ⟨parsed, stored2, hpf, hsv⟩)
    have hfd : entFromDict ctx ctor c (.vdict kvs) = .ok (.vent c out) := by
      rw [entFromDict, hout]
    refine ⟨kvs, out, htd, hfd, ?_⟩
    rw [entStructEq, bne_self_eq_false]
    simp only [Bool.false_eq_true, if_false]
    rw [Bool.not_eq_true'] at hcmp
    rw [hcmp]
    simp only [Bool.false_eq_true, if_false]
    rw [entFieldsEq_iff]
    intro s hms hcomp
    obtain ⟨fid, f⟩ := s
    obtain ⟨parsed, stored2, hpf, hsv, hcm⟩ := hfield1 fid f hms
    have halo := fieldsFromDict_stored hpf hsv (classFields ctx c).enum
      [] out hms hndenum hout
    have hfmem : f ∈ classFields ctx c := by
      rw [List.mk_mem_enum_iff_getElem?, List.getElem?_eq_some] at hms
      obtain ⟨hlt, hget⟩ := hms
      rw [← hget]
      exact List.getElem_mem _
    have hmt : (f.multiple && f.typeRef.isSome) = false := by
      have h2 := hcmt f hfmem
      rw [Bool.not_eq_true'] at h2
      simp only at hcomp
      rw [hcomp] at h2
      simpa using h2
    simp only
    rw [fieldCmp_eq, hmt, halo]
    simp only [Bool.false_eq_true, if_false]
    exact hcm


/-- C1 counterexample: for a concrete class declaring no TypedFields at
all — so that vacuously every declared TypedField is comparable — the
dict round trip reproduces a structurally identical entity, yet Entity
equality on the result is False (`__eq__` returns False when the class
has zero comparable fields). -/
theorem claim1_counterexample :
    (∀ f ∈ classFields [⟨[], true⟩] 0, f.comparable = true) ∧
    entToDict [⟨[], true⟩] (.vent 0 []) = .ok (.vdict []) ∧
    entFromDict [⟨[], true⟩] noCtor 0 (.vdict []) = .ok (.vent 0 []) ∧
    pyEq [⟨[], true⟩] (.vent 0 []) (.vent 0 []) = false := by
  refine ⟨?_, ?_, ?_, ?_⟩
  · simp [classFields]
  · rw [entToDict, fieldsToDict]
  · rw [entFromDict,
      show (classFields [(⟨[], true⟩ : ClassSpec)] 0).enum = [] from rfl,
      fieldsFromDict]
  · rw [pyEq_ent, entStructEq]
    simp [classFields]

/-- C1 (amended): for every well-formed entity — every class in its
tree declares at least one comparable TypedField and pairwise distinct
key names, its `_fields` store holds declared field indices without
duplicates, and every stored value fits its field's declaration (in
particular an untyped scalar field does not store the empty list and a
`multiple` field stores no `None` elements) — the dict round trip
succeeds and reconstructs an entity of the same class that is
structurally equal to the original under Entity equality. -/
theorem claim1_round_trip_amended (ctx : Ctx) (ctor : Ctor) (c : Nat)
    (flds : List (Nat × Val))
    (hwf : wfEnt ctx (.vent c flds) = true) :
    ∃ kvs flds2,
      entToDict ctx (.vent c flds) = .ok (.vdict kvs) ∧
      entFromDict ctx ctor c (.vdict kvs) = .ok (.vent c flds2) ∧
      pyEq ctx (.vent c flds) (.vent c flds2) = true := by
  obtain ⟨kvs, flds2, h1, h2, h3⟩ :=
    entRoundTrip ctx ctor (sizeOf (Val.vent c flds)) c flds
      (Nat.le_refl _) hwf
  exact ⟨kvs, flds2, h1, h2, by rw [pyEq_ent]; exact h3⟩

/-- C1 witness: the amended round trip applied to a concrete two-field
entity. -/
theorem claim1_round_trip_witness :
    ∃ kvs flds2,
      entToDict ctx8 (.vent 0 [(0, Val.vstr "x"), (1, Val.vlist [])]) =
        .ok (.vdict kvs) ∧
      entFromDict ctx8 noCtor 0 (.vdict kvs) =
        .ok (.vent 0 flds2) ∧
      pyEq ctx8 (.vent 0 [(0, Val.vstr "x"), (1, Val.vlist [])])
        (.vent 0 flds2) = true := by
  apply claim1_round_trip_amended
  simp [wfEnt, wfFields, wfFieldVal, wfRawList, goodRaw, goodRawList,
    distinctKeyNames, classFields, ctx8, fspecAt, akeys, isEmptyListV,
    List.getD_cons_zero, List.getD_cons_succ]


end Mixbox
